import Mathlib

/-!
# Verification of the pycnfg configuration-resolution engine

Shallow embedding of `src/pycnfg/handler.py` and `src/pycnfg/producer.py`.

Python values are modelled by the inductive type `PyVal`; Python dicts are
association lists (`PyDict`) with insertion-order semantics: assignment to an
existing key replaces the value in place, assignment to a fresh key appends.
`copy.deepcopy` is the identity in this value semantics (aliasing is not
modelled).  Fallible Python code is modelled in `Except String`, where the
string carries the exception class and message; messages follow the source but
drop quotes and newlines.  Python-level failures that the source does not raise
explicitly (KeyError on a missing key, TypeError on applying a dict operation
to a non-dict, IndexError on an empty sequence) are modelled as errors with a
generic message; exotic Python behaviours on non-dict operands (substring
tests on strings, iteration over the keys of a wrong container) are collapsed
into these errors as well, and all theorems below place themselves in the
well-shaped regime where the divergence cannot fire.

Iteration over Python sets (`p.keys() - {'global'}`, set comprehensions) has
unspecified order in CPython; the model determinizes it to dict insertion
order.  No theorem below depends on the chosen order.
-/

namespace Pycnfg

/-- Python runtime values, as far as the configuration engine inspects them.
`vobj` is an opaque object (a class, function, producer instance, ...)
identified by a tag; the engine never looks inside such values. -/
inductive PyVal : Type where
  | vnone : PyVal
  | vbool (b : Bool) : PyVal
  | vint (n : Int) : PyVal
  | vstr (s : String) : PyVal
  | vlist (xs : List PyVal) : PyVal
  | vtuple (xs : List PyVal) : PyVal
  | vdict (xs : List (String × PyVal)) : PyVal
  | vobj (tag : Nat) : PyVal
deriving Repr

mutual

/-- Structural equality on `PyVal`, mirroring Python `==` on these values.
Dicts are compared as association lists, hence order-sensitively; Python `==`
on dicts ignores insertion order.  The engine consults value equality only in
the heap-comparison model (`heapNSmallest`), on entries that tie on
`(priority, composite id)`, where either verdict yields a pre-execution
failure, so the discrepancy is unobservable in the theorems below. -/
def pyBeq : PyVal → PyVal → Bool
  | .vnone, .vnone => true
  | .vbool a, .vbool b => a == b
  | .vint a, .vint b => a == b
  | .vstr a, .vstr b => a == b
  | .vlist a, .vlist b => pyBeqL a b
  | .vtuple a, .vtuple b => pyBeqL a b
  | .vdict a, .vdict b => pyBeqD a b
  | .vobj a, .vobj b => a == b
  | _, _ => false

/-- Elementwise `pyBeq` on lists. -/
def pyBeqL : List PyVal → List PyVal → Bool
  | [], [] => true
  | a :: as, b :: bs => pyBeq a b && pyBeqL as bs
  | _, _ => false

/-- Entrywise `pyBeq` on association lists. -/
def pyBeqD : List (String × PyVal) → List (String × PyVal) → Bool
  | [], [] => true
  | (k, a) :: as, (l, b) :: bs => k == l && pyBeq a b && pyBeqD as bs
  | _, _ => false

end

mutual

theorem pyBeq_iff : ∀ a b : PyVal, pyBeq a b = true ↔ a = b
  | .vnone, b => by cases b <;> simp [pyBeq]
  | .vbool a, b => by cases b <;> simp [pyBeq]
  | .vint a, b => by cases b <;> simp [pyBeq]
  | .vstr a, b => by cases b <;> simp [pyBeq]
  | .vlist a, b => by
      cases b <;> simp [pyBeq]
      exact pyBeqL_iff a _
  | .vtuple a, b => by
      cases b <;> simp [pyBeq]
      exact pyBeqL_iff a _
  | .vdict a, b => by
      cases b <;> simp [pyBeq]
      exact pyBeqD_iff a _
  | .vobj a, b => by cases b <;> simp [pyBeq]

theorem pyBeqL_iff : ∀ a b : List PyVal, pyBeqL a b = true ↔ a = b
  | [], b => by cases b <;> simp [pyBeqL]
  | a :: as, [] => by simp [pyBeqL]
  | a :: as, b :: bs => by
      simp [pyBeqL, pyBeq_iff a b, pyBeqL_iff as bs]

theorem pyBeqD_iff : ∀ a b : List (String × PyVal), pyBeqD a b = true ↔ a = b
  | [], b => by cases b <;> simp [pyBeqD]
  | a :: as, [] => by simp [pyBeqD]
  | (k, a) :: as, (l, b) :: bs => by
      simp [pyBeqD, pyBeq_iff a b, pyBeqD_iff as bs, Prod.ext_iff]

end

instance : DecidableEq PyVal := fun a b =>
  decidable_of_iff (pyBeq a b = true) (pyBeq_iff a b)

/-- A Python dict with string keys: an association list in insertion order. -/
abbrev PyDict := List (String × PyVal)

/-- `d[k]`, as an option: the value at the first occurrence of `k`. -/
def dget (d : PyDict) (k : String) : Option PyVal :=
  match d with
  | [] => none
  | (k', v) :: rest => if k' = k then some v else dget rest k

/-- `k in d`. -/
def dhas (d : PyDict) (k : String) : Bool :=
  (dget d k).isSome

/-- `d[k] = v`: replace in place if the key exists, else append. -/
def dset (d : PyDict) (k : String) (v : PyVal) : PyDict :=
  match d with
  | [] => [(k, v)]
  | (k', v') :: rest => if k' = k then (k', v) :: rest else (k', v') :: dset rest k v

/-- `del d[k]` / `d.pop(k)`: drop the first occurrence of `k`. -/
def ddel (d : PyDict) (k : String) : PyDict :=
  match d with
  | [] => []
  | (k', v') :: rest => if k' = k then rest else (k', v') :: ddel rest k

/-- `list(d.keys())`. -/
def dkeys (d : PyDict) : List String :=
  d.map (·.1)

/-- `d.update(other)`: assign every entry of `other`, in order. -/
def dupdate (d other : PyDict) : PyDict :=
  other.foldl (fun d kv => dset d kv.1 kv.2) d

/-- `isinstance(v, str)`. -/
def isStr : PyVal → Bool
  | .vstr _ => true
  | _ => false

/-- `isinstance(v, dict)`. -/
def isDict : PyVal → Bool
  | .vdict _ => true
  | _ => false

/-- `isinstance(v, list)`. -/
def isListV : PyVal → Bool
  | .vlist _ => true
  | _ => false

/-- `isinstance(v, int)`.  Python `bool` is a subclass of `int`. -/
def isInt : PyVal → Bool
  | .vint _ => true
  | .vbool _ => true
  | _ => false

/-- The integer value of an int-like `PyVal` (`True == 1`, `False == 0`). -/
def intVal : PyVal → Int
  | .vint n => n
  | .vbool b => if b then 1 else 0
  | _ => 0

/-- The string carried by a `vstr`, and `""` otherwise. -/
def strVal : PyVal → String
  | .vstr s => s
  | _ => ""

/-- Python truthiness (`bool(v)`) is the negation of this predicate:
`None`, `False`, `0`, `""` and empty containers are falsy; opaque objects are
truthy. -/
def falsy : PyVal → Bool
  | .vnone => true
  | .vbool b => !b
  | .vint n => n == 0
  | .vstr s => s == ""
  | .vlist xs => xs.isEmpty
  | .vtuple xs => xs.isEmpty
  | .vdict xs => xs.isEmpty
  | .vobj _ => false

/-- `isinstance(v, collections.abc.Sequence)`: strings, lists and tuples are
Python sequences; dicts, ints and `None` are not.  Used only to state what the
specification text asserts about sequence-typed step fields. -/
def isSequence : PyVal → Bool
  | .vstr _ => true
  | .vlist _ => true
  | .vtuple _ => true
  | _ => false

/-- The elements of an indexable step container (Python tuple or list). -/
def stepElems : PyVal → Option (List PyVal)
  | .vtuple xs => some xs
  | .vlist xs => some xs
  | _ => none

/-- Rebuild a step after assigning into its kwargs slot
(`step[1][kwarg_id] = ...` mutates the dict inside the tuple). -/
def setStepKwargs (step : PyVal) (kw : PyDict) : PyVal :=
  match step with
  | .vtuple xs => .vtuple (xs.set 1 (.vdict kw))
  | .vlist xs => .vlist (xs.set 1 (.vdict kw))
  | s => s

/-- Read a value that the source immediately uses as a dict. -/
def asDict (v : PyVal) (msg : String) : Except String PyDict :=
  match v with
  | .vdict d => .ok d
  | _ => .error msg

/-- Read a value that the source immediately iterates as a list. -/
def asListV (v : PyVal) (msg : String) : Except String (List PyVal) :=
  match v with
  | .vlist xs => .ok xs
  | _ => .error msg

/-- Look a key up in a dict-valued `PyVal`, raising KeyError/TypeError like
Python subscription. -/
def pySubscript (v : PyVal) (k : String) (what : String) : Except String PyVal :=
  match v with
  | .vdict d =>
      match dget d k with
      | some w => .ok w
      | none => .error ("KeyError: " ++ k ++ " in " ++ what)
  | _ => .error ("TypeError: " ++ what ++ " is not subscriptable")

/-! ### Character-level string utilities

The standard `String.splitOn`, `String.replace`, `String.endsWith` and the
`String` order are defined by well-founded recursion over byte positions and
do not reduce inside the kernel; the engine needs them only for the fixed
separators `"__"` and `"_id"` and for code-point comparison, so structural
char-level versions are used, with the same semantics as the CPython
counterparts (left-to-right, non-overlapping scans; lexicographic code-point
order). -/

/-- `s.split('__')` on the character list. -/
def splitUUChars : List Char → List (List Char)
  | [] => [[]]
  | '_' :: '_' :: rest => [] :: splitUUChars rest
  | c :: rest =>
      match splitUUChars rest with
      | [] => [[c]]
      | g :: gs => (c :: g) :: gs

/-- `s.split('__')`. -/
def pySplitUU (s : String) : List String :=
  (splitUUChars s.data).map (fun cs => String.mk cs)

/-- `'__'.join(l)`. -/
def joinUU : List String → String
  | [] => ""
  | [s] => s
  | s :: rest => s ++ "__" ++ joinUU rest

/-- `s.replace('_id', '')`: drop every (leftmost-first, non-overlapping)
occurrence. -/
def replaceIdChars : List Char → List Char
  | '_' :: 'i' :: 'd' :: rest => replaceIdChars rest
  | c :: rest => c :: replaceIdChars rest
  | [] => []

/-- `s.replace('_id', '')`. -/
def pyReplaceId (s : String) : String :=
  String.mk (replaceIdChars s.data)

/-- `s.endswith('_id')`. -/
def endsWithId (s : String) : Bool :=
  match s.data.reverse with
  | 'd' :: 'i' :: '_' :: _ => true
  | _ => false

/-- Strict lexicographic code-point order on character lists — Python `<` on
strings. -/
def charListLt : List Char → List Char → Bool
  | [], [] => false
  | [], _ :: _ => true
  | _ :: _, [] => false
  | a :: as, b :: bs => a < b || (a == b && charListLt as bs)

/-- Python `<=` on strings. -/
def pyStrLe (a b : String) : Bool :=
  charListLt a.data b.data || a == b

theorem charListLt_total (as bs : List Char) :
    charListLt as bs = true ∨ charListLt bs as = true ∨ as = bs := by
  induction as generalizing bs with
  | nil => cases bs <;> simp [charListLt]
  | cons a as ih =>
      cases bs with
      | nil => simp [charListLt]
      | cons b bs =>
          rcases lt_trichotomy a b with h | h | h
          · exact Or.inl (by simp [charListLt, h])
          · subst h
            rcases ih bs with h2 | h2 | h2
            · exact Or.inl (by simp [charListLt, h2])
            · exact Or.inr (Or.inl (by simp [charListLt, h2]))
            · exact Or.inr (Or.inr (by simp [h2]))
          · exact Or.inr (Or.inl (by simp [charListLt, h]))

theorem charListLt_trans {as bs cs : List Char}
    (h1 : charListLt as bs = true) (h2 : charListLt bs cs = true) :
    charListLt as cs = true := by
  induction as generalizing bs cs with
  | nil =>
      cases bs with
      | nil => simp [charListLt] at h1
      | cons b bs =>
          cases cs with
          | nil => simp [charListLt] at h2
          | cons c cs => simp [charListLt]
  | cons a as ih =>
      cases bs with
      | nil => simp [charListLt] at h1
      | cons b bs =>
          cases cs with
          | nil => simp [charListLt] at h2
          | cons c cs =>
              simp only [charListLt, Bool.or_eq_true, Bool.and_eq_true,
                beq_iff_eq, decide_eq_true_eq] at h1 h2 ⊢
              rcases h1 with h1 | ⟨h1e, h1r⟩
              · rcases h2 with h2 | ⟨h2e, h2r⟩
                · exact Or.inl (h1.trans h2)
                · exact Or.inl (h2e ▸ h1)
              · rcases h2 with h2 | ⟨h2e, h2r⟩
                · exact Or.inl (h1e ▸ h2)
                · exact Or.inr ⟨h1e.trans h2e, ih h1r h2r⟩

theorem pyStrLe_total (a b : String) :
    pyStrLe a b = true ∨ pyStrLe b a = true := by
  rcases charListLt_total a.data b.data with h | h | h
  · exact Or.inl (by simp [pyStrLe, h])
  · exact Or.inr (by simp [pyStrLe, h])
  · have : a = b := by
      cases a; cases b
      exact congrArg String.mk h
    exact Or.inl (by simp [pyStrLe, this])

theorem pyStrLe_trans {a b c : String}
    (h1 : pyStrLe a b = true) (h2 : pyStrLe b c = true) :
    pyStrLe a c = true := by
  simp only [pyStrLe, Bool.or_eq_true, beq_iff_eq] at h1 h2 ⊢
  rcases h1 with h1 | h1
  · rcases h2 with h2 | h2
    · exact Or.inl (charListLt_trans h1 h2)
    · exact Or.inl (h2 ▸ h1)
  · subst h1
    exact h2

end Pycnfg

namespace Pycnfg

/-! ## `Handler._merge_default` (handler.py lines 323-410) -/

/-- The `producer` default `pycnfg.Producer`: an opaque class object. -/
def producerClass : PyVal := .vobj 0

/-- The built-in structural defaults `dkeys` (handler.py lines 362-369), in
source order. -/
def dkeysDefault : PyDict :=
  [("init", .vdict []), ("producer", producerClass), ("global", .vdict []),
   ("patch", .vdict []), ("priority", .vint 1), ("steps", .vlist [])]

/-- Inner loop of the default merge (handler.py lines 357-360): copy every
subkey of the matched default sub-configuration that the working
sub-configuration lacks. -/
def mergeConfSubkeys (conf : PyVal) (dconf : PyDict) : Except String PyVal :=
  dconf.foldlM
    (fun conf kv =>
      match conf with
      | .vdict c =>
          if dhas c kv.1 then .ok (.vdict c) else .ok (.vdict (dset c kv.1 kv.2))
      | _ => .error "TypeError: sub-configuration does not support item assignment")
    conf

/-- First phase of `_merge_default` (handler.py lines 338-360): copy sections
missing from the working tree wholesale, merge the tree-level global, and fill
skipped subkeys from the name-matched (else zero-position) default
sub-configuration.  The `section_id is 'global'` comparison in the source is
CPython identity on an interned literal and is modelled as string equality. -/
def mergeSectionsFromDefault (p dp : PyDict) : Except String PyDict :=
  dp.foldlM
    (fun p (entry : String × PyVal) => do
      let sid := entry.1
      let dsec := entry.2
      if !dhas p sid then
        pure (dset p sid dsec)
      else if sid == "global" then do
        let dg ← asDict dsec "TypeError: default global does not support update"
        let pg ← asDict ((dget p sid).getD .vnone)
                   "TypeError: global is not iterable as a mapping"
        pure (dset p sid (.vdict (dupdate dg pg)))
      else do
        let dsecd ← asDict dsec "AttributeError: default section has no keys"
        let psec ← asDict ((dget p sid).getD .vnone)
                     "AttributeError: section has no items"
        let psec' ← psec.foldlM
          (fun acc (centry : String × PyVal) => do
            let cid := centry.1
            let dpConfId ←
              if dhas dsecd cid then pure cid
              else
                match dkeys dsecd with
                | [] => Except.error "IndexError: list index out of range"
                | c0 :: _ => pure c0
            let dconf ← asDict ((dget dsecd dpConfId).getD .vnone)
                          "AttributeError: default sub-configuration has no keys"
            let conf' ← mergeConfSubkeys centry.2 dconf
            pure (dset acc cid conf'))
          psec
        pure (dset p sid (.vdict psec')))
    p

/-- Fill the built-in `dkeys` defaults into one sub-configuration
(handler.py lines 376-378). -/
def fillDkeysConf (conf : PyVal) : Except String PyVal := do
  let c ← asDict conf "AttributeError: sub-configuration has no update"
  pure (.vdict (dupdate c (dkeysDefault.filter (fun kv => !dhas c kv.1))))

/-- Normalize one step to the 3-tuple shape (handler.py lines 383-402): a
1-element step gains `{}` kwargs and `[]` decorators, a 2-element step gains
`[]` decorators, longer steps are type-checked and left unchanged. -/
def normalizeStep (sid cid : String) (step : PyVal) : Except String PyVal := do
  let xs ← match stepElems step with
    | some xs => pure xs
    | none => Except.error "TypeError: step is not subscriptable"
  let s0 ← match xs.head? with
    | some s0 => pure s0
    | none => Except.error "IndexError: tuple index out of range"
  if !isStr s0 then
    Except.error ("TypeError: step[0] should be a str: " ++ sid ++ "__" ++ cid)
  else if h1 : 1 < xs.length then
    let s1 := xs.get ⟨1, h1⟩
    if !isDict s1 then
      Except.error ("TypeError: step[1] should be a dict: " ++ sid ++ "__" ++ cid
        ++ ": " ++ strVal s0)
    else if h2 : 2 < xs.length then
      if !isListV (xs.get ⟨2, h2⟩) then
        Except.error ("TypeError: On step[2] should be a list: " ++ sid ++ "__" ++ cid
          ++ ": " ++ strVal s0)
      else pure step
    else pure (.vtuple [s0, s1, .vlist []])
  else pure (.vtuple [s0, .vdict [], .vlist []])

/-- Normalize the `steps` list of one sub-configuration
(handler.py lines 380-402). -/
def normalizeConfSteps (sid cid : String) (conf : PyVal) : Except String PyVal := do
  let c ← asDict conf "TypeError: sub-configuration is not subscriptable"
  let stepsV ← match dget c "steps" with
    | some v => pure v
    | none => Except.error ("KeyError: steps in " ++ sid ++ "__" ++ cid)
  let steps ← asListV stepsV "TypeError: steps is not a list"
  let steps' ← steps.mapM (normalizeStep sid cid)
  pure (.vdict (dset c "steps" (.vlist steps')))

/-- One iteration of the built-in-default fill loop (handler.py lines
373-378), skipping the `global` pseudo-configuration. -/
def fillConfStep (acc : PyDict) (centry : String × PyVal) :
    Except String PyDict :=
  if centry.1 == "global" then pure acc
  else do
    let conf' ← fillDkeysConf centry.2
    pure (dset acc centry.1 conf')

/-- One iteration of the step-normalization loop (handler.py lines 380-402),
skipping the `global` pseudo-configuration. -/
def normalizeConfStep (sid : String) (acc : PyDict)
    (centry : String × PyVal) : Except String PyDict :=
  if centry.1 == "global" then pure acc
  else do
    let conf' ← normalizeConfSteps sid centry.1 centry.2
    pure (dset acc centry.1 conf')

/-- The per-section body of the second `_merge_default` loop (handler.py
lines 370-402): fill built-in defaults when the section is absent from the
default tree, then normalize every step. -/
def mergeSectionStep (dp p : PyDict) (sid : String) : Except String PyDict := do
  let secV ← match dget p sid with
    | some v => pure v
    | none => Except.error ("KeyError: " ++ sid)
  let p ←
    if !dhas dp sid then do
      let sec ← asDict secV "AttributeError: section has no items"
      let sec' ← sec.foldlM fillConfStep sec
      pure (dset p sid (.vdict sec'))
    else pure p
  let sec ← match dget p sid with
    | some (.vdict s) => pure s
    | some _ => Except.error "AttributeError: section has no items"
    | none => Except.error ("KeyError: " ++ sid)
  let sec' ← sec.foldlM (normalizeConfStep sid) sec
  pure (dset p sid (.vdict sec'))

/-- The per-section body of the final `_merge_default` loop (handler.py
lines 406-409): add an empty section-level `global` when missing. -/
def addSectionGlobal (p : PyDict) (sid : String) : Except String PyDict :=
  match dget p sid with
  | some (.vdict sec) =>
      if dhas sec "global" then pure p
      else pure (dset p sid (.vdict (dset sec "global" (.vdict []))))
  | some _ => Except.error "TypeError: section is not a container"
  | none => Except.error ("KeyError: " ++ sid)

/-- `Handler._merge_default` (handler.py lines 323-410).  Set iteration
(`p.keys() - THE_GLOBAL`) is determinized to insertion order; the
`conf_id is 'global'` identity tests are modelled as string equality. -/
def Handler.merge_default (p dp : PyDict) : Except String PyDict := do
  let p ← mergeSectionsFromDefault p dp
  let p ← ((dkeys p).filter (· != "global")).foldlM (mergeSectionStep dp) p
  let p := if dhas p "global" then p else dset p "global" (.vdict [])
  let p ← ((dkeys p).filter (· != "global")).foldlM addSectionGlobal p
  pure p

end Pycnfg

namespace Pycnfg

/-! ## `Handler._resolve_global` and helpers (handler.py lines 427-506) -/

/-- The six structural sub-configuration keys (handler.py lines 456-457), in
source order. -/
def structuralKeys : List String :=
  ["init", "producer", "global", "patch", "steps", "priority"]

/-- `i.split('__')[0]`. -/
def firstSeg (s : String) : String :=
  (pySplitUU s).headD ""

/-- `'__'.join(i.split('__')[1:])`. -/
def restSegs (s : String) : String :=
  joinUU (pySplitUU s).tail

/-- Move every non-structural key of one sub-configuration into its `global`
map (handler.py lines 453-459): the key list is snapshotted, each unknown key
is popped and assigned into `conf['global']`. -/
def absorbUnknown (conf : PyDict) : Except String PyDict :=
  (dkeys conf).foldlM
    (fun c key =>
      if structuralKeys.contains key then pure c
      else do
        let g ← match dget c "global" with
          | some (.vdict g) => pure g
          | some _ => Except.error "AttributeError: global has no update"
          | none => Except.error "KeyError: global"
        let v ← match dget c key with
          | some v => pure v
          | none => Except.error ("KeyError: " ++ key)
        let c := ddel c key
        pure (dset c "global" (.vdict (dset g key v))))
    conf

/-- The sub-configuration-level absorption loop (handler.py lines 453-459),
over every section and sub-configuration other than `global`. -/
def absorbConfStep (sec : PyDict) (cid : String) : Except String PyDict := do
  let conf ← match dget sec cid with
    | some (.vdict c) => pure c
    | some _ => Except.error "AttributeError: sub-configuration has no keys"
    | none => Except.error ("KeyError: " ++ cid)
  let conf' ← absorbUnknown conf
  pure (dset sec cid (.vdict conf'))

def absorbSectionStep (p : PyDict) (sid : String) : Except String PyDict := do
  let sec ← match dget p sid with
    | some (.vdict s) => pure s
    | some _ => Except.error "AttributeError: section has no keys"
    | none => Except.error ("KeyError: " ++ sid)
  let sec' ← ((dkeys sec).filter (· != "global")).foldlM absorbConfStep sec
  pure (dset p sid (.vdict sec'))

def absorbAll (p : PyDict) : Except String PyDict :=
  ((dkeys p).filter (· != "global")).foldlM absorbSectionStep p

/-- `p[sub]['global'][key] = v`, with Python failures on missing or
wrongly-typed links. -/
def setChildGlobal (p : PyDict) (sub key : String) (v : PyVal) :
    Except String PyDict := do
  let child ← match dget p sub with
    | some (.vdict c) => pure c
    | some _ => Except.error "TypeError: child is not subscriptable"
    | none => Except.error ("KeyError: " ++ sub)
  let g ← match dget child "global" with
    | some (.vdict g) => pure g
    | some _ => Except.error "AttributeError: child global has no update"
    | none => Except.error "KeyError: global"
  pure (dset p sub (.vdict (dset child "global" (.vdict (dset g key v)))))

/-- `Handler._copy_global` (handler.py lines 474-494): route keys whose first
path segment names a child into that child (stripping the segment), broadcast
every other key into all children, then delete this level's `global`.  The
source iterates the `special` set and the complement `glob.keys() - special`;
both are determinized to the insertion order of `glob`. -/
def routeGlobStep (p : PyDict) (kv : String × PyVal) :
    Except String PyDict := do
  let sub := firstSeg kv.1
  let reduced := restSegs kv.1
  if reduced == "" then Except.error "AssertionError"
  else setChildGlobal p sub reduced kv.2

def broadcastKeyStep (keys : List String) (p : PyDict)
    (kv : String × PyVal) : Except String PyDict :=
  (keys.filter (· != "global")).foldlM
    (fun p sub => setChildGlobal p sub kv.1 kv.2) p

def Handler.copy_global (p : PyDict) : Except String PyDict := do
  let glob ← match dget p "global" with
    | some (.vdict g) => pure g
    | some _ => Except.error "TypeError: global is not iterable as a mapping"
    | none => Except.error "KeyError: global"
  let keys := dkeys p
  let p ← (glob.filter (fun kv => keys.contains (firstSeg kv.1))).foldlM
    routeGlobStep p
  let p ← (glob.filter (fun kv => !keys.contains (firstSeg kv.1))).foldlM
    (broadcastKeyStep keys) p
  pure (ddel p "global")

/-- Final loop of `_resolve_global` (handler.py lines 469-471): form the
`unused` set from every sub-configuration's `global`.  The set itself has no
observable effect on the tree ([future] bookkeeping), but the lookups can
raise, so the model performs them. -/
def checkConfStep (sec : PyDict) (u : Unit) (cid : String) :
    Except String Unit := do
  let conf ← match dget sec cid with
    | some (.vdict c) => pure c
    | some _ => Except.error "TypeError: sub-configuration is not subscriptable"
    | none => Except.error ("KeyError: " ++ cid)
  match dget conf "global" with
  | some _ => pure ()
  | none => Except.error "KeyError: global"

def checkSectionStep (p : PyDict) (u : Unit) (sid : String) :
    Except String Unit := do
  let sec ← match dget p sid with
    | some (.vdict s) => pure s
    | some _ => Except.error "AttributeError: section has no keys"
    | none => Except.error ("KeyError: " ++ sid)
  ((dkeys sec).filter (· != "global")).foldlM (checkConfStep sec) ()

def checkConfGlobals (p : PyDict) : Except String Unit :=
  ((dkeys p).filter (· != "global")).foldlM (checkSectionStep p) ()

/-- `Handler._resolve_global` (handler.py lines 442-472): absorb unknown keys,
copy the tree-level `global` down to sections, then each section-level
`global` down to its sub-configurations. -/
def copyGlobalSectionStep (p : PyDict) (sid : String) :
    Except String PyDict := do
  let sec ← match dget p sid with
    | some (.vdict s) => pure s
    | some _ => Except.error "TypeError: section is not subscriptable"
    | none => Except.error ("KeyError: " ++ sid)
  let sec' ← Handler.copy_global sec
  pure (dset p sid (.vdict sec'))

def Handler.resolve_global (p : PyDict) : Except String PyDict := do
  let p ← absorbAll p
  let p ← Handler.copy_global p
  let p ← ((dkeys p).filter (· != "global")).foldlM copyGlobalSectionStep p
  checkConfGlobals p
  pure p

/-- `Handler._substitute_global` (handler.py lines 496-506): for every entry
of the sub-configuration's `global`, overwrite every step kwarg whose name
matches the entry key directly or as `step_id + "__" + kwarg_id`.  The
`unused` bookkeeping set has no observable effect and is omitted. -/
def substStepOne (gentry : String × PyVal) (step : PyVal) :
    Except String PyVal := do
  let xs ← match stepElems step with
    | some xs => pure xs
    | none => Except.error "TypeError: step is not subscriptable"
  let s0 ← match xs.head? with
    | some s0 => pure s0
    | none => Except.error "IndexError: tuple index out of range"
  let kw ← match xs.get? 1 with
    | some (PyVal.vdict k) => pure k
    | some _ => Except.error "TypeError: kwargs is not iterable as a mapping"
    | none => Except.error "IndexError: tuple index out of range"
  let stepId := strVal s0
  let kw' := kw.foldl
    (fun kw kv =>
      if gentry.1 == kv.1 || gentry.1 == stepId ++ "__" ++ kv.1 then
        dset kw kv.1 gentry.2
      else kw)
    kw
  pure (setStepKwargs step kw')

def substGlobStep (conf : PyDict) (gentry : String × PyVal) :
    Except String PyDict := do
  let steps ← match dget conf "steps" with
    | some (.vlist xs) => pure xs
    | some _ => Except.error "TypeError: steps is not iterable"
    | none => Except.error "KeyError: steps"
  let steps' ← steps.mapM (substStepOne gentry)
  pure (dset conf "steps" (.vlist steps'))

def Handler.substitute_global (conf : PyDict) : Except String PyDict := do
  let glob ← match dget conf "global" with
    | some (.vdict g) => pure g
    | some _ => Except.error "TypeError: global is not iterable as a mapping"
    | none => Except.error "KeyError: global"
  glob.foldlM substGlobStep conf

end Pycnfg

namespace Pycnfg

/-! ## `Handler._resolve_none` and `_substitute_none`
(handler.py lines 508-587) -/

/-- `Handler._substitute_none` (handler.py lines 569-587): if the selected
kwarg is falsy, take the global value; if that is `None` (absent globals are
conflated with a stored `None`, exactly as `glob_val is None` does), fall back
to the section: more than one sub-configuration is a fatal ambiguity, exactly
one synthesizes the composite id `key + "__" + conf_id`. -/
def Handler.substitute_none (p : PyDict) (sid cid key : String)
    (glob_val : PyVal) (step_id : String) (kwargs : PyDict) (key_id : String) :
    Except String PyDict := do
  let cur ← match dget kwargs key_id with
    | some v => pure v
    | none => Except.error ("KeyError: " ++ key_id)
  if falsy cur then
    if glob_val = .vnone then do
      let sec ← match dget p key with
        | some (.vdict s) => pure s
        | some _ => Except.error "TypeError: section has no len"
        | none => Except.error ("KeyError: " ++ key)
      if sec.length > 1 then
        Except.error ("ValueError: Multiple " ++ (key
          ++ " configurations provided, specify " ++ key_id ++ " explicit in: "
          ++ sid ++ "__" ++ cid ++ "__" ++ step_id ++ "__" ++ key_id
          ++ " or " ++ sid ++ "__" ++ cid ++ "__global__" ++ key_id))
      else
        match sec with
        | [] => Except.error "IndexError: list index out of range"
        | c0 :: _ => pure (dset kwargs key_id (.vstr (key ++ "__" ++ c0.1)))
    else pure (dset kwargs key_id glob_val)
  else pure kwargs

/-- The kwarg name `_substitute_none` is pointed at: the plain section name
when the step supplies it, else the `_id`-suffixed one (handler.py lines
549-553); a step supplying both only has the plain one considered. -/
def kwKeyId (kw : PyDict) (key : String) : Option String :=
  if dhas kw key then some key
  else if dhas kw (key ++ "_id") then some (key ++ "_id")
  else none

/-- The per-step body of the nonprimitive loop of `_resolve_none` (handler.py
lines 536-567): select the plain kwarg name if present, else the
`_id`-suffixed one, and delegate to `_substitute_none`. -/
def resolveNoneStepSub (p : PyDict) (sid cid key : String) (glob_val : PyVal)
    (step : PyVal) : Except String PyVal := do
  let xs ← match stepElems step with
    | some xs => pure xs
    | none => Except.error "TypeError: step has no len"
  if xs.length ≤ 1 then pure step
  else do
    let s0 ← match xs.head? with
      | some s0 => pure s0
      | none => Except.error "IndexError: tuple index out of range"
    let kw ← match xs.get? 1 with
      | some (PyVal.vdict k) => pure k
      | some _ => Except.error "TypeError: kwargs is not iterable as a mapping"
      | none => Except.error "IndexError: tuple index out of range"
    match kwKeyId kw key with
    | none => pure step
    | some kid => do
        let kw' ← Handler.substitute_none p sid cid key glob_val
                    (strVal s0) kw kid
        pure (setStepKwargs step kw')

/-- One tree-key iteration of the nonprimitive loop of `_resolve_none`. -/
def resolveNoneKeyStep (p : PyDict) (sid cid : String) (glob : PyDict)
    (conf : PyDict) (key : String) : Except String PyDict := do
  let glob_val :=
    match dget glob key with
    | some v => v
    | none =>
        match dget glob (key ++ "_id") with
        | some v => v
        | none => .vnone
  let steps ← match dget conf "steps" with
    | some (.vlist xs) => pure xs
    | some _ => Except.error "TypeError: steps is not iterable"
    | none => Except.error "KeyError: steps"
  let steps' ← steps.mapM (resolveNoneStepSub p sid cid key glob_val)
  pure (dset conf "steps" (.vlist steps'))

/-- `Handler._resolve_none` (handler.py lines 508-567) for one
sub-configuration.  The `primitive` and `nonprimitive` set comprehensions are
determinized to insertion order; the `used_ids` bookkeeping dict is dropped
(it is only ever written).  Note that `key.replace('_id', '')` removes every
occurrence of `_id`, and that a step offering both `key` and `key + "_id"`
kwargs only has the plain one considered. -/
def Handler.resolve_none (p : PyDict) (sid cid : String) :
    Except String PyDict := do
  let sec ← match dget p sid with
    | some (.vdict s) => pure s
    | some _ => Except.error "TypeError: section is not subscriptable"
    | none => Except.error ("KeyError: " ++ sid)
  let conf ← match dget sec cid with
    | some (.vdict c) => pure c
    | some _ => Except.error "TypeError: sub-configuration is not subscriptable"
    | none => Except.error ("KeyError: " ++ cid)
  let glob ← match dget conf "global" with
    | some (.vdict g) => pure g
    | some _ => Except.error "TypeError: global is not iterable as a mapping"
    | none => Except.error "KeyError: global"
  let primitive := (dkeys glob).filter
    (fun k => !(dkeys p).contains (pyReplaceId k))
  let conf ← primitive.foldlM
    (fun conf key => do
      let glob_val := (dget glob key).getD .vnone
      let steps ← match dget conf "steps" with
        | some (.vlist xs) => pure xs
        | some _ => Except.error "TypeError: steps is not iterable"
        | none => Except.error "KeyError: steps"
      let steps' ← steps.mapM (fun step => do
        let xs ← match stepElems step with
          | some xs => pure xs
          | none => Except.error "TypeError: step has no len"
        if xs.length ≤ 1 then pure step
        else do
          let kw ← match xs.get? 1 with
            | some (PyVal.vdict k) => pure k
            | some _ => Except.error "TypeError: kwargs is not iterable as a mapping"
            | none => Except.error "IndexError: tuple index out of range"
          match dget kw key with
          | some v =>
              if falsy v then pure (setStepKwargs step (dset kw key glob_val))
              else pure step
          | none => pure step)
      pure (dset conf "steps" (.vlist steps')))
    conf
  let conf ← (dkeys p).foldlM (resolveNoneKeyStep p sid cid glob) conf
  pure (dset p sid (.vdict (dset sec cid (.vdict conf))))

/-- `Handler._resolve` (handler.py lines 427-440): substitute globals into
every sub-configuration, then optionally resolve `None` kwargs. -/
def resolveConfStep (rn : Bool) (sid : String) (p : PyDict) (cid : String) :
    Except String PyDict := do
  let sec ← match dget p sid with
    | some (.vdict s) => pure s
    | some _ => Except.error "TypeError: section is not subscriptable"
    | none => Except.error ("KeyError: " ++ sid)
  let conf ← match dget sec cid with
    | some (.vdict c) => pure c
    | some _ => Except.error "TypeError: sub-configuration is not subscriptable"
    | none => Except.error ("KeyError: " ++ cid)
  let conf' ← Handler.substitute_global conf
  let p := dset p sid (.vdict (dset sec cid (.vdict conf')))
  if rn then Handler.resolve_none p sid cid else pure p

def resolveSectionStep (rn : Bool) (p : PyDict) (sid : String) :
    Except String PyDict := do
  let sec ← match dget p sid with
    | some (.vdict s) => pure s
    | some _ => Except.error "TypeError: section is not subscriptable"
    | none => Except.error ("KeyError: " ++ sid)
  ((dkeys sec).filter (· != "global")).foldlM (resolveConfStep rn sid) p

def Handler.resolve (p : PyDict) (resolveNone : Bool) : Except String PyDict := do
  let p ← Handler.resolve_global p
  ((dkeys p).filter (· != "global")).foldlM
    (resolveSectionStep resolveNone) p

/-! ## `Handler._priority_arrange`, `_check_res`, `_parse_cnfg`, `exec`
(handler.py lines 271-321, 589-616) -/

/-- A heap entry `(priority, (composite id, sub-configuration))`. -/
abbrev SchedEntry := Int × String × PyVal

/-- The tuple order CPython uses on heap entries, truncated to the
`(priority, composite id)` prefix.  The third component is a dict, which
CPython only reaches when the prefix ties; see `heapNSmallest`. -/
def entryLe (a b : SchedEntry) : Prop :=
  a.1 < b.1 ∨ (a.1 = b.1 ∧ pyStrLe a.2.1 b.2.1 = true)

instance : DecidableRel entryLe := fun a b => by
  unfold entryLe; infer_instance

instance : IsTotal SchedEntry entryLe :=
  ⟨fun a b => by
    unfold entryLe
    rcases lt_trichotomy a.1 b.1 with h | h | h
    · exact Or.inl (Or.inl h)
    · rcases pyStrLe_total a.2.1 b.2.1 with h2 | h2
      · exact Or.inl (Or.inr ⟨h, h2⟩)
      · exact Or.inr (Or.inr ⟨h.symm, h2⟩)
    · exact Or.inr (Or.inl h)⟩

instance : IsTrans SchedEntry entryLe :=
  ⟨fun a b c hab hbc => by
    unfold entryLe at *
    rcases hab with h1 | ⟨e1, s1⟩
    · rcases hbc with h2 | ⟨e2, _⟩
      · exact Or.inl (h1.trans h2)
      · exact Or.inl (e2 ▸ h1)
    · rcases hbc with h2 | ⟨e2, s2⟩
      · exact Or.inl (e1 ▸ h2)
      · exact Or.inr ⟨e1.trans e2, pyStrLe_trans s1 s2⟩⟩

/-- The comparable prefix of a heap entry. -/
def entryKey (e : SchedEntry) : Int × String :=
  (e.1, e.2.1)

/-- Whether two entries tie on `(priority, composite id)` but hold unequal
sub-configurations — the situation in which CPython tuple comparison falls
through to `dict < dict` and raises TypeError. -/
def hasBadTie : List SchedEntry → Bool
  | [] => false
  | e :: rest =>
      rest.any (fun f => entryKey e == entryKey f && !(pyBeq e.2.2 f.2.2))
      || hasBadTie rest

/-- The per-sub-configuration body of the flattening loop of
`_priority_arrange` (handler.py lines 593-603): read and validate the
priority, and push `(priority, (section__conf, conf))` unless it is falsy
(zero). -/
def collectConf (sid : String) (acc : List SchedEntry)
    (centry : String × PyVal) : Except String (List SchedEntry) := do
  let name := sid ++ "__" ++ centry.1
  let prio ← match centry.2 with
    | .vdict c =>
        match dget c "priority" with
        | some pv => pure pv
        | none => Except.error "KeyError: priority"
    | _ => Except.error "TypeError: sub-configuration is not subscriptable"
  if !isInt prio || intVal prio < 0 then
    Except.error
      "ValueError: Configuration priority should be non-negative number."
  else if intVal prio ≠ 0 then
    pure (acc ++ [(intVal prio, name, centry.2)])
  else pure acc

/-- The per-section body of the flattening loop (handler.py lines 592-603). -/
def collectSection (acc : List SchedEntry) (entry : String × PyVal) :
    Except String (List SchedEntry) := do
  let sec ← match entry.2 with
    | .vdict s => pure s
    | _ => Except.error "TypeError: section is not iterable as a mapping"
  sec.foldlM (collectConf entry.1) acc

/-- The flattening loop of `_priority_arrange` (handler.py lines 591-603). -/
def collectEntries (res : PyDict) : Except String (List SchedEntry) :=
  res.foldlM collectSection []

/-- `heapq.heappush` + `heapq.nsmallest(len, heap)` (handler.py lines
602-604): ascending sort by the entry tuples.  CPython compares full tuples;
when two entries tie on `(priority, composite id)` with unequal
sub-configuration dicts the comparison falls through to `dict < dict` and
raises TypeError — with two entries this happens at the second `heappush`
(`_siftdown` compares the new entry with its parent).  With more entries the
exact raise point depends on heap and Timsort internals; the model raises
whenever such a pair exists, which coincides with CPython on every input any
theorem below touches (no tie, or a two-entry heap).  When no such pair
exists, every tie on the prefix is between equal entries, so every comparison
sort by `entryLe` returns the same list as the heap extraction; the model uses
insertion sort. -/
def heapNSmallest (heap : List SchedEntry) : Except String (List SchedEntry) :=
  if hasBadTie heap then
    Except.error "TypeError: unorderable dict instances in heap comparison"
  else pure (List.insertionSort entryLe heap)

/-- `Handler._priority_arrange` (handler.py lines 589-605). -/
def Handler.priority_arrange (res : PyDict) :
    Except String (List (String × PyVal)) := do
  let heap ← collectEntries res
  let sorted_ ← heapNSmallest heap
  pure (sorted_.map (·.2))

/-- `', '.join(l)` (kernel-computable). -/
def joinComma : List String → String
  | [] => ""
  | [s] => s
  | s :: rest => s ++ ", " ++ joinComma rest

/-- `Handler._check_res` (handler.py lines 607-616): fail on composite ids
appearing more than once (`collections.Counter` preserves first-occurrence
order; the Python list repr in the message is rendered as a comma-separated
string). -/
def Handler.check_res (tup : List (String × PyVal)) : Except String Unit := do
  let names := tup.map (·.1)
  let nonUniq := names.eraseDups.filter (fun n => names.count n > 1)
  if nonUniq.isEmpty then pure ()
  else
    Except.error ("ValueError: Non-unique configuration id found: "
      ++ joinComma nonUniq)

/-- `Handler._parse_cnfg` (handler.py lines 313-321): merge defaults, resolve
globals (and optionally `None` kwargs), arrange by priority, and check
uniqueness. -/
def Handler.parse_cnfg (p dp : PyDict) (resolveNone : Bool) :
    Except String (List (String × PyVal)) := do
  let p ← Handler.merge_default p dp
  let p ← Handler.resolve p resolveNone
  let res ← Handler.priority_arrange p
  Handler.check_res res
  pure res

/-- `Handler.exec` (handler.py lines 271-311), parameterized by the
single-configuration executor `_exec` (whose body instantiates the producer
class and runs its steps — behaviour outside the value model): each prepared
configuration is executed against the current store and its result is stored
under its composite id. -/
def Handler.exec (ex : String → PyVal → PyDict → PyVal)
    (configs : List (String × PyVal)) (objects : PyDict) : PyDict :=
  configs.foldl (fun objs c => dset objs c.1 (ex c.1 c.2 objs)) objects

/-- `pycnfg.run` = `Handler.read` followed by `Handler.exec`
(utils.py lines 106-141), with the default tree passed explicitly and the
executor abstracted as in `Handler.exec`: if reading fails, `exec` never
runs. -/
def run (ex : String → PyVal → PyDict → PyVal) (cnfg dcnfg : PyDict)
    (resolveNone : Bool) (objects : PyDict) : Except String PyDict := do
  let configs ← Handler.parse_cnfg cnfg dcnfg resolveNone
  pure (Handler.exec ex configs objects)

/-! ## `Producer._resolve_object` (producer.py lines 217-232) -/

/-- The value `_resolve_object` computes for one non-`_id` kwarg
(producer.py lines 225-230): wrap a non-list value into a singleton, replace
every string element found in `objects`, and unwrap again. -/
def substituteVal (objects : PyDict) (val : PyVal) : PyVal :=
  let val_ := match val with
    | .vlist xs => xs
    | v => [v]
  let resolved := val_.map (fun v =>
    match v with
    | .vstr s => match dget objects s with
      | some w => w
      | none => v
    | _ => v)
  match val with
  | .vlist _ => .vlist resolved
  | v => resolved.headD v

/-- One iteration of the `_resolve_object` loop (producer.py lines 223-230):
`_id`-suffixed kwargs are skipped, every other kwarg is reassigned. -/
def resolveObjectStep (objects acc : PyDict) (kv : String × PyVal) : PyDict :=
  if endsWithId kv.1 then acc
  else dset acc kv.1 (substituteVal objects kv.2)

/-- `Producer._resolve_object`: for every kwarg whose name does not end in
`_id`, look up its string value (or each element of its list value) in
`objects` and substitute the stored object on an exact key match.  The source
mutates `kwargs[key]` while iterating `kwargs.items()`; keys are never added
or removed, so the iteration is modelled over the original entries. -/
def Producer.resolve_object (kwargs objects : PyDict) : PyDict :=
  kwargs.foldl (resolveObjectStep objects) kwargs

end Pycnfg

namespace Pycnfg

/-! ## Association-list lemmas -/

theorem dget_dset (d : PyDict) (k k' : String) (v : PyVal) :
    dget (dset d k v) k' = if k = k' then some v else dget d k' := by
  induction d with
  | nil =>
      by_cases h : k = k' <;> simp [dset, dget, h]
  | cons kv rest ih =>
      obtain ⟨k0, v0⟩ := kv
      by_cases h0 : k0 = k
      · subst h0
        by_cases h1 : k0 = k' <;> simp [dset, dget, h1]
      · by_cases h1 : k0 = k'
        · have hk : k ≠ k' := fun h => h0 (h1.trans h.symm)
          subst h1
          rw [show dset ((k0, v0) :: rest) k v = (k0, v0) :: dset rest k v by
            simp [dset, h0]]
          simp [dget, hk]
        · simp [dset, dget, h0, h1, ih]

theorem dget_dset_self (d : PyDict) (k : String) (v : PyVal) :
    dget (dset d k v) k = some v := by
  simp [dget_dset]

theorem dget_dset_ne (d : PyDict) {k k' : String} (v : PyVal) (h : k ≠ k') :
    dget (dset d k v) k' = dget d k' := by
  simp [dget_dset, h]

theorem dhas_dset (d : PyDict) (k k' : String) (v : PyVal) :
    dhas (dset d k v) k' = (k == k' || dhas d k') := by
  by_cases h : k = k' <;> simp [dhas, dget_dset, h]

theorem mem_dkeys_iff_dhas (d : PyDict) (k : String) :
    k ∈ dkeys d ↔ dhas d k = true := by
  induction d with
  | nil => simp [dkeys, dhas, dget]
  | cons kv rest ih =>
      obtain ⟨k0, v0⟩ := kv
      by_cases h0 : k0 = k
      · subst h0; simp [dkeys, dhas, dget]
      · constructor
        · intro h
          rcases List.mem_cons.mp h with h | h
          · exact absurd h.symm h0
          · have := ih.mp h
            simpa [dhas, dget, h0] using this
        · intro h
          have h2 : dhas rest k = true := by simpa [dhas, dget, h0] using h
          exact List.mem_cons.mpr (Or.inr (ih.mpr h2))

theorem dkeys_dset (d : PyDict) (k : String) (v : PyVal) :
    dkeys (dset d k v) = if dhas d k then dkeys d else dkeys d ++ [k] := by
  induction d with
  | nil => simp [dset, dkeys, dhas, dget]
  | cons kv rest ih =>
      obtain ⟨k0, v0⟩ := kv
      by_cases h0 : k0 = k
      · subst h0
        simp [dset, dkeys, dhas, dget]
      · have hd : dhas ((k0, v0) :: rest) k = dhas rest k := by
          simp [dhas, dget, h0]
        have ih' := ih
        by_cases h1 : dhas rest k = true
        · rw [if_pos h1] at ih'
          simp only [dkeys] at ih' ⊢
          simp [dset, h0, hd, h1, ih']
        · simp only [Bool.not_eq_true] at h1
          rw [if_neg (by simp [h1])] at ih'
          simp only [dkeys] at ih' ⊢
          simp [dset, h0, hd, h1, ih']

theorem dget_eq_none_of_not_dhas (d : PyDict) (k : String)
    (h : dhas d k = false) : dget d k = none := by
  simp only [dhas] at h
  exact Option.not_isSome_iff_eq_none.mp (by simp [h])

theorem dget_mem (d : PyDict) (k : String) (v : PyVal)
    (h : dget d k = some v) : (k, v) ∈ d := by
  induction d with
  | nil => simp [dget] at h
  | cons kv rest ih =>
      obtain ⟨k0, v0⟩ := kv
      by_cases h0 : k0 = k
      · subst h0; simp [dget] at h; simp [h]
      · simp [dget, h0] at h
        exact List.mem_cons_of_mem _ (ih h)

theorem dget_of_mem_nodup (d : PyDict) (k : String) (v : PyVal)
    (hmem : (k, v) ∈ d) (hnd : (dkeys d).Nodup) : dget d k = some v := by
  induction d with
  | nil => simp at hmem
  | cons kv rest ih =>
      obtain ⟨k0, v0⟩ := kv
      simp only [dkeys, List.map_cons, List.nodup_cons] at hnd
      rcases List.mem_cons.mp hmem with h | h
      · rw [Prod.mk.injEq] at h
        obtain ⟨h1, h2⟩ := h
        subst h1; subst h2
        simp [dget]
      · have hk : k0 ≠ k := by
          intro he
          exact hnd.1 (he ▸ List.mem_map_of_mem Prod.fst h)
        simp only [dget, if_neg hk]
        exact ih h hnd.2

theorem dkeys_ddel (d : PyDict) (k : String) (h : dhas d k = false) :
    ddel d k = d := by
  induction d with
  | nil => simp [ddel]
  | cons kv rest ih =>
      obtain ⟨k0, v0⟩ := kv
      by_cases h0 : k0 = k
      · subst h0; simp [dhas, dget] at h
      · have h2 : dhas rest k = false := by
          simpa [dhas, dget, h0] using h
        simp [ddel, h0, ih h2]

theorem dget_dupdate (d o : PyDict) (k : String) (hnd : (dkeys o).Nodup) :
    dget (dupdate d o) k =
      match dget o k with
      | some v => some v
      | none => dget d k := by
  induction o generalizing d with
  | nil => simp [dupdate, dget]
  | cons kv rest ih =>
      obtain ⟨k0, v0⟩ := kv
      simp only [dkeys, List.map_cons, List.nodup_cons] at hnd
      have step : dupdate d ((k0, v0) :: rest) = dupdate (dset d k0 v0) rest := rfl
      rw [step, ih _ hnd.2]
      by_cases h0 : k0 = k
      · subst h0
        have : dget rest k0 = none := by
          rcases h : dget rest k0 with _ | v
          · rfl
          · exact absurd (List.mem_map_of_mem Prod.fst (dget_mem _ _ _ h)) hnd.1
        simp [dget, this, dget_dset_self]
      · simp [dget, h0, dget_dset_ne _ v0 h0]

theorem dhas_dupdate (d o : PyDict) (k : String) :
    dhas (dupdate d o) k = (dhas d k || dhas o k) := by
  induction o generalizing d with
  | nil => simp [dupdate, dhas, dget]
  | cons kv rest ih =>
      obtain ⟨k0, v0⟩ := kv
      have step : dupdate d ((k0, v0) :: rest) = dupdate (dset d k0 v0) rest := rfl
      rw [step, ih]
      by_cases h0 : k0 = k
      · subst h0
        simp [dhas, dget, dget_dset_self]
      · simp [dhas, dget, h0, dget_dset_ne _ v0 h0]

end Pycnfg

namespace Pycnfg

/-! ## Statement accessors and concrete configuration trees -/

instance {e a : Type} [DecidableEq e] [DecidableEq a] : DecidableEq (Except e a) :=
  fun x y =>
    match x, y with
    | .ok u, .ok v => decidable_of_iff (u = v) (by simp)
    | .error u, .error v => decidable_of_iff (u = v) (by simp)
    | .ok _, .error _ => isFalse (by simp)
    | .error _, .ok _ => isFalse (by simp)

/-- The sub-configuration dict stored at `p[sid][cid]`, when that path exists. -/
def confAt (p : PyDict) (sid cid : String) : Option PyDict :=
  match dget p sid with
  | some (.vdict sec) =>
      match dget sec cid with
      | some (.vdict conf) => some conf
      | _ => none
  | _ => none

/-- The kwargs entry named `kw` of step `i` of the sub-configuration
`p[sid][cid]`. -/
def stepKwarg (p : PyDict) (sid cid : String) (i : Nat) (kw : String) :
    Option PyVal :=
  match confAt p sid cid with
  | some conf =>
      match dget conf "steps" with
      | some (.vlist steps) =>
          match steps.get? i with
          | some step =>
              match stepElems step with
              | some xs =>
                  match xs.get? 1 with
                  | some (.vdict kwargs) => dget kwargs kw
                  | _ => none
              | none => none
          | none => none
      | _ => none
  | none => none

/-- `conf['priority']` of a dict-valued sub-configuration. -/
def confPriority (v : PyVal) : Option PyVal :=
  match v with
  | .vdict c => dget c "priority"
  | _ => none

/-- A tree with a tree-level global `{key: b}` and a step `m1` supplying an
explicit literal under the kwarg name `m1__key` (that is, `stepMethod__key`
for its own step). -/
def c2tree : PyDict :=
  [("s", .vdict [("c", .vdict [("steps",
     .vlist [.vtuple [.vstr "m1", .vdict [("m1__key", .vstr "lit")]]])])]),
   ("global", .vdict [("key", .vstr "b")])]

/-- A tree with a section `key` holding exactly one sub-configuration `c1`,
and a step whose kwargs supply both a truthy `key` and an unset `key_id`. -/
def c3tree : PyDict :=
  [("key", .vdict [("c1", .vdict [])]),
   ("s", .vdict [("c", .vdict [("steps",
     .vlist [.vtuple [.vstr "m", .vdict [("key", .vstr "x"),
                                         ("key_id", .vnone)]]])])])]

/-- Two differently-named sections whose concatenated ids both give the
composite id `a__b__c`, with equal (default) priorities and different `init`
payloads. -/
def c5tree : PyDict :=
  [("a", .vdict [("b__c", .vdict [("init", .vint 1)])]),
   ("a__b", .vdict [("c", .vdict [("init", .vint 2)])])]

/-- A raw tree whose sub-configuration is empty. -/
def c6tree : PyDict := [("s", .vdict [("c", .vdict [])])]

/-- A default tree whose sub-configuration carries only `steps`, so the merged
sub-configuration lacks the other five structural keys. -/
def c6default : PyDict :=
  [("s", .vdict [("c", .vdict [("steps", .vlist [])])])]

/-- A tree whose single step has a string method, omitted kwargs slot filled
explicitly with a dict, and decorators supplied as a tuple — a Python
sequence, but not a list. -/
def c7tree : PyDict :=
  [("s", .vdict [("c", .vdict [("steps",
     .vlist [.vtuple [.vstr "m", .vdict [], .vtuple []]])])])]

/-- Two sections colliding on the composite id `a__b__c`, one scheduled with
priority 1 and the other excluded with priority 0. -/
def c9tree : PyDict :=
  [("a", .vdict [("b__c", .vdict [("priority", .vint 0)])]),
   ("a__b", .vdict [("c", .vdict [("priority", .vint 1)])])]

/-! ## Counterexamples and concrete claims -/

/-- C2 (counterexample).  The claim says that with a tree-level global
`{key: v}`, a step whose kwargs contain the key `stepMethod__key` has that
argument overwritten with a deep copy of `v`.  In `c2tree` the step `m1`
supplies the kwarg `m1__key` with the explicit literal `lit`; global
resolution succeeds and leaves it at `lit`, not `b`: `_substitute_global`
compares the *global* key against `kwarg_id` and `step_id + "__" + kwarg_id`,
so a plain global key never touches a `stepMethod__`-prefixed kwarg. -/
theorem c2_step_prefixed_kwarg_not_overwritten :
    ((Handler.merge_default c2tree []).bind fun p =>
        Handler.resolve p false).map
        (fun m => stepKwarg m "s" "c" 0 "m1__key")
      = Except.ok (some (.vstr "lit"))
    ∧ PyVal.vstr "lit" ≠ PyVal.vstr "b" := by
  decide

/-- C3 (counterexample).  In `c3tree` the kwarg `key_id` is named after the
section `key` (with the `_id` suffix), is unset (`None`), has no global
override, and the section has exactly one sub-configuration `c1` — the claim
says it is set to `key__c1`.  It stays `None`: `_resolve_none` selects the
plain-named kwarg `key` when both are present, finds it truthy, and never
considers `key_id`. -/
theorem c3_plain_kwarg_shadows_id_suffix :
    ((Handler.merge_default c3tree []).bind fun p =>
        Handler.resolve p true).map
        (fun m => stepKwarg m "s" "c" 0 "key_id")
      = Except.ok (some .vnone)
    ∧ PyVal.vnone ≠ PyVal.vstr "key__c1" := by
  decide

/-- C5 (counterexample).  Both sections of `c5tree` produce the composite id
`a__b__c`, so the claim requires the run to fail with DuplicateIdError.  The
run does fail before execution, but inside `_priority_arrange`: both entries
carry the default priority 1 and unequal payloads, so the CPython heap
comparison `(1, ('a__b__c', conf1)) < (1, ('a__b__c', conf2))` falls through
to `dict < dict` and raises TypeError at the second `heappush` — the
duplicate check `_check_res`, whose distinct ValueError is shown alongside,
is never reached. -/
theorem c5_collision_equal_priority_type_error :
    Handler.parse_cnfg c5tree [] false
      = Except.error "TypeError: unorderable dict instances in heap comparison"
    ∧ "a" ++ "__" ++ "b__c" = "a__b__c"
    ∧ "a__b" ++ "__" ++ "c" = "a__b__c"
    ∧ Handler.check_res [("a__b__c", .vnone), ("a__b__c", .vnone)]
        = Except.error "ValueError: Non-unique configuration id found: a__b__c"
    ∧ ("TypeError: unorderable dict instances in heap comparison" : String)
        ≠ "ValueError: Non-unique configuration id found: a__b__c" := by
  decide

/-- C6 (counterexample).  Merging `c6tree` against `c6default` copies only
`steps` into the sub-configuration; the built-in `dkeys` fill is skipped
because section `s` exists in the default tree.  Renormalizing the result
against the empty default then adds the five missing structural keys
(`priority` shown), so `normalize(normalize(t, d), emptyDict)` differs from
`normalize(t, d)` — and not merely in ordering, since a key present on one
side is absent on the other. -/
theorem c6_merge_default_not_idempotent :
    ((Handler.merge_default c6tree c6default).bind fun m =>
        Handler.merge_default m [])
      ≠ Handler.merge_default c6tree c6default
    ∧ (Handler.merge_default c6tree c6default).map
        (fun m => (confAt m "s" "c").bind (fun c => dget c "priority"))
      = Except.ok none
    ∧ ((Handler.merge_default c6tree c6default).bind fun m =>
        Handler.merge_default m []).map
        (fun m => (confAt m "s" "c").bind (fun c => dget c "priority"))
      = Except.ok (some (.vint 1)) := by
  decide

/-- C7 (counterexample).  The single step of `c7tree` has a string method id,
dict kwargs and decorators supplied as the tuple `()` — a Python sequence
that is not a list.  The claim says normalization fails only when the method
id is not a string, the kwargs are not a mapping, or the decorators are not a
sequence; yet `_merge_default` rejects this step, because the source checks
`isinstance(step[2], list)`. -/
theorem c7_sequence_decorators_rejected :
    Handler.merge_default c7tree []
      = Except.error "TypeError: On step[2] should be a list: s__c: m"
    ∧ isStr (.vstr "m") = true
    ∧ isDict (.vdict []) = true
    ∧ isSequence (.vtuple []) = true := by
  decide

/-- C8 (counterexample).  The kwarg `a` holds a tuple of strings — a Python
sequence — whose element `s__c` is an exact key of the store.  The claim says
each such string is replaced by the stored object; `_resolve_object` leaves
the tuple untouched, because only `isinstance(val, list)` values are unpacked
and a tuple is neither a list nor a string. -/
theorem c8_tuple_of_strings_not_resolved :
    Producer.resolve_object [("a", .vtuple [.vstr "s__c"])] [("s__c", .vobj 7)]
      = [("a", .vtuple [.vstr "s__c"])]
    ∧ isSequence (.vtuple [.vstr "s__c"]) = true
    ∧ dhas [("s__c", (PyVal.vobj 7))] "s__c" = true
    ∧ PyVal.vtuple [.vstr "s__c"] ≠ .vtuple [.vobj 7] := by
  decide

/-- C9.  In `c9tree` the sections `a` and `a__b` both yield the composite id
`a__b__c`, but the `a`-side sub-configuration has priority 0 and is filtered
out by `_priority_arrange` before `_check_res` counts ids: the run raises no
duplicate-id error, schedules exactly the positive-priority
sub-configuration, and an execution of the prepared list stores only that
composite id. -/
theorem c9_zero_priority_collision_unchecked :
    Handler.parse_cnfg c9tree [] false
      = Except.ok [("a__b__c", .vdict
          [("priority", .vint 1), ("init", .vdict []), ("producer", .vobj 0),
           ("global", .vdict []), ("patch", .vdict []), ("steps", .vlist [])])]
    ∧ "a" ++ "__" ++ "b__c" = "a__b__c"
    ∧ "a__b" ++ "__" ++ "c" = "a__b__c"
    ∧ (Handler.parse_cnfg c9tree [] false).map
        (fun configs => Handler.exec (fun oid _ _ => .vstr oid) configs [])
      = Except.ok [("a__b__c", .vstr "a__b__c")] := by
  decide

end Pycnfg

namespace Pycnfg

/-! ## Scheduler correctness (C1) -/

/-- The entries the flattening loop pushes for one sub-configuration of a
well-shaped tree: one `(priority, composite id, conf)` triple unless the
priority is zero. -/
def confEntryList (sid : String) (ce : String × PyVal) : List SchedEntry :=
  match ce.2 with
  | .vdict conf =>
      match dget conf "priority" with
      | some pv =>
          if intVal pv = 0 then []
          else [(intVal pv, sid ++ "__" ++ ce.1, ce.2)]
      | none => []
  | _ => []

/-- All entries the flattening loop pushes for a well-shaped tree. -/
def treeEntries (res : PyDict) : List SchedEntry :=
  res.flatMap (fun se =>
    match se.2 with
    | .vdict sec => sec.flatMap (confEntryList se.1)
    | _ => [])

/-- Every composite id `section_id + "__" + conf_id` of the tree. -/
def compositeIds (res : PyDict) : List String :=
  res.flatMap (fun se =>
    match se.2 with
    | .vdict sec => sec.map (fun ce => se.1 ++ "__" ++ ce.1)
    | _ => [])

/-- One sub-configuration is a dict with a non-negative integer priority. -/
def validConf (ce : String × PyVal) : Bool :=
  match ce.2 with
  | .vdict conf =>
      match dget conf "priority" with
      | some (.vint n) => decide (0 ≤ n)
      | _ => false
  | _ => false

/-- One section is a dict of valid sub-configurations. -/
def validSection (se : String × PyVal) : Bool :=
  match se.2 with
  | .vdict sec => sec.all validConf
  | _ => false

/-- Decidable well-shapedness of a scheduler input: every section is a dict
of dict sub-configurations, each carrying a non-negative integer priority. -/
def validPriorities (res : PyDict) : Bool :=
  res.all validSection

theorem validConf_spec {ce : String × PyVal} (h : validConf ce = true) :
    ∃ conf n, ce.2 = PyVal.vdict conf ∧
      dget conf "priority" = some (PyVal.vint n) ∧ 0 ≤ n := by
  rcases hc : ce.2 with _ | _ | _ | _ | _ | _ | conf | _ <;>
    simp [validConf, hc] at h
  rcases hp : dget conf "priority" with _ | pv <;> rw [hp] at h
  · simp at h
  · rcases pv with _ | _ | n | _ | _ | _ | _ | _ <;> simp at h
    exact ⟨conf, n, rfl, hp, h⟩

theorem validSection_spec {se : String × PyVal} (h : validSection se = true) :
    ∃ sec, se.2 = PyVal.vdict sec ∧ ∀ ce ∈ sec, validConf ce = true := by
  rcases hv : se.2 with _ | _ | _ | _ | _ | _ | sec | _ <;>
    simp [validSection, hv] at h
  exact ⟨sec, rfl, fun ce hce => h ce.1 ce.2 hce⟩

theorem validPriorities_spec {res : PyDict} (h : validPriorities res = true) :
    ∀ se ∈ res, validSection se = true :=
  List.all_eq_true.mp h

theorem except_ok_bind {α β : Type} (a : α) (f : α → Except String β) :
    (Except.ok a >>= f) = f a := rfl

theorem except_pure_eq {α : Type} (a : α) :
    (pure a : Except String α) = Except.ok a := rfl

theorem collectConf_ok (sid : String) (acc : List SchedEntry)
    (ce : String × PyVal) (conf : PyDict) (n : Int)
    (hc : ce.2 = PyVal.vdict conf)
    (hp : dget conf "priority" = some (PyVal.vint n)) (hn : 0 ≤ n) :
    collectConf sid acc ce = .ok (acc ++ confEntryList sid ce) := by
  obtain ⟨cid, cv⟩ := ce
  simp only at hc
  subst hc
  unfold collectConf confEntryList
  simp only [hp, except_ok_bind, except_pure_eq]
  by_cases h0 : n = 0
  · subst h0
    simp [isInt, intVal]
  · simp [isInt, intVal, h0, not_lt.mpr hn]

theorem collectSec_fold (sid : String) (sec : PyDict) (acc : List SchedEntry)
    (h : ∀ ce ∈ sec, ∃ conf n, ce.2 = PyVal.vdict conf ∧
          dget conf "priority" = some (PyVal.vint n) ∧ 0 ≤ n) :
    sec.foldlM (collectConf sid) acc
      = .ok (acc ++ sec.flatMap (confEntryList sid)) := by
  induction sec generalizing acc with
  | nil => simp [except_pure_eq]
  | cons ce rest ih =>
      obtain ⟨conf, n, hc, hp, hn⟩ := h ce (List.mem_cons_self _ _)
      rw [List.foldlM_cons, collectConf_ok sid acc ce conf n hc hp hn,
        except_ok_bind,
        ih _ (fun ce hce => h ce (List.mem_cons_of_mem _ hce))]
      simp [List.append_assoc]
  
end Pycnfg

namespace Pycnfg

theorem collectSection_ok (acc : List SchedEntry) (se : String × PyVal)
    (sec : PyDict) (hv : se.2 = PyVal.vdict sec)
    (hc : ∀ ce ∈ sec, validConf ce = true) :
    collectSection acc se = .ok (acc ++ sec.flatMap (confEntryList se.1)) := by
  unfold collectSection
  rw [hv]
  exact collectSec_fold se.1 sec acc
    (fun ce hce => validConf_spec (hc ce hce))

theorem collectEntries_ok {res : PyDict} (h : validPriorities res = true) :
    collectEntries res = .ok (treeEntries res) := by
  have H : ∀ (l : PyDict) (acc : List SchedEntry),
      (∀ se ∈ l, validSection se = true) →
      l.foldlM collectSection acc = .ok (acc ++ treeEntries l) := by
    intro l
    induction l with
    | nil => intro acc _; simp [treeEntries, except_pure_eq]
    | cons se rest ih =>
        intro acc hl
        obtain ⟨sec, hv, hc⟩ := validSection_spec (hl se (List.mem_cons_self _ _))
        rw [List.foldlM_cons, collectSection_ok acc se sec hv hc, except_ok_bind,
          ih _ (fun x hx => hl x (List.mem_cons_of_mem _ hx))]
        simp [treeEntries, hv, List.append_assoc]
  simpa using H res [] (validPriorities_spec h)

theorem hasBadTie_eq_false {l : List SchedEntry}
    (h : (l.map (fun e => e.2.1)).Nodup) : hasBadTie l = false := by
  induction l with
  | nil => rfl
  | cons e rest ih =>
      simp only [List.map_cons, List.nodup_cons] at h
      unfold hasBadTie
      rw [ih h.2]
      simp only [Bool.or_false, List.any_eq_false]
      intro f hf
      have hne : e.2.1 ≠ f.2.1 :=
        fun hh => h.1 (hh ▸ List.mem_map_of_mem _ hf)
      simp [entryKey, Prod.ext_iff, hne]

theorem confEntryList_names_sublist (sid : String) (sec : PyDict) :
    List.Sublist ((sec.flatMap (confEntryList sid)).map (fun e => e.2.1))
      (sec.map (fun ce => sid ++ "__" ++ ce.1)) := by
  induction sec with
  | nil => simp
  | cons ce rest ih =>
      simp only [List.flatMap_cons, List.map_append, List.map_cons]
      have hcl : (confEntryList sid ce).map (fun e => e.2.1) = [] ∨
          (confEntryList sid ce).map (fun e => e.2.1)
            = [sid ++ "__" ++ ce.1] := by
        unfold confEntryList
        rcases ce.2 with _ | _ | _ | _ | _ | _ | conf | _ <;> simp
        rcases dget conf "priority" with _ | pv <;> simp
        by_cases h : intVal pv = 0 <;> simp [h]
      rcases hcl with hcl | hcl
      · rw [hcl, List.nil_append]
        exact ih.cons _
      · rw [hcl, List.singleton_append]
        exact ih.cons₂ _

theorem treeEntries_names_sublist (res : PyDict) :
    List.Sublist ((treeEntries res).map (fun e => e.2.1))
      (compositeIds res) := by
  unfold treeEntries compositeIds
  induction res with
  | nil => simp
  | cons se rest ih =>
      simp only [List.flatMap_cons, List.map_append]
      refine List.Sublist.append ?_ ih
      rcases se.2 with _ | _ | _ | _ | _ | _ | sec | _ <;> simp
      exact confEntryList_names_sublist se.1 sec

theorem mem_treeEntries {res : PyDict} (hvalid : validPriorities res = true)
    {e : SchedEntry} :
    e ∈ treeEntries res ↔
      ∃ sid sec cid conf n, (sid, PyVal.vdict sec) ∈ res ∧
        (cid, PyVal.vdict conf) ∈ sec ∧
        dget conf "priority" = some (PyVal.vint n) ∧ 0 < n ∧
        e = (n, sid ++ "__" ++ cid, PyVal.vdict conf) := by
  unfold treeEntries
  simp only [List.mem_flatMap]
  constructor
  · rintro ⟨se, hse, he⟩
    obtain ⟨sec, hv, hc⟩ :=
      validSection_spec (validPriorities_spec hvalid se hse)
    obtain ⟨sid0, sv⟩ := se
    simp only at hv
    subst hv
    simp only [List.mem_flatMap] at he
    obtain ⟨ce, hce, he2⟩ := he
    obtain ⟨conf, n, hcv, hp, hn⟩ := validConf_spec (hc ce hce)
    obtain ⟨cid0, cv⟩ := ce
    simp only at hcv
    subst hcv
    simp only [confEntryList, hp, intVal] at he2
    by_cases h0 : n = 0
    · rw [if_pos h0] at he2
      simp at he2
    · rw [if_neg h0] at he2
      simp only [List.mem_singleton] at he2
      exact ⟨sid0, sec, cid0, conf, n, hse, hce, hp,
        lt_of_le_of_ne hn (Ne.symm h0), he2⟩
  · rintro ⟨sid, sec, cid, conf, n, hs, hc2, hp, h0, he⟩
    refine ⟨(sid, PyVal.vdict sec), hs, ?_⟩
    show e ∈ sec.flatMap (confEntryList sid)
    simp only [List.mem_flatMap]
    refine ⟨(cid, PyVal.vdict conf), hc2, ?_⟩
    unfold confEntryList
    simp only [hp]
    rw [if_neg (by simpa [intVal] using (ne_of_gt h0))]
    simp [he, intVal]

end Pycnfg

namespace Pycnfg

theorem charListLt_of_pyStrLe_ne {a b : String}
    (h : pyStrLe a b = true) (hne : a ≠ b) :
    charListLt a.data b.data = true := by
  simp only [pyStrLe, Bool.or_eq_true, beq_iff_eq] at h
  exact h.resolve_right hne

/-- C1.  For every configuration tree whose sub-configurations are all dicts
carrying valid (non-negative integer) priorities and whose composite ids are
pairwise distinct, `_priority_arrange` succeeds and its output contains
exactly the `(CompositeId, subConfig)` pairs with priority > 0, each at most
once, arranged in strictly ascending order of priority with ties broken by
ascending CompositeId string (code-point order) — so a priority-1 entry
always precedes a priority-2 entry regardless of declaration order. -/
theorem priority_arrange_sorted (res : PyDict)
    (hvalid : validPriorities res = true)
    (hids : (compositeIds res).Nodup) :
    ∃ out, Handler.priority_arrange res = Except.ok out ∧
      (∀ name val, (name, val) ∈ out ↔
        (∃ sid sec cid conf n, (sid, PyVal.vdict sec) ∈ res ∧
          (cid, PyVal.vdict conf) ∈ sec ∧ val = PyVal.vdict conf ∧
          name = sid ++ "__" ++ cid ∧
          dget conf "priority" = some (PyVal.vint n) ∧ 0 < n)) ∧
      (out.map Prod.fst).Nodup ∧
      out.Pairwise (fun a b => ∃ m n,
        confPriority a.2 = some (PyVal.vint m) ∧
        confPriority b.2 = some (PyVal.vint n) ∧
        (m < n ∨ (m = n ∧ charListLt a.1.data b.1.data = true))) := by
  have hentries := collectEntries_ok hvalid
  have hnames : ((treeEntries res).map (fun e => e.2.1)).Nodup :=
    (treeEntries_names_sublist res).nodup hids
  have hbad : hasBadTie (treeEntries res) = false := hasBadTie_eq_false hnames
  have hperm : List.Perm (List.insertionSort entryLe (treeEntries res))
      (treeEntries res) :=
    List.perm_insertionSort entryLe (treeEntries res)
  have hsorted : (List.insertionSort entryLe (treeEntries res)).Pairwise entryLe :=
    List.sorted_insertionSort entryLe (treeEntries res)
  have hlink : ∀ e ∈ List.insertionSort entryLe (treeEntries res),
      confPriority e.2.2 = some (PyVal.vint e.1) := by
    intro e he
    obtain ⟨sid, sec, cid, conf, n, _, _, hp, _, hev⟩ :=
      (mem_treeEntries hvalid).mp (hperm.mem_iff.mp he)
    rw [hev]
    simpa [confPriority] using hp
  refine ⟨(List.insertionSort entryLe (treeEntries res)).map (fun e => e.2),
    ?_, ?_, ?_, ?_⟩
  · unfold Handler.priority_arrange heapNSmallest
    rw [hentries, except_ok_bind, hbad]
    simp [except_pure_eq, except_ok_bind]
  · intro name val
    rw [List.mem_map]
    constructor
    · rintro ⟨e, he, hev⟩
      obtain ⟨sid, sec, cid, conf, n, h1, h2, h3, h4, h5⟩ :=
        (mem_treeEntries hvalid).mp (hperm.mem_iff.mp he)
      rw [h5] at hev
      obtain ⟨hn, hv⟩ := Prod.mk.injEq .. ▸ hev
      exact ⟨sid, sec, cid, conf, n, h1, h2, hv.symm, hn.symm, h3, h4⟩
    · rintro ⟨sid, sec, cid, conf, n, h1, h2, h3, h4, h5, h6⟩
      refine ⟨(n, sid ++ "__" ++ cid, PyVal.vdict conf), ?_, ?_⟩
      · exact hperm.mem_iff.mpr ((mem_treeEntries hvalid).mpr
          ⟨sid, sec, cid, conf, n, h1, h2, h5, h6, rfl⟩)
      · rw [h3, h4]
  · rw [List.map_map]
    have : ((List.insertionSort entryLe (treeEntries res)).map
        (Prod.fst ∘ (fun e : SchedEntry => e.2))) =
        (List.insertionSort entryLe (treeEntries res)).map (fun e => e.2.1) := by
      rfl
    rw [this]
    exact ((hperm.map (fun e : SchedEntry => e.2.1)).nodup_iff).mpr hnames
  · rw [List.pairwise_map]
    have hnd : ((List.insertionSort entryLe (treeEntries res)).map
        (fun e => e.2.1)).Nodup :=
      ((hperm.map (fun e : SchedEntry => e.2.1)).nodup_iff).mpr hnames
    have hne : (List.insertionSort entryLe (treeEntries res)).Pairwise
        (fun a b => a.2.1 ≠ b.2.1) := List.pairwise_map.mp hnd
    refine (hsorted.and hne).imp_of_mem ?_
    intro a b ha hb hab
    obtain ⟨hle, hneq⟩ := hab
    refine ⟨a.1, b.1, hlink a ha, hlink b hb, ?_⟩
    rcases hle with h | ⟨heq, hstr⟩
    · exact Or.inl h
    · exact Or.inr ⟨heq, charListLt_of_pyStrLe_ne hstr hneq⟩

end Pycnfg

namespace Pycnfg

/-- Witness tree for the scheduler: priority 2 declared before priority 1. -/
def c1tree : PyDict :=
  [("s", .vdict [("c2", .vdict [("priority", .vint 2)]),
                 ("c1", .vdict [("priority", .vint 1)])])]

/-- Witness for C1 at `c1tree`: the hypotheses hold and the conclusion
follows by the theorem; concretely the arranged list is
`[s__c1, s__c2]` although `c2` was declared first. -/
theorem priority_arrange_sorted_witness :
    validPriorities c1tree = true ∧ (compositeIds c1tree).Nodup ∧
      (∃ out, Handler.priority_arrange c1tree = Except.ok out ∧
        (∀ name val, (name, val) ∈ out ↔
          (∃ sid sec cid conf n, (sid, PyVal.vdict sec) ∈ c1tree ∧
            (cid, PyVal.vdict conf) ∈ sec ∧ val = PyVal.vdict conf ∧
            name = sid ++ "__" ++ cid ∧
            dget conf "priority" = some (PyVal.vint n) ∧ 0 < n)) ∧
        (out.map Prod.fst).Nodup ∧
        out.Pairwise (fun a b => ∃ m n,
          confPriority a.2 = some (PyVal.vint m) ∧
          confPriority b.2 = some (PyVal.vint n) ∧
          (m < n ∨ (m = n ∧ charListLt a.1.data b.1.data = true)))) ∧
      (Handler.priority_arrange c1tree).map (List.map Prod.fst)
        = Except.ok ["s__c1", "s__c2"] :=
  ⟨by decide, by decide,
   priority_arrange_sorted c1tree (by decide) (by decide), by decide⟩

/-- The composite ids present in the store after `Handler.exec`: the initial
ids plus the executed ones. -/
theorem dhas_exec (ex : String → PyVal → PyDict → PyVal)
    (configs : List (String × PyVal)) (objs : PyDict) (k : String) :
    dhas (Handler.exec ex configs objs) k
      = (dhas objs k || (configs.map Prod.fst).contains k) := by
  induction configs generalizing objs with
  | nil => simp [Handler.exec]
  | cons c rest ih =>
      show dhas (Handler.exec ex rest (dset objs c.1 (ex c.1 c.2 objs))) k = _
      rw [ih, dhas_dset]
      simp only [List.map_cons, List.contains_cons]
      have h1s : (k == c.1) = (c.1 == k) := by
        rcases eq_or_ne k c.1 with h | h
        · simp [h]
        · simp [h, Ne.symm h]
      rw [h1s]
      rcases h1 : (c.1 == k) with _ | _ <;>
        rcases h2 : dhas objs k with _ | _ <;> rfl

/-- Under valid priorities, a successful `_priority_arrange` returns exactly
the sorted push list. -/
theorem priority_arrange_ok_elim {res : PyDict} {out : List (String × PyVal)}
    (hvalid : validPriorities res = true)
    (hok : Handler.priority_arrange res = Except.ok out) :
    out = (List.insertionSort entryLe (treeEntries res)).map (fun e => e.2) := by
  unfold Handler.priority_arrange heapNSmallest at hok
  rw [collectEntries_ok hvalid, except_ok_bind] at hok
  by_cases hb : hasBadTie (treeEntries res) = true
  · rw [if_pos hb] at hok
    exact absurd hok (by simp)
  · rw [if_neg hb] at hok
    simp only [except_pure_eq, except_ok_bind] at hok
    exact (Except.ok.injEq .. ▸ hok).symm

/-- C4.  For every run over a tree with valid priorities: a sub-configuration
with priority 0 never appears in the execution list `_priority_arrange`
returns, and — provided the store was not pre-seeded under its composite id
and no pushed (scheduled) sub-configuration shares that id — its composite id
is absent from the store `Handler.exec` returns. -/
theorem priority_zero_excluded (res objects0 : PyDict)
    (ex : String → PyVal → PyDict → PyVal)
    (sid cid : String) (sec conf : PyDict)
    (hvalid : validPriorities res = true)
    (hsec : (sid, PyVal.vdict sec) ∈ res)
    (hconf : (cid, PyVal.vdict conf) ∈ sec)
    (hprio : dget conf "priority" = some (PyVal.vint 0))
    (hother : (treeEntries res).all
      (fun e => !(e.2.1 == sid ++ "__" ++ cid)) = true)
    (hseed : dhas objects0 (sid ++ "__" ++ cid) = false) :
    ∀ out, Handler.priority_arrange res = Except.ok out →
      (∀ val, (sid ++ "__" ++ cid, val) ∉ out) ∧
      dhas (Handler.exec ex out objects0) (sid ++ "__" ++ cid) = false := by
  intro out hok
  rw [List.all_eq_true] at hother
  have hout := priority_arrange_ok_elim hvalid hok
  have hnotin : ∀ val, (sid ++ "__" ++ cid, val) ∉ out := by
    intro val hmem
    rw [hout, List.mem_map] at hmem
    obtain ⟨e, he, hev⟩ := hmem
    have he2 : e ∈ treeEntries res :=
      (List.perm_insertionSort entryLe (treeEntries res)).mem_iff.mp he
    have := hother e he2
    rw [hev] at this
    simp at this
  refine ⟨hnotin, ?_⟩
  rw [dhas_exec, hseed, Bool.false_or]
  rw [List.contains_eq_any_beq, List.any_eq_false]
  intro name hname hbeq
  rw [List.mem_map] at hname
  obtain ⟨c, hc, hcn⟩ := hname
  obtain ⟨cn, cv⟩ := c
  simp only at hcn
  subst hcn
  have hnm : sid ++ "__" ++ cid = cn := by simpa using hbeq
  exact hnotin cv (hnm ▸ hc)

/-- Witness tree for C4: `s__c0` has priority 0, `s__c1` priority 1. -/
def c4tree : PyDict :=
  [("s", .vdict [("c0", .vdict [("priority", .vint 0)]),
                 ("c1", .vdict [("priority", .vint 1)])])]

/-- Witness for C4 at `c4tree` with an empty initial store and a trivial
executor: the hypotheses hold and the conclusion follows by the theorem. -/
theorem priority_zero_excluded_witness :
    validPriorities c4tree = true ∧
      ("s", PyVal.vdict [("c0", PyVal.vdict [("priority", PyVal.vint 0)]),
         ("c1", PyVal.vdict [("priority", PyVal.vint 1)])]) ∈ c4tree ∧
      (∀ out, Handler.priority_arrange c4tree = Except.ok out →
        (∀ val, ("s" ++ "__" ++ "c0", val) ∉ out) ∧
        dhas (Handler.exec (fun oid _ _ => PyVal.vstr oid) out [])
          ("s" ++ "__" ++ "c0") = false) :=
  ⟨by decide, by decide,
   priority_zero_excluded c4tree [] (fun oid _ _ => PyVal.vstr oid)
     "s" "c0" [("c0", PyVal.vdict [("priority", PyVal.vint 0)]),
               ("c1", PyVal.vdict [("priority", PyVal.vint 1)])]
     [("priority", PyVal.vint 0)]
     (by decide) (by decide) (by decide) (by decide) (by decide) (by decide)⟩

end Pycnfg

namespace Pycnfg

theorem mem_eraseDups_loop {α : Type} [BEq α] [LawfulBEq α]
    (x : α) (as bs : List α) :
    x ∈ List.eraseDups.loop as bs ↔ x ∈ as ∨ x ∈ bs := by
  induction as generalizing bs with
  | nil => simp [List.eraseDups.loop]
  | cons a as ih =>
      simp only [List.eraseDups.loop]
      rcases h : bs.elem a with _ | _
      · rw [ih]
        simp only [List.mem_cons]
        tauto
      · rw [ih]
        have ha : a ∈ bs := List.mem_of_elem_eq_true h
        simp only [List.mem_cons]
        constructor
        · tauto
        · rintro ((h1 | h1) | h1)
          · subst h1
            exact Or.inr ha
          · tauto
          · tauto

theorem mem_eraseDups {α : Type} [BEq α] [LawfulBEq α] {x : α} {l : List α} :
    x ∈ l.eraseDups ↔ x ∈ l := by
  rw [List.eraseDups, mem_eraseDups_loop]
  simp

theorem check_res_error_of_dup {tup : List (String × PyVal)}
    (h : ¬ (tup.map Prod.fst).Nodup) :
    ∃ e, Handler.check_res tup = Except.error e := by
  have hcount : ∃ a, 1 < (tup.map Prod.fst).count a := by
    by_contra hc
    push_neg at hc
    exact h (List.nodup_iff_count_le_one.mpr hc)
  obtain ⟨a, ha⟩ := hcount
  have hmem : a ∈ tup.map Prod.fst :=
    List.count_pos_iff.mp (lt_trans one_pos ha |>.trans_le (le_refl _))
  have hfil : a ∈ (tup.map Prod.fst).eraseDups.filter
      (fun n => (tup.map Prod.fst).count n > 1) := by
    rw [List.mem_filter]
    exact ⟨mem_eraseDups.mpr hmem, by simpa using ha⟩
  unfold Handler.check_res
  rw [if_neg (by simpa [List.isEmpty_iff] using List.ne_nil_of_mem hfil)]
  exact ⟨_, rfl⟩

theorem except_bind_eq_ok {α β : Type} {x : Except String α}
    {f : α → Except String β} {b : β} :
    (x >>= f) = .ok b ↔ ∃ a, x = .ok a ∧ f a = .ok b := by
  cases x <;> simp [Except.bind, Bind.bind]

/-- C5 (amended).  If the scheduler produces some composite id twice — the
pushed `(priority, id, conf)` entries of the resolved tree repeat an id —
then the run fails before any sub-configuration executes: `_parse_cnfg` (and
hence `run`) returns an error and never reaches `Handler.exec`.  The error is
the duplicate-id ValueError of `_check_res` unless two colliding entries tie
on `(priority, id)` with unequal payloads, in which case the CPython heap
comparison raises TypeError first (see the counterexample). -/
theorem duplicate_id_run_fails (cnfg dcnfg objects0 : PyDict) (rn : Bool)
    (ex : String → PyVal → PyDict → PyVal) (p : PyDict)
    (hmr : (Handler.merge_default cnfg dcnfg).bind
      (fun m => Handler.resolve m rn) = Except.ok p)
    (hvalid : validPriorities p = true)
    (hdup : ¬ ((treeEntries p).map (fun e => e.2.1)).Nodup) :
    (∀ l, Handler.parse_cnfg cnfg dcnfg rn ≠ Except.ok l) ∧
    (∀ objs, run ex cnfg dcnfg rn objects0 ≠ Except.ok objs) := by
  obtain ⟨m, hm, hr⟩ := except_bind_eq_ok.mp hmr
  have hparse : ∀ l, Handler.parse_cnfg cnfg dcnfg rn ≠ Except.ok l := by
    intro l hok
    unfold Handler.parse_cnfg at hok
    rw [hm, except_ok_bind, hr, except_ok_bind] at hok
    unfold Handler.priority_arrange heapNSmallest at hok
    rw [collectEntries_ok hvalid, except_ok_bind] at hok
    by_cases hb : hasBadTie (treeEntries p) = true
    · rw [if_pos hb] at hok
      simp [Except.bind, Bind.bind] at hok
    · rw [if_neg hb] at hok
      simp only [except_pure_eq, except_ok_bind] at hok
      have hdup2 : ¬ (((List.insertionSort entryLe (treeEntries p)).map
          (fun e => e.2)).map Prod.fst).Nodup := by
        rw [List.map_map]
        intro hnd
        apply hdup
        exact ((List.perm_insertionSort entryLe (treeEntries p)).map
          (fun e : SchedEntry => e.2.1)).nodup_iff.mp hnd
      obtain ⟨e, he⟩ := check_res_error_of_dup hdup2
      rw [he] at hok
      simp [Except.bind, Bind.bind] at hok
  refine ⟨hparse, ?_⟩
  intro objs hok
  unfold run at hok
  obtain ⟨l, hl, _⟩ := except_bind_eq_ok.mp hok
  exact hparse l hl

end Pycnfg

namespace Pycnfg

/-- Witness tree for the amended C5: the colliding composite ids carry
different priorities, so the heap comparison never ties and the failure is
the duplicate-id ValueError itself. -/
def c5wtree : PyDict :=
  [("a", .vdict [("b__c", .vdict [("priority", .vint 1)])]),
   ("a__b", .vdict [("c", .vdict [("priority", .vint 2)])])]

/-- The resolved form of `c5wtree` (merge against the empty default followed
by global resolution). -/
def c5wresolved : PyDict :=
  [("a", .vdict [("b__c", .vdict
      [("priority", .vint 1), ("init", .vdict []), ("producer", .vobj 0),
       ("global", .vdict []), ("patch", .vdict []), ("steps", .vlist [])])]),
   ("a__b", .vdict [("c", .vdict
      [("priority", .vint 2), ("init", .vdict []), ("producer", .vobj 0),
       ("global", .vdict []), ("patch", .vdict []), ("steps", .vlist [])])])]

/-- Witness for the amended C5 at `c5wtree`: the hypotheses hold, the run
fails by the theorem, and the error is concretely the duplicate-id
ValueError. -/
theorem duplicate_id_run_fails_witness :
    ((Handler.merge_default c5wtree []).bind
      (fun m => Handler.resolve m false) = Except.ok c5wresolved) ∧
    validPriorities c5wresolved = true ∧
    ¬ ((treeEntries c5wresolved).map (fun e => e.2.1)).Nodup ∧
    ((∀ l, Handler.parse_cnfg c5wtree [] false ≠ Except.ok l) ∧
     (∀ objs, run (fun oid _ _ => PyVal.vstr oid) c5wtree [] false []
        ≠ Except.ok objs)) ∧
    Handler.parse_cnfg c5wtree [] false
      = Except.error "ValueError: Non-unique configuration id found: a__b__c" :=
  ⟨by decide, by decide, by decide,
   duplicate_id_run_fails c5wtree [] [] false (fun oid _ _ => PyVal.vstr oid)
     c5wresolved (by decide) (by decide) (by decide),
   by decide⟩

end Pycnfg

namespace Pycnfg

theorem resolve_object_frame (objects : PyDict) (l : List (String × PyVal))
    (acc : PyDict) (key : String) (h : key ∉ l.map Prod.fst) :
    dget (l.foldl (resolveObjectStep objects) acc) key = dget acc key := by
  induction l generalizing acc with
  | nil => rfl
  | cons kv rest ih =>
      simp only [List.map_cons, List.mem_cons] at h
      push_neg at h
      rw [List.foldl_cons, ih _ h.2]
      unfold resolveObjectStep
      by_cases he : endsWithId kv.1
      · rw [if_pos he]
      · rw [if_neg he, dget_dset_ne _ _ (fun hh => h.1 hh.symm)]

theorem resolve_object_char (objects : PyDict) (l : List (String × PyVal))
    (acc : PyDict) (key : String) (val : PyVal)
    (hnd : (l.map Prod.fst).Nodup) (hmem : (key, val) ∈ l) :
    dget (l.foldl (resolveObjectStep objects) acc) key
      = if endsWithId key then dget acc key
        else some (substituteVal objects val) := by
  induction l generalizing acc with
  | nil => simp at hmem
  | cons kv rest ih =>
      obtain ⟨k0, v0⟩ := kv
      simp only [List.map_cons, List.nodup_cons] at hnd
      rcases List.mem_cons.mp hmem with h | h
      · rw [Prod.mk.injEq] at h
        obtain ⟨h1, h2⟩ := h
        rw [List.foldl_cons,
          resolve_object_frame objects rest _ key (by rw [h1]; exact hnd.1)]
        unfold resolveObjectStep
        simp only
        rw [← h1, ← h2]
        by_cases he : endsWithId key
        · rw [if_pos he, if_pos he]
        · rw [if_neg he, if_neg he, dget_dset_self]
      · have hk : k0 ≠ key := by
          intro hh
          exact hnd.1 (hh ▸ List.mem_map_of_mem Prod.fst h)
        rw [List.foldl_cons, ih _ hnd.2 h]
        by_cases he : endsWithId key
        · rw [if_pos he, if_pos he]
          unfold resolveObjectStep
          simp only
          by_cases he0 : endsWithId k0
          · rw [if_pos he0]
          · rw [if_neg he0, dget_dset_ne _ _ hk]
        · rw [if_neg he, if_neg he]

theorem resolve_object_keys (objects : PyDict) (l : List (String × PyVal))
    (acc : PyDict) (h : ∀ kv ∈ l, dhas acc kv.1 = true) :
    dkeys (l.foldl (resolveObjectStep objects) acc) = dkeys acc := by
  induction l generalizing acc with
  | nil => rfl
  | cons kv rest ih =>
      rw [List.foldl_cons]
      have hstep : dkeys (resolveObjectStep objects acc kv) = dkeys acc := by
        unfold resolveObjectStep
        by_cases he : endsWithId kv.1
        · rw [if_pos he]
        · rw [if_neg he, dkeys_dset, if_pos (h kv (List.mem_cons_self _ _))]
      rw [ih _ ?_, hstep]
      intro kv2 h2
      have hm : kv2.1 ∈ dkeys (resolveObjectStep objects acc kv) := by
        rw [hstep]
        exact (mem_dkeys_iff_dhas _ _).mpr (h kv2 (List.mem_cons_of_mem _ h2))
      exact (mem_dkeys_iff_dhas _ _).mp hm

end Pycnfg

namespace Pycnfg

/-- C8 (amended).  During step execution, `_resolve_object` leaves the kwarg
key set unchanged and maps every argument as follows: an argument whose name
ends in `_id` keeps its value untouched as an identifier; an argument whose
name does not end in `_id` and whose value is a string that is an exact key
of the ObjectsStore is replaced by the stored object (a non-matching string
is unchanged); a *list* value has exactly its string elements replaced the
same way, elementwise; any other value — including a tuple of strings — is
left unchanged. -/
theorem resolve_object_spec (kwargs objects : PyDict)
    (hnd : (dkeys kwargs).Nodup) :
    dkeys (Producer.resolve_object kwargs objects) = dkeys kwargs ∧
    (∀ key val, dget kwargs key = some val →
      dget (Producer.resolve_object kwargs objects) key = some (
        if endsWithId key then val
        else match val with
          | .vstr s => (dget objects s).getD (.vstr s)
          | .vlist xs => .vlist (xs.map (fun v =>
              match v with
              | .vstr s => (dget objects s).getD v
              | _ => v))
          | v => v)) := by
  constructor
  · unfold Producer.resolve_object
    exact resolve_object_keys objects kwargs kwargs
      (fun kv hkv => (mem_dkeys_iff_dhas _ _).mp
        (List.mem_map_of_mem Prod.fst hkv))
  · intro key val hget
    unfold Producer.resolve_object
    rw [resolve_object_char objects kwargs kwargs key val hnd
      (dget_mem _ _ _ hget)]
    by_cases he : endsWithId key
    · rw [if_pos he, if_pos he, hget]
    · rw [if_neg he, if_neg he]
      congr 1
      unfold substituteVal
      rcases val with _ | _ | _ | s | xs | _ | _ | _ <;> simp
      · rcases dget objects s with _ | w <;> simp
      · intro a _
        rcases a with _ | _ | _ | s2 | _ | _ | _ | _ <;> simp
        rcases dget objects s2 with _ | w <;> simp

/-- Witness kwargs for C8: a matching string, an `_id`-suffixed kwarg, a
mixed list, a non-matching string and an integer. -/
def c8kwargs : PyDict :=
  [("a", .vstr "s__c"), ("b_id", .vstr "s__c"),
   ("c", .vlist [.vstr "s__c", .vint 3]),
   ("d", .vstr "nope"), ("e", .vint 5)]

/-- The store used by the C8 witness. -/
def c8objects : PyDict := [("s__c", .vobj 7)]

/-- Witness for the amended C8 at `c8kwargs`/`c8objects`, together with the
concrete evaluation of the substitution. -/
theorem resolve_object_spec_witness :
    (dkeys c8kwargs).Nodup ∧
    (dkeys (Producer.resolve_object c8kwargs c8objects) = dkeys c8kwargs ∧
     (∀ key val, dget c8kwargs key = some val →
       dget (Producer.resolve_object c8kwargs c8objects) key = some (
         if endsWithId key then val
         else match val with
           | .vstr s => (dget c8objects s).getD (.vstr s)
           | .vlist xs => .vlist (xs.map (fun v =>
               match v with
               | .vstr s => (dget c8objects s).getD v
               | _ => v))
           | v => v))) ∧
    Producer.resolve_object c8kwargs c8objects
      = [("a", .vobj 7), ("b_id", .vstr "s__c"),
         ("c", .vlist [.vobj 7, .vint 3]),
         ("d", .vstr "nope"), ("e", .vint 5)] :=
  ⟨by decide, resolve_object_spec c8kwargs c8objects (by decide), by decide⟩

end Pycnfg

namespace Pycnfg

/-! ## Idempotence of normalization on complete trees (C6) -/

theorem dset_same (d : PyDict) (k : String) (v : PyVal)
    (h : dget d k = some v) : dset d k v = d := by
  induction d with
  | nil => simp [dget] at h
  | cons kv rest ih =>
      obtain ⟨k0, v0⟩ := kv
      by_cases h0 : k0 = k
      · subst h0
        have hv : v0 = v := Option.some.inj (by simpa [dget] using h)
        subst hv
        simp [dset]
      · simp only [dget, if_neg h0] at h
        simp [dset, h0, ih h]

theorem foldlM_id {α : Type} (l : List α) (p : PyDict)
    (f : PyDict → α → Except String PyDict)
    (h : ∀ a ∈ l, f p a = .ok p) :
    l.foldlM f p = .ok p := by
  induction l with
  | nil => rfl
  | cons a rest ih =>
      rw [List.foldlM_cons, h a (List.mem_cons_self _ _), except_ok_bind]
      exact ih (fun x hx => h x (List.mem_cons_of_mem _ hx))

/-- A step already in the normalized shape: at least three components, with a
string method id, dict kwargs and list decorators. -/
def stepNormalized (step : PyVal) : Bool :=
  match stepElems step with
  | some (s0 :: s1 :: s2 :: _) => isStr s0 && isDict s1 && isListV s2
  | _ => false

/-- A sub-configuration carrying all six structural keys and fully normalized
steps. -/
def confComplete (confv : PyVal) : Bool :=
  match confv with
  | .vdict conf =>
      structuralKeys.all (fun k => dhas conf k) &&
      (match dget conf "steps" with
       | some (.vlist steps) => steps.all stepNormalized
       | _ => false)
  | _ => false

/-- A section whose sub-configurations are all complete, with unique keys and
a `global` entry. -/
def sectionComplete (secv : PyVal) : Bool :=
  match secv with
  | .vdict sec =>
      decide ((dkeys sec).Nodup) && dhas sec "global" &&
      sec.all (fun ce => ce.1 == "global" || confComplete ce.2)
  | _ => false

/-- A fully-shaped normalized tree: unique section keys, a tree-level
`global`, and complete sections — the state `_merge_default` leaves behind
when every sub-configuration ends up with all six structural keys. -/
def mergedComplete (m : PyDict) : Bool :=
  decide ((dkeys m).Nodup) && dhas m "global" &&
  m.all (fun se => se.1 == "global" || sectionComplete se.2)

theorem fillDkeysConf_complete {confv : PyVal} (h : confComplete confv = true) :
    fillDkeysConf confv = .ok confv := by
  rcases hc : confv with _ | _ | _ | _ | _ | _ | conf | _ <;>
    rw [hc] at h <;> simp [confComplete] at h
  unfold fillDkeysConf asDict
  rw [except_ok_bind]
  have hfil : dkeysDefault.filter (fun kv => !dhas conf kv.1) = [] := by
    rw [List.filter_eq_nil_iff]
    intro kv hkv
    have hks : kv.1 ∈ structuralKeys := by
      simp only [dkeysDefault, List.mem_cons, List.not_mem_nil, or_false] at hkv
      rcases hkv with h1 | h1 | h1 | h1 | h1 | h1 <;> rw [h1] <;> decide
    simp [h.1 kv.1 hks]
  rw [hfil]
  rfl

end Pycnfg

namespace Pycnfg

theorem mapM_id {α : Type} (l : List α) (f : α → Except String α)
    (h : ∀ a ∈ l, f a = .ok a) : l.mapM f = .ok l := by
  induction l with
  | nil => rfl
  | cons a rest ih =>
      rw [List.mapM_cons, h a (List.mem_cons_self _ _)]
      rw [show ((Except.ok a : Except String α) >>= fun x =>
        rest.mapM f >>= fun xs => pure (x :: xs)) =
        (rest.mapM f >>= fun xs => pure (a :: xs)) from rfl]
      rw [ih (fun x hx => h x (List.mem_cons_of_mem _ hx))]
      rfl

theorem normalizeStep_id (sid cid : String) {step : PyVal}
    (h : stepNormalized step = true) :
    normalizeStep sid cid step = .ok step := by
  unfold stepNormalized at h
  rcases hx : stepElems step with _ | xs <;> rw [hx] at h
  · simp at h
  rcases xs with _ | ⟨s0, xs⟩
  · simp at h
  rcases xs with _ | ⟨s1, xs⟩
  · simp at h
  rcases xs with _ | ⟨s2, xs⟩
  · simp at h
  simp only [Bool.and_eq_true] at h
  unfold normalizeStep
  rw [hx]
  simp [h.1.1, h.1.2, h.2]
  rfl

theorem normalizeConfSteps_id (sid cid : String) {confv : PyVal}
    (h : confComplete confv = true) :
    normalizeConfSteps sid cid confv = .ok confv := by
  rcases hc : confv with _ | _ | _ | _ | _ | _ | conf | _ <;>
    rw [hc] at h <;> simp [confComplete] at h
  obtain ⟨hkeys, hsteps⟩ := h
  rcases hst : dget conf "steps" with _ | stv <;> rw [hst] at hsteps
  · simp at hsteps
  rcases stv with _ | _ | _ | _ | steps | _ | _ | _ <;> simp at hsteps
  have hmm : List.mapM (normalizeStep sid cid) steps = Except.ok steps :=
    mapM_id steps _ (fun s hs => normalizeStep_id sid cid (hsteps s hs))
  have hds : dset conf "steps" (PyVal.vlist steps) = conf :=
    dset_same conf "steps" _ hst
  unfold normalizeConfSteps asDict asListV
  simp only [pure_bind, except_ok_bind, except_pure_eq, hst, hmm, hds]

theorem fillConfStep_id {sec : PyDict} (hnd : (dkeys sec).Nodup)
    (hall : ∀ ce ∈ sec, ce.1 = "global" ∨ confComplete ce.2 = true) :
    ∀ ce ∈ sec, fillConfStep sec ce = .ok sec := by
  intro ce hce
  unfold fillConfStep
  by_cases hg : ce.1 = "global"
  · rw [if_pos (by simp [hg])]
    rfl
  · rw [if_neg (by simp [hg])]
    rcases hall ce hce with h | h
    · exact absurd h hg
    · rw [fillDkeysConf_complete h, except_ok_bind,
        dset_same sec ce.1 ce.2 (dget_of_mem_nodup sec ce.1 ce.2 hce hnd)]
      rfl

theorem normalizeConfStep_id (sid : String) {sec : PyDict}
    (hnd : (dkeys sec).Nodup)
    (hall : ∀ ce ∈ sec, ce.1 = "global" ∨ confComplete ce.2 = true) :
    ∀ ce ∈ sec, normalizeConfStep sid sec ce = .ok sec := by
  intro ce hce
  unfold normalizeConfStep
  by_cases hg : ce.1 = "global"
  · rw [if_pos (by simp [hg])]
    rfl
  · rw [if_neg (by simp [hg])]
    rcases hall ce hce with h | h
    · exact absurd h hg
    · rw [normalizeConfSteps_id sid ce.1 h, except_ok_bind,
        dset_same sec ce.1 ce.2 (dget_of_mem_nodup sec ce.1 ce.2 hce hnd)]
      rfl

theorem sectionComplete_spec {secv : PyVal} (h : sectionComplete secv = true) :
    ∃ sec, secv = PyVal.vdict sec ∧ (dkeys sec).Nodup ∧
      dhas sec "global" = true ∧
      ∀ ce ∈ sec, ce.1 = "global" ∨ confComplete ce.2 = true := by
  rcases hc : secv with _ | _ | _ | _ | _ | _ | sec | _ <;>
    rw [hc] at h <;> simp [sectionComplete] at h
  obtain ⟨⟨hnd, hg⟩, hall⟩ := h
  refine ⟨sec, rfl, hnd, hg, ?_⟩
  intro ce hce
  rcases hall ce.1 ce.2 hce with h1 | h1
  · exact Or.inl h1
  · exact Or.inr h1

theorem mergeSectionStep_id {m : PyDict} (sid : String)
    (hsec : ∃ secv, dget m sid = some secv ∧ sectionComplete secv = true) :
    mergeSectionStep [] m sid = .ok m := by
  obtain ⟨secv, hget, hcomp⟩ := hsec
  obtain ⟨sec, hv, hnd, hg, hall⟩ := sectionComplete_spec hcomp
  subst hv
  have hf1 : List.foldlM fillConfStep sec sec = Except.ok sec :=
    foldlM_id sec sec fillConfStep (fillConfStep_id hnd hall)
  have hf2 : List.foldlM (normalizeConfStep sid) sec sec = Except.ok sec :=
    foldlM_id sec sec (normalizeConfStep sid) (normalizeConfStep_id sid hnd hall)
  have hds : dset m sid (PyVal.vdict sec) = m :=
    dset_same m sid (PyVal.vdict sec) hget
  have hd0 : dhas ([] : PyDict) sid = false := rfl
  unfold mergeSectionStep asDict
  rw [hget]
  simp only [pure_bind, except_ok_bind, except_pure_eq, hd0, Bool.not_false,
    if_true, hf1, hf2, hds, hget]

theorem addSectionGlobal_id {m : PyDict} (sid : String)
    (hsec : ∃ secv, dget m sid = some secv ∧ sectionComplete secv = true) :
    addSectionGlobal m sid = .ok m := by
  obtain ⟨secv, hget, hcomp⟩ := hsec
  obtain ⟨sec, hv, _, hg, _⟩ := sectionComplete_spec hcomp
  subst hv
  unfold addSectionGlobal
  rw [hget]
  simp [hg, except_pure_eq]

/-- C6 (amended).  Normalization is idempotent once merged *provided the
merged tree is complete*: whenever `_merge_default t d` succeeds with a tree
whose sub-configurations all carry the six structural keys (`mergedComplete`,
which also records the automatic post-merge facts: dict-unique keys, the
`global` entries, and 3-shaped steps), renormalizing that tree against the
empty default returns it unchanged, so
`normalize(normalize(t, d), emptyDict) = normalize(t, d)`. -/
theorem merge_default_idempotent (t d m : PyDict)
    (hm : Handler.merge_default t d = Except.ok m)
    (hc : mergedComplete m = true) :
    Handler.merge_default m [] = Except.ok m := by
  simp only [mergedComplete, Bool.and_eq_true, List.all_eq_true,
    decide_eq_true_eq] at hc
  obtain ⟨⟨hnd, hg⟩, hall⟩ := hc
  have hsec : ∀ sid ∈ (dkeys m).filter (· != "global"),
      ∃ secv, dget m sid = some secv ∧ sectionComplete secv = true := by
    intro sid hsid
    rw [List.mem_filter] at hsid
    obtain ⟨hmem, hne⟩ := hsid
    have hdh := (mem_dkeys_iff_dhas m sid).mp hmem
    rcases hget : dget m sid with _ | secv
    · rw [dhas, hget] at hdh
      simp at hdh
    · refine ⟨secv, rfl, ?_⟩
      have h2 := hall (sid, secv) (dget_mem m sid secv hget)
      simp only [Bool.or_eq_true, beq_iff_eq] at h2
      rcases h2 with h | h
      · exact absurd h (by simpa using hne)
      · exact h
  unfold Handler.merge_default
  rw [show mergeSectionsFromDefault m [] = Except.ok m from rfl, except_ok_bind]
  rw [foldlM_id _ m (mergeSectionStep [])
    (fun sid hsid => mergeSectionStep_id sid (hsec sid hsid)), except_ok_bind]
  rw [if_pos hg]
  show (List.foldlM addSectionGlobal m
      ((dkeys m).filter (fun x => x != "global")) >>= fun p => pure p)
    = Except.ok m
  rw [foldlM_id _ m addSectionGlobal
    (fun sid hsid => addSectionGlobal_id sid (hsec sid hsid)), except_ok_bind]
  rfl

end Pycnfg

namespace Pycnfg

/-- The normalized form of `c6tree` against the empty default: complete. -/
def c6complete : PyDict :=
  [("s", .vdict
    [("c", .vdict
      [("init", .vdict []), ("producer", .vobj 0), ("global", .vdict []),
       ("patch", .vdict []), ("priority", .vint 1), ("steps", .vlist [])]),
     ("global", .vdict [])]),
   ("global", .vdict [])]

/-- Witness for the amended C6: merging `c6tree` against the empty default
yields the complete tree `c6complete`, and renormalizing it changes
nothing. -/
theorem merge_default_idempotent_witness :
    Handler.merge_default c6tree [] = Except.ok c6complete ∧
    mergedComplete c6complete = true ∧
    Handler.merge_default c6complete [] = Except.ok c6complete :=
  ⟨by decide, by decide,
   merge_default_idempotent c6tree [] c6complete (by decide) (by decide)⟩

end Pycnfg

namespace Pycnfg

/-! ## Structure-error characterization of normalization (C7) -/

/-- A raw step that `len()` and `step[0]` accept: a nonempty tuple or list. -/
def stepIndexable (step : PyVal) : Bool :=
  match stepElems step with
  | some (_ :: _) => true
  | _ => false

/-- A step violating one of the three structure checks of `_merge_default`:
non-string method id, supplied kwargs that are not a dict, or supplied
decorators that are not a list. -/
def stepStructureBad (step : PyVal) : Bool :=
  match stepElems step with
  | some (s0 :: rest) =>
      !isStr s0 ||
      (match rest with
       | s1 :: rest2 =>
           !isDict s1 ||
           (match rest2 with
            | s2 :: _ => !isListV s2
            | [] => false)
       | [] => false)
  | _ => false

theorem normalizeStep_cons (sid cid : String) (step s0 : PyVal)
    (rest : List PyVal) (hx : stepElems step = some (s0 :: rest)) :
    normalizeStep sid cid step =
      if !isStr s0 then
        Except.error ("TypeError: step[0] should be a str: " ++ sid ++ "__" ++ cid)
      else
        match rest with
        | [] => pure (.vtuple [s0, .vdict [], .vlist []])
        | s1 :: rest2 =>
          if !isDict s1 then
            Except.error ("TypeError: step[1] should be a dict: " ++ sid ++ "__"
              ++ cid ++ ": " ++ strVal s0)
          else
            match rest2 with
            | [] => pure (.vtuple [s0, s1, .vlist []])
            | s2 :: _ =>
              if !isListV s2 then
                Except.error ("TypeError: On step[2] should be a list: " ++ sid
                  ++ "__" ++ cid ++ ": " ++ strVal s0)
              else pure step := by
  unfold normalizeStep
  rw [hx]
  rcases rest with _ | ⟨s1, rest2⟩
  · rfl
  · rcases rest2 with _ | ⟨s2, rest3⟩ <;>
      simp only [List.head?_cons, pure_bind, except_ok_bind, except_pure_eq]
    · have hl1 : 1 < ([s0, s1] : List PyVal).length := by
        simp only [List.length_cons, List.length_nil]
        omega
      have hl2 : ¬ 2 < ([s0, s1] : List PyVal).length := by
        simp only [List.length_cons, List.length_nil]
        omega
      refine if_congr Iff.rfl rfl ?_
      rw [dif_pos hl1]
      simp only [List.get]
      refine if_congr Iff.rfl rfl ?_
      rw [dif_neg hl2]
    · have hl1 : 1 < (s0 :: s1 :: s2 :: rest3).length := by
        simp only [List.length_cons]
        omega
      have hl2 : 2 < (s0 :: s1 :: s2 :: rest3).length := by
        simp only [List.length_cons]
        omega
      refine if_congr Iff.rfl rfl ?_
      rw [dif_pos hl1]
      simp only [List.get]
      refine if_congr Iff.rfl rfl ?_
      rw [dif_pos hl2]

theorem normalizeStep_ok_iff (sid cid : String) (step : PyVal)
    (hidx : stepIndexable step = true) :
    (∃ st', normalizeStep sid cid step = .ok st') ↔
      stepStructureBad step = false := by
  unfold stepIndexable at hidx
  rcases hx : stepElems step with _ | xs <;> rw [hx] at hidx
  · simp at hidx
  rcases xs with _ | ⟨s0, rest⟩
  · simp at hidx
  rw [normalizeStep_cons sid cid step s0 rest hx]
  unfold stepStructureBad
  rw [hx]
  by_cases h0 : isStr s0 = true
  · rcases rest with _ | ⟨s1, rest2⟩
    · simp [h0, except_pure_eq]
    · by_cases h1 : isDict s1 = true
      · rcases rest2 with _ | ⟨s2, rest3⟩
        · simp [h0, h1, except_pure_eq]
        · by_cases h2 : isListV s2 = true
          · simp [h0, h1, h2, except_pure_eq]
          · simp [h0, h1, h2]
      · simp [h0, h1]
  · simp [h0]

end Pycnfg

namespace Pycnfg

/-- Supplied steps of one sub-configuration value are nonempty tuples or
lists; `steps` itself may be absent only when `needSteps` is false (the
built-in fill will add it). -/
def shapedConf (needSteps : Bool) (confv : PyVal) : Bool :=
  match confv with
  | .vdict conf =>
      match dget conf "steps" with
      | some (.vlist steps) => steps.all stepIndexable
      | some _ => false
      | none => !needSteps
  | _ => false

/-- A section whose non-`global` entries are shaped sub-configurations with
unique keys. -/
def shapedSection (needSteps : Bool) (secv : PyVal) : Bool :=
  match secv with
  | .vdict sec =>
      decide ((dkeys sec).Nodup) &&
      sec.all (fun ce => ce.1 == "global" || shapedConf needSteps ce.2)
  | _ => false

/-- Every non-`global` section of the post-default tree is shaped; a section
also present in the default tree must supply `steps` itself since the
built-in fill is skipped for it. -/
def shapedTree (dp q : PyDict) : Bool :=
  q.all (fun se => se.1 == "global" || shapedSection (dhas dp se.1) se.2)

/-- Some supplied step of the sub-configuration fails a structure check. -/
def confHasBad (confv : PyVal) : Bool :=
  match confv with
  | .vdict conf =>
      match dget conf "steps" with
      | some (.vlist steps) => steps.any stepStructureBad
      | _ => false
  | _ => false

/-- Some sub-configuration of the section has a structurally bad step. -/
def sectionHasBad (secv : PyVal) : Bool :=
  match secv with
  | .vdict sec => sec.any (fun ce => ce.1 != "global" && confHasBad ce.2)
  | _ => false

/-- Some sub-configuration of the tree has a structurally bad step. -/
def treeHasBad (q : PyDict) : Bool :=
  q.any (fun se => se.1 != "global" && sectionHasBad se.2)

/-- The built-in-defaults fill of one sub-configuration dict. -/
def fillConf (c : PyDict) : PyDict :=
  dupdate c (dkeysDefault.filter (fun kv => !dhas c kv.1))

theorem fillDkeysConf_eq (c : PyDict) :
    fillDkeysConf (.vdict c) = .ok (.vdict (fillConf c)) := rfl

theorem mapM_ok_iff {α β : Type} (f : α → Except String β) (l : List α) :
    (∃ l', l.mapM f = .ok l') ↔ ∀ a ∈ l, ∃ b, f a = .ok b := by
  induction l with
  | nil => exact ⟨fun _ a ha => absurd ha (List.not_mem_nil a), fun _ => ⟨[], rfl⟩⟩
  | cons a rest ih =>
      constructor
      · rintro ⟨l', hl'⟩
        rw [List.mapM_cons] at hl'
        obtain ⟨b, hb, hrest⟩ := except_bind_eq_ok.mp hl'
        obtain ⟨bs, hbs, _⟩ := except_bind_eq_ok.mp hrest
        intro x hx
        rcases List.mem_cons.mp hx with rfl | hx'
        · exact ⟨b, hb⟩
        · exact ih.mp ⟨bs, hbs⟩ x hx'
      · intro h
        obtain ⟨b, hb⟩ := h a (by simp)
        obtain ⟨bs, hbs⟩ := ih.mpr (fun x hx => h x (by simp [hx]))
        exact ⟨b :: bs, by rw [List.mapM_cons, hb, except_ok_bind, hbs,
          except_ok_bind, except_pure_eq]⟩

theorem dget_none_of_not_mem_dkeys (d : PyDict) (k : String)
    (h : k ∉ dkeys d) : dget d k = none := by
  rcases hg : dget d k with _ | v
  · rfl
  · exact absurd (List.mem_map_of_mem Prod.fst (dget_mem d k v hg)) h

theorem dget_filter (l : PyDict) (p : String × PyVal → Bool) (k : String)
    (hnd : (dkeys l).Nodup) :
    dget (l.filter p) k =
      match dget l k with
      | some v => if p (k, v) then some v else none
      | none => none := by
  induction l with
  | nil => simp [dget]
  | cons kv rest ih =>
      obtain ⟨k0, v0⟩ := kv
      simp only [dkeys, List.map_cons, List.nodup_cons] at hnd
      by_cases h0 : k0 = k
      · subst h0
        have hrest : dget rest k0 = none :=
          dget_none_of_not_mem_dkeys rest k0 hnd.1
        by_cases hp : p (k0, v0) = true
        · simp [List.filter, hp, dget]
        · have : dget (rest.filter p) k0 = none := by
            rw [ih hnd.2, hrest]
          simp only [List.filter]
          rw [show (p (k0, v0)) = false by simpa using hp]
          simp [dget, this, hrest, hp]
      · simp only [List.filter, dget, if_neg h0]
        rcases hp : p (k0, v0) with _ | _
        · exact ih hnd.2
        · simp [dget, h0, ih hnd.2]

theorem fillConf_dget (c : PyDict) (k : String) :
    dget (fillConf c) k =
      match dget c k with
      | some v => some v
      | none => dget dkeysDefault k := by
  unfold fillConf
  have hndd : (dkeys (dkeysDefault.filter (fun kv => !dhas c kv.1))).Nodup := by
    have hsub : dkeys (dkeysDefault.filter (fun kv => !dhas c kv.1))
        |>.Sublist (dkeys dkeysDefault) :=
      List.Sublist.map Prod.fst (List.filter_sublist _)
    exact List.Nodup.sublist hsub (by decide)
  rw [dget_dupdate _ _ _ hndd,
    dget_filter _ _ _ (by decide)]
  rcases hc : dget c k with _ | v
  · have hh : dhas c k = false := by simp [dhas, hc]
    rcases hd : dget dkeysDefault k with _ | w
    · simp [hd]
    · simp [hd, hh]
  · have hh : dhas c k = true := by simp [dhas, hc]
    rcases hd : dget dkeysDefault k with _ | w
    · simp [hd, hc]
    · simp [hd, hh, hc]

theorem fillConf_props (c : PyDict) (hsh : shapedConf false (.vdict c) = true) :
    ∃ steps, dget (fillConf c) "steps" = some (.vlist steps) ∧
      steps.all stepIndexable = true ∧
      steps.any stepStructureBad = confHasBad (.vdict c) := by
  rcases hc : dget c "steps" with _ | v
  · refine ⟨[], ?_, rfl, ?_⟩
    · rw [fillConf_dget c "steps", hc]
      rfl
    · simp only [confHasBad, hc]
      rfl
  · simp only [shapedConf, hc] at hsh
    rcases v with _ | _ | _ | _ | steps | _ | _ | _ <;> simp at hsh
    refine ⟨steps, ?_, by simpa using hsh, ?_⟩
    · rw [fillConf_dget c "steps", hc]
    · simp only [confHasBad, hc]

theorem normalizeConfSteps_char (sid cid : String) (conf : PyDict)
    (steps : List PyVal) (hst : dget conf "steps" = some (.vlist steps))
    (hidx : steps.all stepIndexable = true) :
    (∃ c', normalizeConfSteps sid cid (.vdict conf) = .ok c') ↔
      steps.any stepStructureBad = false := by
  unfold normalizeConfSteps asDict asListV
  simp only [hst, pure_bind, except_ok_bind]
  constructor
  · rintro ⟨c', hc'⟩
    obtain ⟨steps', hsteps', _⟩ := except_bind_eq_ok.mp hc'
    have hall := (mapM_ok_iff (normalizeStep sid cid) steps).mp ⟨steps', hsteps'⟩
    rw [List.any_eq_false]
    intro s hs
    have := (normalizeStep_ok_iff sid cid s
      (by rw [List.all_eq_true] at hidx; exact hidx s hs)).mp (hall s hs)
    simp [this]
  · intro hbad
    rw [List.any_eq_false] at hbad
    obtain ⟨steps', hsteps'⟩ := (mapM_ok_iff (normalizeStep sid cid) steps).mpr
      (fun s hs => (normalizeStep_ok_iff sid cid s
        (by rw [List.all_eq_true] at hidx; exact hidx s hs)).mpr
        (by simpa using hbad s hs))
    exact ⟨_, by rw [hsteps', except_ok_bind, except_pure_eq]⟩

end Pycnfg

namespace Pycnfg

theorem dhas_of_mem (d : PyDict) (ce : String × PyVal) (h : ce ∈ d) :
    dhas d ce.1 = true :=
  (mem_dkeys_iff_dhas d ce.1).mp (List.mem_map_of_mem Prod.fst h)

theorem forall_mem_iff_dget (d : PyDict) (hnd : (dkeys d).Nodup)
    (P : String → PyVal → Prop) :
    (∀ ce ∈ d, P ce.1 ce.2) ↔ (∀ k v, dget d k = some v → P k v) := by
  constructor
  · intro h k v hkv
    exact h (k, v) (dget_mem d k v hkv)
  · intro h ce hce
    exact h ce.1 ce.2 (dget_of_mem_nodup d ce.1 ce.2 hce hnd)

theorem conf_fold_ok (g : String × PyVal → Except String PyVal)
    (step : PyDict → String × PyVal → Except String PyDict)
    (hstep : ∀ acc ce, step acc ce =
      if ce.1 == "global" then pure acc
      else g ce >>= fun v' => pure (dset acc ce.1 v')) :
    ∀ (l : List (String × PyVal)) (acc : PyDict),
      (l.map Prod.fst).Nodup →
      (∀ ce ∈ l, ce.1 ≠ "global" → dhas acc ce.1 = true) →
      (∀ ce ∈ l, ce.1 ≠ "global" → ∃ v', g ce = .ok v') →
      ∃ r, l.foldlM step acc = .ok r ∧
        dkeys r = dkeys acc ∧
        (∀ k, k ∉ l.map Prod.fst → dget r k = dget acc k) ∧
        dget r "global" = dget acc "global" ∧
        (∀ ce ∈ l, ce.1 ≠ "global" →
          ∀ v', g ce = .ok v' → dget r ce.1 = some v') := by
  intro l
  induction l with
  | nil =>
      intro acc _ _ _
      exact ⟨acc, rfl, rfl, fun _ _ => rfl, rfl, by simp⟩
  | cons ce l ih =>
      intro acc hnd hhas hg
      simp only [List.map_cons, List.nodup_cons] at hnd
      by_cases hgl : ce.1 = "global"
      · have hfold : (ce :: l).foldlM step acc = l.foldlM step acc := by
          rw [List.foldlM_cons, hstep, if_pos (by simp [hgl]), pure_bind]
        obtain ⟨r, hr, hk, hout, hglob, hent⟩ := ih acc hnd.2
          (fun c hc h => hhas c (by simp [hc]) h)
          (fun c hc h => hg c (by simp [hc]) h)
        refine ⟨r, by rw [hfold]; exact hr, hk, ?_, hglob, ?_⟩
        · intro k hkn
          exact hout k (fun hmem => hkn (by simp [hmem]))
        · intro c hc hcg v' hv'
          rcases List.mem_cons.mp hc with rfl | hc'
          · exact absurd hgl hcg
          · exact hent c hc' hcg v' hv'
      · have hmemhd : ce ∈ ce :: l := by simp
        obtain ⟨v', hv'⟩ := hg ce hmemhd hgl
        have hhd : dhas acc ce.1 = true := hhas ce hmemhd hgl
        have hfold : (ce :: l).foldlM step acc =
            l.foldlM step (dset acc ce.1 v') := by
          rw [List.foldlM_cons, hstep, if_neg (by simp [hgl]), hv',
            except_ok_bind, except_pure_eq, except_ok_bind]
        obtain ⟨r, hr, hk, hout, hglob, hent⟩ := ih (dset acc ce.1 v') hnd.2
          (fun c hc h => by
            rw [dhas_dset, Bool.or_eq_true]
            exact Or.inr (hhas c (by simp [hc]) h))
          (fun c hc h => hg c (by simp [hc]) h)
        have hkeys : dkeys (dset acc ce.1 v') = dkeys acc := by
          rw [dkeys_dset, if_pos hhd]
        refine ⟨r, by rw [hfold]; exact hr, by rw [hk, hkeys], ?_, ?_, ?_⟩
        · intro k hkn
          have hk1 : k ∉ l.map Prod.fst := fun h => hkn (by simp [h])
          have hk2 : ce.1 ≠ k := fun h => hkn (by simp [h])
          rw [hout k hk1, dget_dset_ne _ _ hk2]
        · rw [hglob, dget_dset_ne _ _ (by simpa using hgl)]
        · intro c hc hcg w hw
          rcases List.mem_cons.mp hc with rfl | hc'
          · have hww : w = v' := by
              rw [hv'] at hw
              exact (Except.ok.inj hw).symm
            subst hww
            rw [hout c.1 hnd.1, dget_dset_self]
          · exact hent c hc' hcg w hw

theorem conf_fold_ok_elim (g : String × PyVal → Except String PyVal)
    (step : PyDict → String × PyVal → Except String PyDict)
    (hstep : ∀ acc ce, step acc ce =
      if ce.1 == "global" then pure acc
      else g ce >>= fun v' => pure (dset acc ce.1 v')) :
    ∀ (l : List (String × PyVal)) (acc r : PyDict),
      l.foldlM step acc = .ok r →
      ∀ ce ∈ l, ce.1 ≠ "global" → ∃ v', g ce = .ok v' := by
  intro l
  induction l with
  | nil =>
      intro acc r _ ce hce
      exact absurd hce (List.not_mem_nil ce)
  | cons ce l ih =>
      intro acc r hr c hc hcg
      rw [List.foldlM_cons, hstep] at hr
      by_cases hgl : ce.1 = "global"
      · rw [if_pos (by simp [hgl]), pure_bind] at hr
        rcases List.mem_cons.mp hc with rfl | hc'
        · exact absurd hgl hcg
        · exact ih acc r hr c hc' hcg
      · rw [if_neg (by simp [hgl])] at hr
        obtain ⟨acc', hacc', hrest⟩ := except_bind_eq_ok.mp hr
        obtain ⟨v', hv', _⟩ := except_bind_eq_ok.mp hacc'
        rcases List.mem_cons.mp hc with rfl | hc'
        · exact ⟨v', hv'⟩
        · exact ih acc' r hrest c hc' hcg

end Pycnfg

namespace Pycnfg

theorem mergeSectionStep_eq_fill (dp p : PyDict) (sid : String)
    (sec sec2 sec3 : PyDict)
    (hget : dget p sid = some (.vdict sec)) (hdp : dhas dp sid = false)
    (hf1 : sec.foldlM fillConfStep sec = .ok sec2)
    (hf2 : sec2.foldlM (normalizeConfStep sid) sec2 = .ok sec3) :
    mergeSectionStep dp p sid =
      .ok (dset (dset p sid (.vdict sec2)) sid (.vdict sec3)) := by
  unfold mergeSectionStep asDict
  simp only [hget, hdp, Bool.not_false, if_true, pure_bind, except_ok_bind,
    hf1, except_pure_eq, dget_dset_self, hf2]

theorem mergeSectionStep_ok_elim_fill (dp p : PyDict) (sid : String)
    (sec : PyDict) {p' : PyDict}
    (hget : dget p sid = some (.vdict sec)) (hdp : dhas dp sid = false)
    (h : mergeSectionStep dp p sid = .ok p') :
    ∃ sec2 sec3, sec.foldlM fillConfStep sec = .ok sec2 ∧
      sec2.foldlM (normalizeConfStep sid) sec2 = .ok sec3 ∧
      p' = dset (dset p sid (.vdict sec2)) sid (.vdict sec3) := by
  unfold mergeSectionStep asDict at h
  simp only [hget, hdp, Bool.not_false, if_true, pure_bind, except_ok_bind] at h
  obtain ⟨sec2, hf1, h⟩ := except_bind_eq_ok.mp h
  rw [dget_dset_self] at h
  obtain ⟨sec3, hf2, h⟩ := except_bind_eq_ok.mp h
  simp only [except_pure_eq] at h
  exact ⟨sec2, sec3, hf1, hf2, (Except.ok.inj h).symm⟩

theorem mergeSectionStep_eq_nofill (dp p : PyDict) (sid : String)
    (sec sec3 : PyDict)
    (hget : dget p sid = some (.vdict sec)) (hdp : dhas dp sid = true)
    (hf2 : sec.foldlM (normalizeConfStep sid) sec = .ok sec3) :
    mergeSectionStep dp p sid = .ok (dset p sid (.vdict sec3)) := by
  unfold mergeSectionStep
  simp only [hget, hdp, Bool.not_true, Bool.false_eq_true, if_false, pure_bind,
    except_ok_bind, hf2, except_pure_eq]

theorem mergeSectionStep_ok_elim_nofill (dp p : PyDict) (sid : String)
    (sec : PyDict) {p' : PyDict}
    (hget : dget p sid = some (.vdict sec)) (hdp : dhas dp sid = true)
    (h : mergeSectionStep dp p sid = .ok p') :
    ∃ sec3, sec.foldlM (normalizeConfStep sid) sec = .ok sec3 ∧
      p' = dset p sid (.vdict sec3) := by
  unfold mergeSectionStep at h
  simp only [hget, hdp, Bool.not_true, Bool.false_eq_true, if_false, pure_bind,
    except_ok_bind] at h
  obtain ⟨sec3, hf2, h⟩ := except_bind_eq_ok.mp h
  simp only [except_pure_eq] at h
  exact ⟨sec3, hf2, (Except.ok.inj h).symm⟩

end Pycnfg

namespace Pycnfg

theorem shapedConf_false_elim (v : PyVal) (h : shapedConf false v = true) :
    ∃ c, v = .vdict c := by
  rcases v with _ | _ | _ | _ | _ | _ | c | _ <;> simp [shapedConf] at h ⊢

theorem shapedConf_vdict_steps (b : Bool) (c : PyDict) (steps : List PyVal)
    (hst : dget c "steps" = some (.vlist steps))
    (h : shapedConf b (.vdict c) = true) :
    steps.all stepIndexable = true ∧
    steps.any stepStructureBad = confHasBad (.vdict c) := by
  constructor
  · simpa [shapedConf, hst] using h
  · simp [confHasBad, hst]

theorem shapedConf_true_elim (v : PyVal) (h : shapedConf true v = true) :
    ∃ c steps, v = .vdict c ∧ dget c "steps" = some (.vlist steps) := by
  rcases v with _ | _ | _ | _ | _ | _ | c | _ <;> simp [shapedConf] at h ⊢
  rcases hst : dget c "steps" with _ | w <;> rw [hst] at h
  · simp at h
  · rcases w with _ | _ | _ | _ | steps | _ | _ | _ <;> simp at h ⊢

theorem sectionHasBad_false_iff (sec : PyDict) :
    sectionHasBad (.vdict sec) = false ↔
      ∀ ce ∈ sec, ce.1 ≠ "global" → confHasBad ce.2 = false := by
  simp only [sectionHasBad, List.any_eq_false]
  constructor
  · intro h ce hce hg
    have h2 := h ce hce
    rcases hb : confHasBad ce.2 with _ | _
    · rfl
    · rw [hb] at h2
      simp [bne_iff_ne] at h2
      exact absurd h2 hg
  · intro h ce hce
    by_cases hg : ce.1 = "global"
    · simp [hg]
    · simp [bne_iff_ne, hg, h ce hce hg]

end Pycnfg

namespace Pycnfg

theorem fillConfStep_shape (acc : PyDict) (ce : String × PyVal) :
    fillConfStep acc ce =
      if ce.1 == "global" then pure acc
      else fillDkeysConf ce.2 >>= fun v' => pure (dset acc ce.1 v') := rfl

theorem normalizeConfStep_shape (sid : String) (acc : PyDict)
    (ce : String × PyVal) :
    normalizeConfStep sid acc ce =
      if ce.1 == "global" then pure acc
      else normalizeConfSteps sid ce.1 ce.2 >>=
        fun v' => pure (dset acc ce.1 v') := rfl

theorem dkeys_map_fst (d : PyDict) : d.map Prod.fst = dkeys d := rfl

theorem mergeSectionStep_char (dp p : PyDict) (sid : String) (secv : PyVal)
    (hget : dget p sid = some secv)
    (hsh : shapedSection (dhas dp sid) secv = true) :
    ((∃ p', mergeSectionStep dp p sid = .ok p') ↔ sectionHasBad secv = false) ∧
    (∀ p', mergeSectionStep dp p sid = .ok p' →
      dkeys p' = dkeys p ∧
      (∀ sid', sid' ≠ sid → dget p' sid' = dget p sid') ∧
      ∃ sec', dget p' sid = some (.vdict sec')) := by
  have hhasp : dhas p sid = true := by simp [dhas, hget]
  rcases secv with _ | _ | _ | _ | _ | _ | sec | _ <;>
    simp only [shapedSection, Bool.false_eq_true] at hsh <;>
    try exact hsh.elim
  rw [Bool.and_eq_true, List.all_eq_true] at hsh
  obtain ⟨hnd0, hall0⟩ := hsh
  have hnd : (dkeys sec).Nodup := of_decide_eq_true hnd0
  have hshall : ∀ ce ∈ sec, ce.1 ≠ "global" →
      shapedConf (dhas dp sid) ce.2 = true := by
    intro ce hce hcg
    have := hall0 ce hce
    rw [Bool.or_eq_true] at this
    rcases this with h | h
    · exact absurd (by simpa using h) hcg
    · exact h
  rcases hdp : dhas dp sid with _ | _
  · -- fill case
    rw [hdp] at hshall
    -- the fill fold always succeeds
    obtain ⟨sec2, hf1, hkeys2, hout2, hglob2, hent2⟩ :=
      conf_fold_ok (fun ce => fillDkeysConf ce.2) fillConfStep
        fillConfStep_shape sec sec (by rw [dkeys_map_fst]; exact hnd)
        (fun ce hce _ => dhas_of_mem sec ce hce)
        (fun ce hce hcg => by
          obtain ⟨c, hc⟩ := shapedConf_false_elim ce.2 (hshall ce hce hcg)
          refine ⟨.vdict (fillConf c), ?_⟩
          show fillDkeysConf ce.2 = _
          rw [hc, fillDkeysConf_eq])
    have hnd2 : (dkeys sec2).Nodup := by rw [hkeys2]; exact hnd
    -- entries of the filled section
    have hsec2 : ∀ ce ∈ sec2, ce.1 ≠ "global" →
        ∃ c, dget sec ce.1 = some (.vdict c) ∧ ce.2 = .vdict (fillConf c) := by
      intro ce hce hcg
      have h1 : dget sec2 ce.1 = some ce.2 := dget_of_mem_nodup _ _ _ hce hnd2
      have hmemk : ce.1 ∈ dkeys sec := by
        rw [← hkeys2]
        exact List.mem_map_of_mem Prod.fst hce
      have hhass : dhas sec ce.1 = true := (mem_dkeys_iff_dhas _ _).mp hmemk
      obtain ⟨w, hw⟩ := Option.isSome_iff_exists.mp
        (show (dget sec ce.1).isSome = true from hhass)
      have hwmem : (ce.1, w) ∈ sec := dget_mem _ _ _ hw
      obtain ⟨c, hc⟩ := shapedConf_false_elim w (hshall (ce.1, w) hwmem hcg)
      rw [hc] at hw hwmem
      have hdg := hent2 (ce.1, .vdict c) hwmem hcg (.vdict (fillConf c))
        (fillDkeysConf_eq c)
      exact ⟨c, hw, Option.some.inj (h1.symm.trans hdg)⟩
    constructor
    · constructor
      · -- ok → no bad step
        rintro ⟨p', hp'⟩
        obtain ⟨sec2', sec3, hf1', hf2, _⟩ :=
          mergeSectionStep_ok_elim_fill dp p sid sec hget hdp hp'
        have hsec2eq : sec2' = sec2 := by
          rw [hf1] at hf1'
          exact (Except.ok.inj hf1').symm
        rw [hsec2eq] at hf2
        have helim := conf_fold_ok_elim
          (fun ce => normalizeConfSteps sid ce.1 ce.2) (normalizeConfStep sid)
          (normalizeConfStep_shape sid) sec2 sec2 sec3 hf2
        rw [sectionHasBad_false_iff]
        intro ce hce hcg
        obtain ⟨c, hcv⟩ := shapedConf_false_elim ce.2
          (hshall ce hce hcg)
        have hdg : dget sec ce.1 = some ce.2 := dget_of_mem_nodup _ _ _ hce hnd
        have hfill := hent2 ce hce hcg (.vdict (fillConf c))
          (by rw [hcv, fillDkeysConf_eq])
        have hmem2 : (ce.1, PyVal.vdict (fillConf c)) ∈ sec2 :=
          dget_mem _ _ _ hfill
        obtain ⟨cn, hcn⟩ := helim (ce.1, .vdict (fillConf c)) hmem2 hcg
        obtain ⟨steps, hst, hidx, hbadeq⟩ := fillConf_props c
          (by rw [← hcv]; exact hshall ce hce hcg)
        have := (normalizeConfSteps_char sid ce.1 (fillConf c) steps hst
          hidx).mp ⟨cn, hcn⟩
        rw [hbadeq] at this
        rw [hcv]
        exact this
      · -- no bad step → ok
        intro hbad
        rw [sectionHasBad_false_iff] at hbad
        obtain ⟨sec3, hf2, _, _, _, _⟩ :=
          conf_fold_ok (fun ce => normalizeConfSteps sid ce.1 ce.2)
            (normalizeConfStep sid) (normalizeConfStep_shape sid) sec2 sec2
            (by rw [dkeys_map_fst]; exact hnd2)
            (fun ce hce _ => dhas_of_mem sec2 ce hce)
            (fun ce hce hcg => by
              obtain ⟨c, horig, hcv⟩ := hsec2 ce hce hcg
              obtain ⟨steps, hst, hidx, hbadeq⟩ := fillConf_props c
                (hshall (ce.1, .vdict c) (dget_mem _ _ _ horig) hcg)
              have hb : steps.any stepStructureBad = false := by
                rw [hbadeq]
                exact hbad (ce.1, .vdict c) (dget_mem _ _ _ horig) hcg
              obtain ⟨c', hc'⟩ :=
                (normalizeConfSteps_char sid ce.1 (fillConf c) steps hst
                  hidx).mpr hb
              refine ⟨c', ?_⟩
              show normalizeConfSteps sid ce.1 ce.2 = _
              rw [hcv]
              exact hc')
        exact ⟨_, mergeSectionStep_eq_fill dp p sid sec sec2 sec3 hget hdp
          hf1 hf2⟩
    · intro p' hp'
      obtain ⟨sec2', sec3, _, _, hpe⟩ :=
        mergeSectionStep_ok_elim_fill dp p sid sec hget hdp hp'
      subst hpe
      refine ⟨?_, ?_, sec3, dget_dset_self _ _ _⟩
      · rw [dkeys_dset _ _ _, if_pos (by rw [dhas_dset]; simp),
          dkeys_dset _ _ _, if_pos hhasp]
      · intro sid' hne
        rw [dget_dset_ne _ _ (fun h => hne h.symm),
          dget_dset_ne _ _ (fun h => hne h.symm)]
  · -- no-fill case
    rw [hdp] at hshall
    constructor
    · constructor
      · rintro ⟨p', hp'⟩
        obtain ⟨sec3, hf2, _⟩ :=
          mergeSectionStep_ok_elim_nofill dp p sid sec hget hdp hp'
        have helim := conf_fold_ok_elim
          (fun ce => normalizeConfSteps sid ce.1 ce.2) (normalizeConfStep sid)
          (normalizeConfStep_shape sid) sec sec sec3 hf2
        rw [sectionHasBad_false_iff]
        intro ce hce hcg
        obtain ⟨c, steps, hcv, hst⟩ :=
          shapedConf_true_elim ce.2 (hshall ce hce hcg)
        obtain ⟨hidx, hbadeq⟩ := shapedConf_vdict_steps true c steps hst
          (by rw [← hcv]; exact hshall ce hce hcg)
        obtain ⟨cn, hcn⟩ := helim ce hce hcg
        have hcn2 : normalizeConfSteps sid ce.1 ce.2 = Except.ok cn := hcn
        rw [hcv] at hcn2
        have := (normalizeConfSteps_char sid ce.1 c steps hst hidx).mp
          ⟨cn, hcn2⟩
        rw [hbadeq] at this
        rw [hcv]
        exact this
      · intro hbad
        rw [sectionHasBad_false_iff] at hbad
        obtain ⟨sec3, hf2, _, _, _, _⟩ :=
          conf_fold_ok (fun ce => normalizeConfSteps sid ce.1 ce.2)
            (normalizeConfStep sid) (normalizeConfStep_shape sid) sec sec
            (by rw [dkeys_map_fst]; exact hnd)
            (fun ce hce _ => dhas_of_mem sec ce hce)
            (fun ce hce hcg => by
              obtain ⟨c, steps, hcv, hst⟩ :=
                shapedConf_true_elim ce.2 (hshall ce hce hcg)
              obtain ⟨hidx, hbadeq⟩ := shapedConf_vdict_steps true c steps hst
                (by rw [← hcv]; exact hshall ce hce hcg)
              have hb : steps.any stepStructureBad = false := by
                rw [hbadeq, ← hcv]
                exact hbad ce hce hcg
              obtain ⟨c', hc'⟩ :=
                (normalizeConfSteps_char sid ce.1 c steps hst hidx).mpr hb
              refine ⟨c', ?_⟩
              show normalizeConfSteps sid ce.1 ce.2 = _
              rw [hcv]
              exact hc')
        exact ⟨_, mergeSectionStep_eq_nofill dp p sid sec sec3 hget hdp hf2⟩
    · intro p' hp'
      obtain ⟨sec3, _, hpe⟩ :=
        mergeSectionStep_ok_elim_nofill dp p sid sec hget hdp hp'
      subst hpe
      refine ⟨?_, ?_, sec3, dget_dset_self _ _ _⟩
      · rw [dkeys_dset _ _ _, if_pos hhasp]
      · intro sid' hne
        rw [dget_dset_ne _ _ (fun h => hne h.symm)]

end Pycnfg

namespace Pycnfg

theorem mergeSections_fold_char (dp q : PyDict) :
    ∀ (sids : List String) (p : PyDict),
      sids.Nodup →
      (∀ sid ∈ sids, dget p sid = dget q sid) →
      (∀ sid ∈ sids, ∃ secv, dget q sid = some secv ∧
        shapedSection (dhas dp sid) secv = true) →
      ((∃ r, sids.foldlM (mergeSectionStep dp) p = .ok r) ↔
        ∀ sid ∈ sids, ∀ secv, dget q sid = some secv →
          sectionHasBad secv = false) ∧
      (∀ r, sids.foldlM (mergeSectionStep dp) p = .ok r →
        dkeys r = dkeys p ∧
        (∀ sid, sid ∉ sids → dget r sid = dget p sid) ∧
        (∀ sid ∈ sids, ∃ sec', dget r sid = some (.vdict sec'))) := by
  intro sids
  induction sids with
  | nil =>
      refine fun p _ _ _ => ⟨⟨fun _ sid hsid => absurd hsid (by simp),
        fun _ => ⟨p, rfl⟩⟩, fun r hr => ?_⟩
      have : r = p :=
        (Except.ok.inj (show Except.ok p = Except.ok r from hr)).symm
      subst this
      exact ⟨rfl, fun _ _ => rfl, fun sid hsid => absurd hsid (by simp)⟩
  | cons sid rest ih =>
      intro p hnd hpq hshape
      simp only [List.nodup_cons] at hnd
      obtain ⟨secv, hqsec, hsecsh⟩ := hshape sid (by simp)
      have hpsec : dget p sid = some secv := by
        rw [hpq sid (by simp)]
        exact hqsec
      obtain ⟨hiff1, hpost1⟩ := mergeSectionStep_char dp p sid secv hpsec hsecsh
      constructor
      · constructor
        · rintro ⟨r, hr⟩
          rw [List.foldlM_cons] at hr
          obtain ⟨p1, hp1, hrest⟩ := except_bind_eq_ok.mp hr
          obtain ⟨hk1, hframe1, _⟩ := hpost1 p1 hp1
          have hbad1 := hiff1.mp ⟨p1, hp1⟩
          have hpq1 : ∀ s ∈ rest, dget p1 s = dget q s := by
            intro s hs
            rw [hframe1 s (fun he => hnd.1 (he ▸ hs)), hpq s (by simp [hs])]
          obtain ⟨hiffr, _⟩ := ih p1 hnd.2 hpq1
            (fun s hs => hshape s (by simp [hs]))
          intro s hs secv' hsecv'
          rcases List.mem_cons.mp hs with rfl | hs'
          · rw [hqsec] at hsecv'
            rw [← Option.some.inj hsecv']
            exact hbad1
          · exact hiffr.mp ⟨r, hrest⟩ s hs' secv' hsecv'
        · intro hall
          obtain ⟨p1, hp1⟩ := hiff1.mpr (hall sid (by simp) secv hqsec)
          obtain ⟨hk1, hframe1, _⟩ := hpost1 p1 hp1
          have hpq1 : ∀ s ∈ rest, dget p1 s = dget q s := by
            intro s hs
            rw [hframe1 s (fun he => hnd.1 (he ▸ hs)), hpq s (by simp [hs])]
          obtain ⟨hiffr, _⟩ := ih p1 hnd.2 hpq1
            (fun s hs => hshape s (by simp [hs]))
          obtain ⟨r, hr⟩ := hiffr.mpr
            (fun s hs secv' hsecv' => hall s (by simp [hs]) secv' hsecv')
          exact ⟨r, by rw [List.foldlM_cons, hp1, except_ok_bind]; exact hr⟩
      · intro r hr
        rw [List.foldlM_cons] at hr
        obtain ⟨p1, hp1, hrest⟩ := except_bind_eq_ok.mp hr
        obtain ⟨hk1, hframe1, hvd1⟩ := hpost1 p1 hp1
        have hpq1 : ∀ s ∈ rest, dget p1 s = dget q s := by
          intro s hs
          rw [hframe1 s (fun he => hnd.1 (he ▸ hs)), hpq s (by simp [hs])]
        obtain ⟨_, hpostr⟩ := ih p1 hnd.2 hpq1
          (fun s hs => hshape s (by simp [hs]))
        obtain ⟨hkr, hframer, hvdr⟩ := hpostr r hrest
        refine ⟨by rw [hkr, hk1], ?_, ?_⟩
        · intro s hs
          have hs1 : s ∉ rest := fun h => hs (by simp [h])
          have hs2 : s ≠ sid := fun h => hs (by simp [h])
          rw [hframer s hs1, hframe1 s hs2]
        · intro s hs
          rcases List.mem_cons.mp hs with rfl | hs'
          · by_cases hsr : s ∈ rest
            · exact hvdr s hsr
            · obtain ⟨sec', hsec'⟩ := hvd1
              exact ⟨sec', by rw [hframer s hsr]; exact hsec'⟩
          · exact hvdr s hs'

theorem addGlobal_fold_ok :
    ∀ (sids : List String) (p : PyDict),
      (∀ sid ∈ sids, ∃ sec, dget p sid = some (.vdict sec)) →
      ∃ r, sids.foldlM addSectionGlobal p = .ok r := by
  intro sids
  induction sids with
  | nil => exact fun p _ => ⟨p, rfl⟩
  | cons sid rest ih =>
      intro p hp
      obtain ⟨sec, hsec⟩ := hp sid (by simp)
      by_cases hg : dhas sec "global" = true
      · have h1 : addSectionGlobal p sid = .ok p := by
          unfold addSectionGlobal
          simp only [hsec]
          rw [if_pos hg]
          rfl
        obtain ⟨r, hr⟩ := ih p (fun s hs => hp s (by simp [hs]))
        exact ⟨r, by rw [List.foldlM_cons, h1, except_ok_bind]; exact hr⟩
      · have h1 : addSectionGlobal p sid =
            .ok (dset p sid (.vdict (dset sec "global" (.vdict [])))) := by
          unfold addSectionGlobal
          simp only [hsec]
          rw [if_neg hg]
          rfl
        have hp1 : ∀ s ∈ rest, ∃ sec₀,
            dget (dset p sid (.vdict (dset sec "global" (.vdict [])))) s =
              some (.vdict sec₀) := by
          intro s hs
          by_cases hss : sid = s
          · subst hss
            exact ⟨_, dget_dset_self _ _ _⟩
          · rw [dget_dset_ne _ _ hss]
            exact hp s (by simp [hs])
        obtain ⟨r, hr⟩ := ih _ hp1
        exact ⟨r, by rw [List.foldlM_cons, h1, except_ok_bind]; exact hr⟩

end Pycnfg

namespace Pycnfg

theorem except_error_bind {α β : Type} (e : String)
    (f : α → Except String β) :
    (Except.error e : Except String α) >>= f = Except.error e := rfl

theorem normalizeStep_one (sid cid : String) (s0 : PyVal)
    (h : isStr s0 = true) :
    normalizeStep sid cid (.vtuple [s0]) =
      .ok (.vtuple [s0, .vdict [], .vlist []]) := by
  rw [normalizeStep_cons sid cid (.vtuple [s0]) s0 [] rfl]
  simp [h, except_pure_eq]

theorem normalizeStep_two (sid cid : String) (s0 kw : PyVal)
    (h0 : isStr s0 = true) (h1 : isDict kw = true) :
    normalizeStep sid cid (.vtuple [s0, kw]) =
      .ok (.vtuple [s0, kw, .vlist []]) := by
  rw [normalizeStep_cons sid cid (.vtuple [s0, kw]) s0 [kw] rfl]
  simp [h0, h1, except_pure_eq]

theorem treeHasBad_false_iff (q : PyDict) (hnd : (dkeys q).Nodup) :
    treeHasBad q = false ↔
      ∀ sid ∈ (dkeys q).filter (fun s => s != "global"),
        ∀ secv, dget q sid = some secv → sectionHasBad secv = false := by
  simp only [treeHasBad, List.any_eq_false]
  constructor
  · intro h sid hsid secv hsecv
    have hmem := dget_mem _ _ _ hsecv
    have h2 := h (sid, secv) hmem
    have hne : sid ≠ "global" := by
      have := (List.mem_filter.mp hsid).2
      simpa [bne_iff_ne] using this
    rcases hb : sectionHasBad secv with _ | _
    · rfl
    · rw [hb] at h2
      simp [bne_iff_ne] at h2
      exact absurd h2 hne
  · intro h se hse
    by_cases hg : se.1 = "global"
    · simp [hg]
    · have hsid : se.1 ∈ (dkeys q).filter (fun s => s != "global") := by
        rw [List.mem_filter]
        exact ⟨List.mem_map_of_mem Prod.fst hse,
          by simpa [bne_iff_ne] using hg⟩
      have hdg : dget q se.1 = some se.2 := dget_of_mem_nodup _ _ _ hse hnd
      simp [bne_iff_ne, hg, h se.1 hsid se.2 hdg]

theorem shapedTree_elim (dp q : PyDict) (hsh : shapedTree dp q = true)
    (sid : String) (hsid : sid ∈ (dkeys q).filter (fun s => s != "global")) :
    ∃ secv, dget q sid = some secv ∧
      shapedSection (dhas dp sid) secv = true := by
  obtain ⟨hmemk, hne⟩ := List.mem_filter.mp hsid
  obtain ⟨secv, hsecv⟩ := Option.isSome_iff_exists.mp
    (show (dget q sid).isSome = true from (mem_dkeys_iff_dhas q sid).mp hmemk)
  refine ⟨secv, hsecv, ?_⟩
  have hall : ∀ (a : String) (b : PyVal), (a, b) ∈ q →
      a = "global" ∨ shapedSection (dhas dp a) b = true := by
    simpa [shapedTree] using hsh
  rcases hall sid secv (dget_mem _ _ _ hsecv) with hh | hh
  · exact absurd hh (by simpa [bne_iff_ne] using hne)
  · exact hh

end Pycnfg

namespace Pycnfg

theorem merge_default_eq_ok_g (p dp q r m : PyDict)
    (h1 : mergeSectionsFromDefault p dp = .ok q)
    (h2 : ((dkeys q).filter (fun s => s != "global")).foldlM
      (mergeSectionStep dp) q = .ok r)
    (hgr : dhas r "global" = true)
    (h3 : ((dkeys r).filter (fun s => s != "global")).foldlM
      addSectionGlobal r = .ok m) :
    Handler.merge_default p dp = .ok m := by
  unfold Handler.merge_default
  simp only [h1, except_ok_bind, h2, hgr, eq_self_iff_true, if_true, h3,
    except_pure_eq]

theorem merge_default_eq_ok_ng (p dp q r m : PyDict)
    (h1 : mergeSectionsFromDefault p dp = .ok q)
    (h2 : ((dkeys q).filter (fun s => s != "global")).foldlM
      (mergeSectionStep dp) q = .ok r)
    (hgr : dhas r "global" = false)
    (h3 : ((dkeys (dset r "global" (.vdict []))).filter
      (fun s => s != "global")).foldlM addSectionGlobal
        (dset r "global" (.vdict [])) = .ok m) :
    Handler.merge_default p dp = .ok m := by
  unfold Handler.merge_default
  simp only [h1, except_ok_bind, h2, hgr, Bool.false_eq_true, if_false, h3,
    except_pure_eq]

theorem merge_default_eq_error (p dp q : PyDict) (e0 : String)
    (h1 : mergeSectionsFromDefault p dp = .ok q)
    (h2 : ((dkeys q).filter (fun s => s != "global")).foldlM
      (mergeSectionStep dp) q = .error e0) :
    Handler.merge_default p dp = .error e0 := by
  unfold Handler.merge_default
  simp only [h1, except_ok_bind, h2, except_error_bind]

/-- C7 (amended).  With the tree that default merging produces in scope
(`mergeSectionsFromDefault p dp = ok q`), and its sections shaped as dicts of
dict sub-configurations whose supplied `steps` are lists of nonempty tuples
or lists, normalization fails (with a structure TypeError) exactly when some
supplied step of `q` has a non-string method identifier, supplied kwargs
that are not a dict, or supplied decorators that are not a *list*; steps
merely missing kwargs or decorators are instead completed with `{}` and
`[]`. -/
theorem merge_structure_errors (p dp q : PyDict)
    (hph1 : mergeSectionsFromDefault p dp = Except.ok q)
    (hnd : (dkeys q).Nodup)
    (hsh : shapedTree dp q = true) :
    ((∃ e, Handler.merge_default p dp = Except.error e) ↔
      treeHasBad q = true) ∧
    (∀ sid cid s0, isStr s0 = true →
      normalizeStep sid cid (.vtuple [s0]) =
        .ok (.vtuple [s0, .vdict [], .vlist []])) ∧
    (∀ sid cid s0 kw, isStr s0 = true → isDict kw = true →
      normalizeStep sid cid (.vtuple [s0, kw]) =
        .ok (.vtuple [s0, kw, .vlist []])) := by
  refine ⟨?_, fun sid cid s0 h => normalizeStep_one sid cid s0 h,
    fun sid cid s0 kw h0 h1 => normalizeStep_two sid cid s0 kw h0 h1⟩
  have hndf : ((dkeys q).filter (fun s => s != "global")).Nodup :=
    hnd.filter _
  obtain ⟨hiff, hpost⟩ := mergeSections_fold_char dp q
    ((dkeys q).filter (fun s => s != "global")) q hndf
    (fun _ _ => rfl) (shapedTree_elim dp q hsh)
  rcases htb : treeHasBad q with _ | _
  · -- no bad step anywhere: normalization succeeds
    have hgood := (treeHasBad_false_iff q hnd).mp htb
    obtain ⟨r, hr⟩ := hiff.mpr hgood
    obtain ⟨hkr, _, hvdr⟩ := hpost r hr
    have hok : ∃ m, Handler.merge_default p dp = .ok m := by
      rcases hgr : dhas r "global" with _ | _
      · have hkeys3 : dkeys (dset r "global" (.vdict [])) =
            dkeys r ++ ["global"] := by
          rw [dkeys_dset, if_neg (by simp [hgr])]
        have hfilter3 : (dkeys r ++ ["global"]).filter
            (fun s => s != "global") =
              (dkeys r).filter (fun s => s != "global") := by
          rw [List.filter_append]
          simp
        have hvd3 : ∀ sid ∈ (dkeys (dset r "global" (.vdict []))).filter
            (fun s => s != "global"), ∃ sec,
              dget (dset r "global" (.vdict [])) sid = some (.vdict sec) := by
          intro sid hsid
          rw [hkeys3, hfilter3] at hsid
          obtain ⟨hmemr, hneb⟩ := List.mem_filter.mp hsid
          have hne : sid ≠ "global" := by simpa [bne_iff_ne] using hneb
          rw [dget_dset_ne _ _ (fun h => hne h.symm)]
          rw [hkr] at hmemr
          exact hvdr sid (List.mem_filter.mpr ⟨hmemr, hneb⟩)
        obtain ⟨m, hm⟩ := addGlobal_fold_ok _ _ hvd3
        exact ⟨m, merge_default_eq_ok_ng p dp q r m hph1 hr hgr hm⟩
      · have hvd3 : ∀ sid ∈ (dkeys r).filter (fun s => s != "global"),
            ∃ sec, dget r sid = some (.vdict sec) := by
          intro sid hsid
          obtain ⟨hmemr, hneb⟩ := List.mem_filter.mp hsid
          rw [hkr] at hmemr
          exact hvdr sid (List.mem_filter.mpr ⟨hmemr, hneb⟩)
        obtain ⟨m, hm⟩ := addGlobal_fold_ok _ _ hvd3
        exact ⟨m, merge_default_eq_ok_g p dp q r m hph1 hr hgr hm⟩
    obtain ⟨m, hm⟩ := hok
    constructor
    · rintro ⟨e, he⟩
      rw [hm] at he
      exact absurd he (by simp)
    · intro h
      exact absurd h (by simp)
  · -- some bad step: normalization fails
    simp only [treeHasBad, List.any_eq_true] at htb
    obtain ⟨se, hse, hb⟩ := htb
    rw [Bool.and_eq_true] at hb
    have hsid : se.1 ∈ (dkeys q).filter (fun s => s != "global") :=
      List.mem_filter.mpr ⟨List.mem_map_of_mem Prod.fst hse, hb.1⟩
    have hdg : dget q se.1 = some se.2 := dget_of_mem_nodup _ _ _ hse hnd
    rcases hf : ((dkeys q).filter (fun s => s != "global")).foldlM
        (mergeSectionStep dp) q with e0 | r
    · constructor
      · intro _
        rfl
      · intro _
        exact ⟨e0, merge_default_eq_error p dp q e0 hph1 hf⟩
    · exfalso
      have := hiff.mp ⟨r, hf⟩ se.1 hsid se.2 hdg
      rw [this] at hb
      exact absurd hb.2 (by simp)

end Pycnfg

namespace Pycnfg

/-- A tree whose only step carries a non-string method identifier. -/
def c7wtree : PyDict :=
  [("sec", .vdict [("conf", .vdict
    [("steps", .vlist [.vtuple [.vint 3]])])])]

/-- Witness for the C7 characterization at a concrete input: the bad-step
tree satisfies every hypothesis and normalization indeed errors. -/
theorem merge_structure_errors_witness :
    mergeSectionsFromDefault c7wtree [] = Except.ok c7wtree ∧
    (dkeys c7wtree).Nodup ∧
    shapedTree [] c7wtree = true ∧
    treeHasBad c7wtree = true ∧
    ∃ e, Handler.merge_default c7wtree [] = Except.error e :=
  ⟨by decide, by decide, by decide, by decide,
   ((merge_structure_errors c7wtree [] c7wtree (by decide) (by decide)
     (by decide)).1).mpr (by decide)⟩

end Pycnfg

namespace Pycnfg

/-! ## Plain-key global resolution (C2, C10) -/

theorem dset_dset (d : PyDict) (k : String) (v w : PyVal) :
    dset (dset d k v) k w = dset d k w := by
  induction d with
  | nil => simp [dset]
  | cons kv rest ih =>
      obtain ⟨k0, v0⟩ := kv
      by_cases h0 : k0 = k
      · subst h0
        simp [dset]
      · simp [dset, h0, ih]

theorem dget_ddel_ne (d : PyDict) {k k' : String} (h : k ≠ k') :
    dget (ddel d k) k' = dget d k' := by
  induction d with
  | nil => simp [ddel]
  | cons kv rest ih =>
      obtain ⟨k0, v0⟩ := kv
      by_cases h0 : k0 = k
      · subst h0
        simp [ddel, dget, h]
      · simp [ddel, dget, h0, ih]

theorem any_fst_eq_dhas (d : PyDict) (k : String) :
    d.any (fun kv => kv.1 == k) = dhas d k := by
  induction d with
  | nil => simp [dhas, dget]
  | cons kv rest ih =>
      obtain ⟨k0, v0⟩ := kv
      by_cases h0 : k0 = k
      · subst h0
        simp [dhas, dget]
      · simp [dhas, dget, h0, ih]

/-- One global entry applied to a kwargs dict: overwrite the value of the
entry key when the kwarg exists. -/
def overwriteOne (kw : PyDict) (k : String) (v : PyVal) : PyDict :=
  if dhas kw k then dset kw k v else kw

/-- A whole global dict applied to a kwargs dict, entry by entry. -/
def globOverwrite (kw : PyDict) (gl : PyDict) : PyDict :=
  gl.foldl (fun kw g => overwriteOne kw g.1 g.2) kw

theorem foldl_overwrite (k : String) (v : PyVal)
    (cond : String × PyVal → Bool) :
    ∀ (l : List (String × PyVal)),
      (∀ kv ∈ l, cond kv = (kv.1 == k)) →
      ∀ (acc : PyDict),
      l.foldl (fun kw kv => if cond kv then dset kw kv.1 v else kw) acc =
        if l.any (fun kv => kv.1 == k) then dset acc k v else acc := by
  intro l
  induction l with
  | nil => intro _ acc; simp
  | cons kv rest ih0 =>
      intro hcond acc
      have ih := ih0 (fun kv h => hcond kv (by simp [h]))
      rw [List.foldl_cons, hcond kv (by simp)]
      by_cases hk : kv.1 = k
      · rw [if_pos (by simp [hk]), List.any_cons,
          if_pos (by simp [hk]), ih, hk]
        by_cases hr : rest.any (fun kv => kv.1 == k) = true
        · rw [if_pos hr, dset_dset]
        · rw [if_neg hr]
      · rw [if_neg (by simp [hk]), List.any_cons, ih]
        by_cases hr : rest.any (fun kv => kv.1 == k) = true
        · rw [if_pos hr, if_pos (by simp [hr])]
        · rw [if_neg hr, if_neg (by simp [hk, hr])]

theorem dhas_overwriteOne (kw : PyDict) (k a : String) (v : PyVal) :
    dhas (overwriteOne kw k v) a = dhas kw a := by
  unfold overwriteOne
  by_cases h : dhas kw k = true
  · rw [if_pos h, dhas_dset]
    by_cases hk : k = a
    · subst hk
      simp [h]
    · simp [hk]
  · rw [if_neg h]

theorem dget_overwriteOne (kw : PyDict) (k a : String) (v : PyVal) :
    dget (overwriteOne kw k v) a =
      if k = a ∧ dhas kw a = true then some v else dget kw a := by
  unfold overwriteOne
  by_cases hk : k = a
  · subst hk
    by_cases h : dhas kw k = true
    · simp [h, dget_dset_self]
    · rw [if_neg h]
      simp [h]
  · by_cases h : dhas kw k = true
    · rw [if_pos h, dget_dset_ne _ _ hk]
      simp [hk]
    · rw [if_neg h]
      simp [hk]

theorem dhas_globOverwrite (gl : PyDict) :
    ∀ (kw : PyDict) (a : String),
      dhas (globOverwrite kw gl) a = dhas kw a := by
  induction gl with
  | nil => intro kw a; rfl
  | cons g rest ih =>
      intro kw a
      show dhas (globOverwrite (overwriteOne kw g.1 g.2) rest) a = dhas kw a
      rw [ih, dhas_overwriteOne]

theorem dget_globOverwrite_ne (gl : PyDict) :
    ∀ (kw : PyDict) (a : String), (∀ g ∈ gl, g.1 ≠ a) →
      dget (globOverwrite kw gl) a = dget kw a := by
  induction gl with
  | nil => intro kw a _; rfl
  | cons g rest ih =>
      intro kw a hne
      show dget (globOverwrite (overwriteOne kw g.1 g.2) rest) a = dget kw a
      rw [ih _ _ (fun g2 h2 => hne g2 (by simp [h2])), dget_overwriteOne]
      simp [hne g (by simp)]

theorem dget_globOverwrite_mem (gl : PyDict) (k : String) (v : PyVal) :
    (dkeys gl).Nodup → (k, v) ∈ gl →
    ∀ kw, dhas kw k = true → dget (globOverwrite kw gl) k = some v := by
  induction gl with
  | nil => intro _ hmem; exact absurd hmem (List.not_mem_nil _)
  | cons g rest ih =>
      intro hnd hmem kw hkw
      simp only [dkeys, List.map_cons, List.nodup_cons] at hnd
      show dget (globOverwrite (overwriteOne kw g.1 g.2) rest) k = some v
      rcases List.mem_cons.mp hmem with rfl | hmem2
      · have hne : ∀ g2 ∈ rest, g2.1 ≠ (k, v).1 := by
          intro g2 h2 he
          exact hnd.1 (he ▸ List.mem_map_of_mem (fun x => x.1) h2)
        rw [dget_globOverwrite_ne rest _ _ hne, dget_overwriteOne]
        simp [hkw]
      · exact ih hnd.2 hmem2 _ (by rw [dhas_overwriteOne]; exact hkw)

end Pycnfg

namespace Pycnfg

theorem absorbUnknown_id (conf : PyDict)
    (h : ∀ k ∈ dkeys conf, structuralKeys.contains k = true) :
    absorbUnknown conf = .ok conf := by
  unfold absorbUnknown
  apply foldlM_id
  intro k hk
  rw [if_pos (h k hk)]
  rfl

theorem absorbConfStep_id (sec : PyDict) (cid : String) (conf : PyDict)
    (hconf : dget sec cid = some (.vdict conf))
    (hkeys : ∀ k ∈ dkeys conf, structuralKeys.contains k = true) :
    absorbConfStep sec cid = .ok sec := by
  unfold absorbConfStep
  simp only [hconf, pure_bind, except_ok_bind, absorbUnknown_id conf hkeys,
    dset_same sec cid _ hconf, except_pure_eq]

theorem absorbSectionStep_id (p : PyDict) (sid : String) (sec : PyDict)
    (hsec : dget p sid = some (.vdict sec))
    (hconfs : ∀ cid ∈ (dkeys sec).filter (fun s => s != "global"),
      ∃ conf, dget sec cid = some (.vdict conf) ∧
        ∀ k ∈ dkeys conf, structuralKeys.contains k = true) :
    absorbSectionStep p sid = .ok p := by
  unfold absorbSectionStep
  have hinner : ((dkeys sec).filter (· != "global")).foldlM
      absorbConfStep sec = .ok sec := by
    apply foldlM_id
    intro cid hcid
    obtain ⟨conf, hconf, hkeys⟩ := hconfs cid hcid
    exact absorbConfStep_id sec cid conf hconf hkeys
  simp only [hsec, pure_bind, except_ok_bind, hinner,
    dset_same p sid _ hsec, except_pure_eq]

theorem absorbAll_id (p : PyDict)
    (hsecs : ∀ sid ∈ (dkeys p).filter (fun s => s != "global"),
      ∃ sec, dget p sid = some (.vdict sec) ∧
        ∀ cid ∈ (dkeys sec).filter (fun s => s != "global"),
          ∃ conf, dget sec cid = some (.vdict conf) ∧
            ∀ k ∈ dkeys conf, structuralKeys.contains k = true) :
    absorbAll p = .ok p := by
  unfold absorbAll
  apply foldlM_id
  intro sid hsid
  obtain ⟨sec, hsec, hconfs⟩ := hsecs sid hsid
  exact absorbSectionStep_id p sid sec hsec hconfs

theorem setChildGlobal_eq (p : PyDict) (sub key : String) (v : PyVal)
    (child : PyDict) (g : PyDict)
    (hc : dget p sub = some (.vdict child))
    (hg : dget child "global" = some (.vdict g)) :
    setChildGlobal p sub key v =
      .ok (dset p sub (.vdict (dset child "global" (.vdict (dset g key v))))) := by
  unfold setChildGlobal
  simp only [hc, hg, pure_bind, except_ok_bind, except_pure_eq]

end Pycnfg

namespace Pycnfg

theorem dkeys_ddel_erase (d : PyDict) (k : String) :
    dkeys (ddel d k) = (dkeys d).erase k := by
  induction d with
  | nil => simp [ddel, dkeys]
  | cons kv rest ih =>
      obtain ⟨k0, v0⟩ := kv
      by_cases h0 : k0 = k
      · subst h0
        simp [ddel, dkeys, List.erase_cons_head]
      · rw [show ddel ((k0, v0) :: rest) k = (k0, v0) :: ddel rest k by
          simp [ddel, h0]]
        simp only [dkeys, List.map_cons] at ih ⊢
        rw [ih, List.erase_cons_tail]
        simp [h0]

theorem filter_erase_self (l : List String) (a : String) :
    (l.erase a).filter (fun s => s != a) = l.filter (fun s => s != a) := by
  induction l with
  | nil => simp
  | cons x xs ih =>
      by_cases hx : x = a
      · subst hx
        rw [List.erase_cons_head]
        simp [List.filter]
      · rw [List.erase_cons_tail (by simp [hx])]
        simp only [List.filter]
        rw [show (x != a) = true by simp [hx]]
        rw [ih]

theorem broadcast_one (key : String) (v : PyVal) :
    ∀ (sids : List String) (p : PyDict),
      sids.Nodup →
      (∀ s ∈ sids, ∃ sec g, dget p s = some (.vdict sec) ∧
        dget sec "global" = some (.vdict g)) →
      ∃ p', sids.foldlM (fun p sub => setChildGlobal p sub key v) p = .ok p' ∧
        dkeys p' = dkeys p ∧
        (∀ s, s ∉ sids → dget p' s = dget p s) ∧
        (∀ s ∈ sids, ∀ sec g, dget p s = some (.vdict sec) →
          dget sec "global" = some (.vdict g) →
          dget p' s =
            some (.vdict (dset sec "global" (.vdict (dset g key v))))) := by
  intro sids
  induction sids with
  | nil =>
      intro p _ _
      exact ⟨p, rfl, rfl, fun _ _ => rfl, by simp⟩
  | cons sid rest ih =>
      intro p hnd hsh
      simp only [List.nodup_cons] at hnd
      obtain ⟨sec, g, hsec, hg⟩ := hsh sid (by simp)
      have hstep := setChildGlobal_eq p sid key v sec g hsec hg
      have hsh1 : ∀ s ∈ rest, ∃ sec2 g2,
          dget (dset p sid (.vdict (dset sec "global" (.vdict (dset g key v)))))
            s = some (.vdict sec2) ∧ dget sec2 "global" = some (.vdict g2) := by
        intro s hs
        obtain ⟨sec2, g2, hsec2, hg2⟩ := hsh s (by simp [hs])
        exact ⟨sec2, g2, by
          rw [dget_dset_ne _ _ (fun he => hnd.1 (by rw [he]; exact hs))]
          exact hsec2, hg2⟩
      obtain ⟨p', hfold, hk, hout, hent⟩ := ih _ hnd.2 hsh1
      refine ⟨p', ?_, ?_, ?_, ?_⟩
      · rw [List.foldlM_cons, hstep, except_ok_bind]
        exact hfold
      · rw [hk, dkeys_dset, if_pos (by simp [dhas, hsec])]
      · intro s hs
        rw [hout s (fun h => hs (by simp [h])),
          dget_dset_ne _ _ (fun he => hs (by simp [he]))]
      · intro s hs sec2 g2 hsec2 hg2
        rcases List.mem_cons.mp hs with rfl | hs2
        · have he1 : sec2 = sec := by
            rw [hsec] at hsec2
            exact (PyVal.vdict.inj (Option.some.inj hsec2)).symm
          subst he1
          have he2 : g2 = g := by
            rw [hg] at hg2
            exact (PyVal.vdict.inj (Option.some.inj hg2)).symm
          subst he2
          rw [hout s hnd.1, dget_dset_self]
        · have hmove : dget (dset p sid
              (.vdict (dset sec "global" (.vdict (dset g key v))))) s =
                some (.vdict sec2) := by
            rw [dget_dset_ne _ _ (fun he => hnd.1 (by rw [he]; exact hs2))]
            exact hsec2
          exact hent s hs2 sec2 g2 hmove hg2

end Pycnfg

namespace Pycnfg

theorem broadcast_all (sids : List String) (hnd : sids.Nodup) :
    ∀ (gl : List (String × PyVal)) (p : PyDict),
      (∀ s ∈ sids, ∃ sec g, dget p s = some (.vdict sec) ∧
        dget sec "global" = some (.vdict g)) →
      ∃ p', gl.foldlM (fun p kv => sids.foldlM
          (fun p sub => setChildGlobal p sub kv.1 kv.2) p) p = .ok p' ∧
        dkeys p' = dkeys p ∧
        (∀ s, s ∉ sids → dget p' s = dget p s) ∧
        (∀ s ∈ sids, ∀ sec g, dget p s = some (.vdict sec) →
          dget sec "global" = some (.vdict g) →
          dget p' s =
            some (.vdict (dset sec "global" (.vdict (dupdate g gl))))) := by
  intro gl
  induction gl with
  | nil =>
      intro p _
      refine ⟨p, rfl, rfl, fun _ _ => rfl, ?_⟩
      intro s _ sec g hsec hg
      rw [show dupdate g [] = g from rfl, dset_same sec "global" _ hg]
      exact hsec
  | cons kv rest ih =>
      intro p hsh
      obtain ⟨p1, hone, hk1, hout1, hent1⟩ := broadcast_one kv.1 kv.2 sids p
        hnd hsh
      have hsh1 : ∀ s ∈ sids, ∃ sec g, dget p1 s = some (.vdict sec) ∧
          dget sec "global" = some (.vdict g) := by
        intro s hs
        obtain ⟨sec, g, hsec, hg⟩ := hsh s hs
        exact ⟨dset sec "global" (.vdict (dset g kv.1 kv.2)),
          dset g kv.1 kv.2, hent1 s hs sec g hsec hg, dget_dset_self _ _ _⟩
      obtain ⟨p', hfold, hk, hout, hent⟩ := ih p1 hsh1
      refine ⟨p', ?_, by rw [hk, hk1], ?_, ?_⟩
      · rw [List.foldlM_cons, hone, except_ok_bind]
        exact hfold
      · intro s hs
        rw [hout s hs, hout1 s hs]
      · intro s hs sec g hsec hg
        have h1 := hent1 s hs sec g hsec hg
        have h2 := hent s hs (dset sec "global" (.vdict (dset g kv.1 kv.2)))
          (dset g kv.1 kv.2) h1 (dget_dset_self _ _ _)
        rw [h2, dset_dset]
        rfl

end Pycnfg

namespace Pycnfg

theorem copy_global_plain (p glob : PyDict)
    (hg : dget p "global" = some (.vdict glob))
    (hnr : ∀ kv ∈ glob, (dkeys p).contains (firstSeg kv.1) = false)
    (hnd : ((dkeys p).filter (· != "global")).Nodup)
    (hsh : ∀ s ∈ (dkeys p).filter (· != "global"), ∃ sec g,
      dget p s = some (.vdict sec) ∧ dget sec "global" = some (.vdict g)) :
    ∃ p', Handler.copy_global p = .ok p' ∧
      dkeys p' = (dkeys p).erase "global" ∧
      (∀ s, s ∉ (dkeys p).filter (· != "global") → s ≠ "global" →
        dget p' s = dget p s) ∧
      (∀ s ∈ (dkeys p).filter (· != "global"), ∀ sec g,
        dget p s = some (.vdict sec) → dget sec "global" = some (.vdict g) →
        dget p' s =
          some (.vdict (dset sec "global" (.vdict (dupdate g glob))))) := by
  obtain ⟨p2, hfold, hk2, hout2, hent2⟩ :=
    broadcast_all ((dkeys p).filter (· != "global")) hnd glob p hsh
  have hcg : Handler.copy_global p = .ok (ddel p2 "global") := by
    unfold Handler.copy_global
    have hf1 : glob.filter
        (fun kv => (dkeys p).contains (firstSeg kv.1)) = [] := by
      rw [List.filter_eq_nil]
      intro kv hkv
      simpa using hnr kv hkv
    have hf2 : glob.filter
        (fun kv => !(dkeys p).contains (firstSeg kv.1)) = glob := by
      rw [List.filter_eq_self]
      intro kv hkv
      simpa using hnr kv hkv
    have hbs : glob.foldlM (broadcastKeyStep (dkeys p)) p = .ok p2 := hfold
    simp only [hg, pure_bind, except_ok_bind, hf1, List.foldlM_nil, hf2, hbs,
      except_pure_eq]
  refine ⟨ddel p2 "global", hcg, ?_, ?_, ?_⟩
  · rw [dkeys_ddel_erase, hk2]
  · intro s hs hsg
    rw [dget_ddel_ne _ (fun he => hsg he.symm), hout2 s hs]
  · intro s hs sec g hsec hgc
    have hne : s ≠ "global" := by
      have := (List.mem_filter.mp hs).2
      simpa using this
    rw [dget_ddel_ne _ (fun he => hne he.symm)]
    exact hent2 s hs sec g hsec hgc

end Pycnfg

namespace Pycnfg

theorem section_map_fold (F : PyDict → Except String PyDict)
    (step : PyDict → String → Except String PyDict)
    (hstep : ∀ (p : PyDict) (sid : String), step p sid = do
      let sec ← match dget p sid with
        | some (.vdict s) => pure s
        | some _ => Except.error "TypeError: section is not subscriptable"
        | none => Except.error ("KeyError: " ++ sid)
      let sec' ← F sec
      pure (dset p sid (.vdict sec'))) :
    ∀ (sids : List String) (p : PyDict),
      sids.Nodup →
      (∀ sid ∈ sids, ∃ sec sec', dget p sid = some (.vdict sec) ∧
        F sec = .ok sec') →
      ∃ p', sids.foldlM step p = .ok p' ∧
        dkeys p' = dkeys p ∧
        (∀ s, s ∉ sids → dget p' s = dget p s) ∧
        (∀ sid ∈ sids, ∀ sec sec', dget p sid = some (.vdict sec) →
          F sec = .ok sec' → dget p' sid = some (.vdict sec')) := by
  intro sids
  induction sids with
  | nil =>
      intro p _ _
      exact ⟨p, rfl, rfl, fun _ _ => rfl, by simp⟩
  | cons sid rest ih =>
      intro p hnd hsh
      simp only [List.nodup_cons] at hnd
      obtain ⟨sec, sec', hsec, hF⟩ := hsh sid (by simp)
      have h1 : step p sid = .ok (dset p sid (.vdict sec')) := by
        rw [hstep]
        simp only [hsec, pure_bind, except_ok_bind, hF, except_pure_eq]
      have hsh1 : ∀ s ∈ rest, ∃ sec2 sec2',
          dget (dset p sid (.vdict sec')) s = some (.vdict sec2) ∧
            F sec2 = .ok sec2' := by
        intro s hs
        obtain ⟨sec2, sec2', hsec2, hF2⟩ := hsh s (by simp [hs])
        exact ⟨sec2, sec2', by
          rw [dget_dset_ne _ _ (fun he => hnd.1 (by rw [he]; exact hs))]
          exact hsec2, hF2⟩
      obtain ⟨p', hfold, hk, hout, hent⟩ := ih _ hnd.2 hsh1
      refine ⟨p', ?_, ?_, ?_, ?_⟩
      · rw [List.foldlM_cons, h1, except_ok_bind]
        exact hfold
      · rw [hk, dkeys_dset, if_pos (by simp [dhas, hsec])]
      · intro s hs
        rw [hout s (fun h => hs (by simp [h])),
          dget_dset_ne _ _ (fun he => hs (by simp [he]))]
      · intro s hs sec2 sec2' hsec2 hF2
        rcases List.mem_cons.mp hs with rfl | hs2
        · have he1 : sec2 = sec := by
            rw [hsec] at hsec2
            exact (PyVal.vdict.inj (Option.some.inj hsec2)).symm
          subst he1
          have he2 : sec2' = sec' := by
            rw [hF] at hF2
            exact Except.ok.inj hF2.symm
          subst he2
          rw [hout s hnd.1, dget_dset_self]
        · have hmove : dget (dset p sid (.vdict sec')) s =
              some (.vdict sec2) := by
            rw [dget_dset_ne _ _ (fun he => hnd.1 (by rw [he]; exact hs2))]
            exact hsec2
          exact hent s hs2 sec2 sec2' hmove hF2

theorem foldlM_unit_ok {α : Type} (l : List α)
    (f : Unit → α → Except String Unit)
    (h : ∀ a ∈ l, f () a = .ok ()) : l.foldlM f () = .ok () := by
  induction l with
  | nil => rfl
  | cons a rest ih =>
      rw [List.foldlM_cons, h a (by simp), except_ok_bind]
      exact ih (fun a ha => h a (by simp [ha]))

theorem checkConfGlobals_ok (p : PyDict)
    (hsh : ∀ sid ∈ (dkeys p).filter (fun s => s != "global"),
      ∃ sec, dget p sid = some (.vdict sec) ∧
        ∀ cid ∈ (dkeys sec).filter (fun s => s != "global"),
          ∃ conf, dget sec cid = some (.vdict conf) ∧
            dhas conf "global" = true) :
    checkConfGlobals p = .ok () := by
  unfold checkConfGlobals
  apply foldlM_unit_ok
  intro sid hsid
  obtain ⟨sec, hsec, hconfs⟩ := hsh sid hsid
  unfold checkSectionStep
  have hinner : ((dkeys sec).filter (· != "global")).foldlM
      (checkConfStep sec) () = .ok () := by
    apply foldlM_unit_ok
    intro cid hcid
    obtain ⟨conf, hconf, hcg⟩ := hconfs cid hcid
    unfold checkConfStep
    obtain ⟨gv, hgv⟩ := Option.isSome_iff_exists.mp
      (show (dget conf "global").isSome = true from hcg)
    simp only [hconf, pure_bind, except_ok_bind, hgv]
    rfl
  simp only [hsec, pure_bind, except_ok_bind, hinner]

end Pycnfg

namespace Pycnfg

theorem mapM_eq_map {α β : Type} (f : α → Except String β) (g : α → β)
    (l : List α) (h : ∀ a ∈ l, f a = .ok (g a)) :
    l.mapM f = .ok (l.map g) := by
  induction l with
  | nil => rfl
  | cons a rest ih =>
      rw [List.mapM_cons, h a (by simp), except_ok_bind,
        ih (fun a ha => h a (by simp [ha])), except_ok_bind, except_pure_eq,
        List.map_cons]

theorem dkeys_overwriteOne (kw : PyDict) (k : String) (v : PyVal) :
    dkeys (overwriteOne kw k v) = dkeys kw := by
  unfold overwriteOne
  by_cases h : dhas kw k = true
  · rw [if_pos h, dkeys_dset, if_pos h]
  · rw [if_neg h]

theorem dkeys_globOverwrite (gl : PyDict) :
    ∀ kw : PyDict, dkeys (globOverwrite kw gl) = dkeys kw := by
  induction gl with
  | nil => intro kw; rfl
  | cons g rest ih =>
      intro kw
      show dkeys (globOverwrite (overwriteOne kw g.1 g.2) rest) = dkeys kw
      rw [ih, dkeys_overwriteOne]

/-- One whole `global` dict applied to the kwargs slot of a step. -/
def stepKwOverwrite (gl : PyDict) (step : PyVal) : PyVal :=
  match stepElems step with
  | some xs =>
      match xs.get? 1 with
      | some (.vdict kw) => setStepKwargs step (globOverwrite kw gl)
      | _ => step
  | none => step

theorem stepElems_setStepKwargs (step s0 x1 : PyVal) (rest : List PyVal)
    (kw' : PyDict) (hx : stepElems step = some (s0 :: x1 :: rest)) :
    stepElems (setStepKwargs step kw') = some (s0 :: .vdict kw' :: rest) := by
  rcases step with _ | _ | _ | _ | xs | xs | _ | _ <;> simp [stepElems] at hx
  · subst hx
    rfl
  · subst hx
    rfl

theorem setStepKwargs_setStepKwargs (step s0 x1 : PyVal) (rest : List PyVal)
    (kw1 kw2 : PyDict) (hx : stepElems step = some (s0 :: x1 :: rest)) :
    setStepKwargs (setStepKwargs step kw1) kw2 = setStepKwargs step kw2 := by
  rcases step with _ | _ | _ | _ | xs | xs | _ | _ <;> simp [stepElems] at hx
  · subst hx
    rfl
  · subst hx
    rfl

theorem stepKwOverwrite_eq (gl : PyDict) (step s0 : PyVal) (kw : PyDict)
    (rest : List PyVal) (hx : stepElems step = some (s0 :: .vdict kw :: rest)) :
    stepKwOverwrite gl step = setStepKwargs step (globOverwrite kw gl) := by
  unfold stepKwOverwrite
  rw [hx]
  rfl

theorem stepKwOverwrite_nil (step s0 : PyVal) (kw : PyDict)
    (rest : List PyVal) (hx : stepElems step = some (s0 :: .vdict kw :: rest)) :
    stepKwOverwrite [] step = step := by
  rw [stepKwOverwrite_eq [] step s0 kw rest hx]
  show setStepKwargs step kw = step
  rcases step with _ | _ | _ | _ | xs | xs | _ | _ <;> simp [stepElems] at hx
  · subst hx
    rfl
  · subst hx
    rfl

theorem stepKwOverwrite_comp (g : String × PyVal) (gl : PyDict)
    (step s0 : PyVal) (kw : PyDict) (rest : List PyVal)
    (hx : stepElems step = some (s0 :: .vdict kw :: rest)) :
    stepKwOverwrite gl (stepKwOverwrite [g] step) =
      stepKwOverwrite (g :: gl) step := by
  rw [stepKwOverwrite_eq [g] step s0 kw rest hx,
    stepKwOverwrite_eq (g :: gl) step s0 kw rest hx]
  have hx1 : stepElems (setStepKwargs step (globOverwrite kw [g])) =
      some (s0 :: .vdict (globOverwrite kw [g]) :: rest) :=
    stepElems_setStepKwargs step s0 _ rest _ hx
  rw [stepKwOverwrite_eq gl _ s0 (globOverwrite kw [g]) rest hx1,
    setStepKwargs_setStepKwargs _ s0 (.vdict kw) rest _ _ hx]
  rfl

end Pycnfg

namespace Pycnfg

theorem substStepOne_eq (gentry : String × PyVal) (step s0 : PyVal)
    (kw : PyDict) (rest : List PyVal)
    (hx : stepElems step = some (s0 :: .vdict kw :: rest))
    (hnp : ∀ a ∈ dkeys kw,
      (gentry.1 == strVal s0 ++ "__" ++ a) = false) :
    substStepOne gentry step = .ok (stepKwOverwrite [gentry] step) := by
  rw [stepKwOverwrite_eq [gentry] step s0 kw rest hx]
  unfold substStepOne
  rw [hx]
  simp only [List.head?_cons, pure_bind, except_ok_bind]
  rw [show ((s0 :: PyVal.vdict kw :: rest).get? 1) = some (.vdict kw)
    from rfl]
  simp only [pure_bind, except_ok_bind]
  rw [foldl_overwrite gentry.1 gentry.2 _ kw
    (fun kv hkv => by
      rw [hnp kv.1 (List.mem_map_of_mem (fun x => x.1) hkv)]
      by_cases h : gentry.1 = kv.1
      · simp [h]
      · simp [h, Ne.symm h]),
    any_fst_eq_dhas]
  rfl

theorem substGlobStep_eq (conf : PyDict) (gentry : String × PyVal)
    (steps : List PyVal)
    (hst : dget conf "steps" = some (.vlist steps))
    (hsh : ∀ step ∈ steps, ∃ s0 kw rest,
      stepElems step = some (s0 :: .vdict kw :: rest) ∧
      ∀ a ∈ dkeys kw, (gentry.1 == strVal s0 ++ "__" ++ a) = false) :
    substGlobStep conf gentry =
      .ok (dset conf "steps"
        (.vlist (steps.map (stepKwOverwrite [gentry])))) := by
  unfold substGlobStep
  have hmm : steps.mapM (substStepOne gentry) =
      .ok (steps.map (stepKwOverwrite [gentry])) := by
    apply mapM_eq_map
    intro step hstep
    obtain ⟨s0, kw, rest, hx, hnp⟩ := hsh step hstep
    exact substStepOne_eq gentry step s0 kw rest hx hnp
  simp only [hst, pure_bind, except_ok_bind, hmm, except_pure_eq]

theorem substGlob_fold :
    ∀ (gl : List (String × PyVal)) (conf : PyDict) (steps : List PyVal),
      dget conf "steps" = some (.vlist steps) →
      (∀ step ∈ steps, ∃ s0 kw rest,
        stepElems step = some (s0 :: .vdict kw :: rest) ∧
        ∀ g ∈ gl, ∀ a ∈ dkeys kw,
          (g.1 == strVal s0 ++ "__" ++ a) = false) →
      gl.foldlM substGlobStep conf =
        .ok (dset conf "steps" (.vlist (steps.map (stepKwOverwrite gl)))) := by
  intro gl
  induction gl with
  | nil =>
      intro conf steps hst hsh
      have hmap : steps.map (stepKwOverwrite []) = steps := by
        apply List.map_congr_left ?_ |>.trans (List.map_id steps)
        intro step hstep
        obtain ⟨s0, kw, rest, hx, _⟩ := hsh step hstep
        exact stepKwOverwrite_nil step s0 kw rest hx
      rw [List.foldlM_nil, hmap, dset_same conf "steps" _ hst]
      rfl
  | cons g gl ih =>
      intro conf steps hst hsh
      have h1 := substGlobStep_eq conf g steps hst
        (fun step hstep => by
          obtain ⟨s0, kw, rest, hx, hnp⟩ := hsh step hstep
          exact ⟨s0, kw, rest, hx, fun a ha => hnp g (by simp) a ha⟩)
      have hsh1 : ∀ step1 ∈ steps.map (stepKwOverwrite [g]),
          ∃ s0 kw rest, stepElems step1 = some (s0 :: .vdict kw :: rest) ∧
            ∀ g2 ∈ gl, ∀ a ∈ dkeys kw,
              (g2.1 == strVal s0 ++ "__" ++ a) = false := by
        intro step1 hstep1
        obtain ⟨step, hstep, heq⟩ := List.mem_map.mp hstep1
        obtain ⟨s0, kw, rest, hx, hnp⟩ := hsh step hstep
        refine ⟨s0, globOverwrite kw [g], rest, ?_, ?_⟩
        · rw [← heq, stepKwOverwrite_eq [g] step s0 kw rest hx]
          exact stepElems_setStepKwargs step s0 _ rest _ hx
        · intro g2 hg2 a ha
          rw [dkeys_globOverwrite] at ha
          exact hnp g2 (by simp [hg2]) a ha
      have ih1 := ih (dset conf "steps"
          (.vlist (steps.map (stepKwOverwrite [g]))))
        (steps.map (stepKwOverwrite [g])) (dget_dset_self _ _ _) hsh1
      rw [List.foldlM_cons, h1, except_ok_bind, ih1, dset_dset]
      have hcomp : (steps.map (stepKwOverwrite [g])).map (stepKwOverwrite gl)
          = steps.map (stepKwOverwrite (g :: gl)) := by
        rw [List.map_map]
        apply List.map_congr_left
        intro step hstep
        obtain ⟨s0, kw, rest, hx, _⟩ := hsh step hstep
        exact stepKwOverwrite_comp g gl step s0 kw rest hx
      rw [hcomp]

theorem substitute_global_plain (conf glob : PyDict) (steps : List PyVal)
    (hg : dget conf "global" = some (.vdict glob))
    (hst : dget conf "steps" = some (.vlist steps))
    (hsh : ∀ step ∈ steps, ∃ s0 kw rest,
      stepElems step = some (s0 :: .vdict kw :: rest) ∧
      ∀ g ∈ glob, ∀ a ∈ dkeys kw,
        (g.1 == strVal s0 ++ "__" ++ a) = false) :
    Handler.substitute_global conf =
      .ok (dset conf "steps" (.vlist (steps.map (stepKwOverwrite glob)))) := by
  unfold Handler.substitute_global
  simp only [hg, pure_bind, except_ok_bind]
  exact substGlob_fold glob conf steps hst hsh

end Pycnfg

namespace Pycnfg

theorem resolveConfStep_eq (sid : String) (p sec conf conf' : PyDict)
    (cid : String) (hsec : dget p sid = some (.vdict sec))
    (hconf : dget sec cid = some (.vdict conf))
    (hsub : Handler.substitute_global conf = .ok conf') :
    resolveConfStep false sid p cid =
      .ok (dset p sid (.vdict (dset sec cid (.vdict conf')))) := by
  unfold resolveConfStep
  simp only [hsec, hconf, pure_bind, except_ok_bind, hsub, Bool.false_eq_true,
    if_false, except_pure_eq]

theorem resolveConfs_fold (sid : String) :
    ∀ (cids : List String) (p sec : PyDict),
      cids.Nodup →
      dget p sid = some (.vdict sec) →
      (∀ cid ∈ cids, ∃ conf conf', dget sec cid = some (.vdict conf) ∧
        Handler.substitute_global conf = .ok conf') →
      ∃ p' sec', cids.foldlM (resolveConfStep false sid) p = .ok p' ∧
        dget p' sid = some (.vdict sec') ∧
        dkeys p' = dkeys p ∧
        dkeys sec' = dkeys sec ∧
        (∀ s, s ≠ sid → dget p' s = dget p s) ∧
        (∀ c, c ∉ cids → dget sec' c = dget sec c) ∧
        (∀ cid ∈ cids, ∀ conf conf', dget sec cid = some (.vdict conf) →
          Handler.substitute_global conf = .ok conf' →
          dget sec' cid = some (.vdict conf')) := by
  intro cids
  induction cids with
  | nil =>
      intro p sec _ hsec _
      exact ⟨p, sec, rfl, hsec, rfl, rfl, fun _ _ => rfl, fun _ _ => rfl,
        by simp⟩
  | cons cid rest ih =>
      intro p sec hnd hsec hconfs
      simp only [List.nodup_cons] at hnd
      obtain ⟨conf, conf', hconf, hsub⟩ := hconfs cid (by simp)
      have h1 := resolveConfStep_eq sid p sec conf conf' cid hsec hconf hsub
      have hsec1 : dget (dset p sid (.vdict (dset sec cid (.vdict conf'))))
          sid = some (.vdict (dset sec cid (.vdict conf'))) :=
        dget_dset_self _ _ _
      have hconfs1 : ∀ c ∈ rest, ∃ cc cc',
          dget (dset sec cid (.vdict conf')) c = some (.vdict cc) ∧
            Handler.substitute_global cc = .ok cc' := by
        intro c hc
        obtain ⟨cc, cc', hcc, hsub2⟩ := hconfs c (by simp [hc])
        exact ⟨cc, cc', by
          rw [dget_dset_ne _ _ (fun he => hnd.1 (by rw [he]; exact hc))]
          exact hcc, hsub2⟩
      obtain ⟨p', sec', hfold, hsec', hkp, hks, houtp, houts, hent⟩ :=
        ih _ _ hnd.2 hsec1 hconfs1
      have hhascid : dhas sec cid = true := by simp [dhas, hconf]
      refine ⟨p', sec', ?_, hsec', ?_, ?_, ?_, ?_, ?_⟩
      · rw [List.foldlM_cons, h1, except_ok_bind]
        exact hfold
      · rw [hkp, dkeys_dset, if_pos (by simp [dhas, hsec])]
      · rw [hks, dkeys_dset, if_pos hhascid]
      · intro s hs
        rw [houtp s hs, dget_dset_ne _ _ (fun he => hs he.symm)]
      · intro c hc
        have hc1 : c ∉ rest := fun h => hc (by simp [h])
        have hc2 : cid ≠ c := fun h => hc (by simp [h])
        rw [houts c hc1, dget_dset_ne _ _ hc2]
      · intro c hc cc cc' hcc hsub2
        rcases List.mem_cons.mp hc with rfl | hc2
        · have he1 : cc = conf := by
            rw [hconf] at hcc
            exact (PyVal.vdict.inj (Option.some.inj hcc)).symm
          subst he1
          have he2 : cc' = conf' := by
            rw [hsub] at hsub2
            exact Except.ok.inj hsub2.symm
          subst he2
          rw [houts c hnd.1, dget_dset_self]
        · have hmove : dget (dset sec cid (.vdict conf')) c =
              some (.vdict cc) := by
            rw [dget_dset_ne _ _ (fun he => hnd.1 (by rw [he]; exact hc2))]
            exact hcc
          exact hent c hc2 cc cc' hmove hsub2

end Pycnfg

namespace Pycnfg

theorem resolveSectionStep_char (p : PyDict) (sid : String) (sec : PyDict)
    (hsec : dget p sid = some (.vdict sec))
    (hnd : ((dkeys sec).filter (fun s => s != "global")).Nodup)
    (hconfs : ∀ cid ∈ (dkeys sec).filter (fun s => s != "global"),
      ∃ conf conf', dget sec cid = some (.vdict conf) ∧
        Handler.substitute_global conf = .ok conf') :
    ∃ p' sec', resolveSectionStep false p sid = .ok p' ∧
      dget p' sid = some (.vdict sec') ∧
      dkeys p' = dkeys p ∧
      dkeys sec' = dkeys sec ∧
      (∀ s, s ≠ sid → dget p' s = dget p s) ∧
      (∀ c, c ∉ (dkeys sec).filter (fun s => s != "global") →
        dget sec' c = dget sec c) ∧
      (∀ cid ∈ (dkeys sec).filter (fun s => s != "global"), ∀ conf conf',
        dget sec cid = some (.vdict conf) →
        Handler.substitute_global conf = .ok conf' →
        dget sec' cid = some (.vdict conf')) := by
  obtain ⟨p', sec', hfold, hsec', hkp, hks, houtp, houts, hent⟩ :=
    resolveConfs_fold sid ((dkeys sec).filter (fun s => s != "global")) p sec
      hnd hsec hconfs
  refine ⟨p', sec', ?_, hsec', hkp, hks, houtp, houts, hent⟩
  unfold resolveSectionStep
  simp only [hsec, pure_bind, except_ok_bind]
  exact hfold

theorem resolveSections_fold (q : PyDict) :
    ∀ (sids : List String) (p : PyDict),
      sids.Nodup →
      (∀ sid ∈ sids, dget p sid = dget q sid) →
      (∀ sid ∈ sids, ∃ sec, dget q sid = some (.vdict sec) ∧
        ((dkeys sec).filter (fun s => s != "global")).Nodup ∧
        ∀ cid ∈ (dkeys sec).filter (fun s => s != "global"),
          ∃ conf conf', dget sec cid = some (.vdict conf) ∧
            Handler.substitute_global conf = .ok conf') →
      ∃ p', sids.foldlM (resolveSectionStep false) p = .ok p' ∧
        (∀ s, s ∉ sids → dget p' s = dget p s) ∧
        (∀ sid ∈ sids, ∀ sec, dget q sid = some (.vdict sec) →
          ∃ sec', dget p' sid = some (.vdict sec') ∧
            dkeys sec' = dkeys sec ∧
            (∀ c, c ∉ (dkeys sec).filter (fun s => s != "global") →
              dget sec' c = dget sec c) ∧
            ∀ cid ∈ (dkeys sec).filter (fun s => s != "global"),
              ∀ conf conf', dget sec cid = some (.vdict conf) →
                Handler.substitute_global conf = .ok conf' →
                dget sec' cid = some (.vdict conf')) := by
  intro sids
  induction sids with
  | nil =>
      intro p _ _ _
      exact ⟨p, rfl, fun _ _ => rfl, by simp⟩
  | cons sid rest ih =>
      intro p hnd hpq hsh
      simp only [List.nodup_cons] at hnd
      obtain ⟨sec, hqsec, hndc, hconfs⟩ := hsh sid (by simp)
      have hpsec : dget p sid = some (.vdict sec) := by
        rw [hpq sid (by simp)]
        exact hqsec
      obtain ⟨p1, sec', hstep, hsec', hkp1, hks1, houtp1, houts1, hent1⟩ :=
        resolveSectionStep_char p sid sec hpsec hndc hconfs
      have hpq1 : ∀ s ∈ rest, dget p1 s = dget q s := by
        intro s hs
        rw [houtp1 s (fun he => hnd.1 (by rw [← he]; exact hs)),
          hpq s (by simp [hs])]
      obtain ⟨p', hfold, hout, hent⟩ := ih p1 hnd.2 hpq1
        (fun s hs => hsh s (by simp [hs]))
      refine ⟨p', ?_, ?_, ?_⟩
      · rw [List.foldlM_cons, hstep, except_ok_bind]
        exact hfold
      · intro s hs
        rw [hout s (fun h => hs (by simp [h])),
          houtp1 s (fun he => hs (by simp [he]))]
      · intro s hs sec0 hsec0
        rcases List.mem_cons.mp hs with rfl | hs2
        · have he1 : sec0 = sec := by
            rw [hqsec] at hsec0
            exact (PyVal.vdict.inj (Option.some.inj hsec0)).symm
          subst he1
          refine ⟨sec', ?_, hks1, houts1, hent1⟩
          rw [hout s hnd.1]
          exact hsec'
        · exact hent s hs2 sec0 hsec0

end Pycnfg

namespace Pycnfg

theorem dkeys_dupdate_nodup (o : PyDict) :
    ∀ d : PyDict, (dkeys d).Nodup → (dkeys (dupdate d o)).Nodup := by
  induction o with
  | nil => intro d hd; exact hd
  | cons kv rest ih =>
      intro d hd
      show (dkeys (dupdate (dset d kv.1 kv.2) rest)).Nodup
      apply ih
      rw [dkeys_dset]
      by_cases h : dhas d kv.1 = true
      · rw [if_pos h]
        exact hd
      · rw [if_neg h]
        rw [List.nodup_append]
        refine ⟨hd, by simp, ?_⟩
        intro a ha hb
        simp only [List.mem_singleton] at hb
        subst hb
        exact absurd ((mem_dkeys_iff_dhas d kv.1).mp ha) (by simp [h])

theorem dget_dupdate_left (d o : PyDict) (k : String)
    (hnd : (dkeys o).Nodup) (h : dget o k = none) :
    dget (dupdate d o) k = dget d k := by
  rw [dget_dupdate d o k hnd, h]

theorem dget_dupdate_right (d o : PyDict) (k : String) (v : PyVal)
    (hnd : (dkeys o).Nodup) (h : dget o k = some v) :
    dget (dupdate d o) k = some v := by
  rw [dget_dupdate d o k hnd, h]

end Pycnfg

namespace Pycnfg

theorem section_copy_global_char (sec g glob : PyDict)
    (hsnd : (dkeys sec).Nodup)
    (hgsec : dget sec "global" = some (.vdict g))
    (hnrs : ∀ k ∈ dkeys g ++ dkeys glob,
      (dkeys sec).contains (firstSeg k) = false)
    (hconfs : ∀ cid ∈ (dkeys sec).filter (fun s => s != "global"),
      ∃ conf gc, dget sec cid = some (.vdict conf) ∧
        dget conf "global" = some (.vdict gc)) :
    ∃ sec2, Handler.copy_global (dset sec "global"
        (.vdict (dupdate g glob))) = .ok sec2 ∧
      dkeys sec2 = (dkeys sec).erase "global" ∧
      ∀ cid ∈ (dkeys sec).filter (fun s => s != "global"),
        ∀ conf gc, dget sec cid = some (.vdict conf) →
          dget conf "global" = some (.vdict gc) →
          dget sec2 cid = some (.vdict (dset conf "global"
            (.vdict (dupdate gc (dupdate g glob))))) := by
  have hkeq : dkeys (dset sec "global" (.vdict (dupdate g glob))) =
      dkeys sec := by
    rw [dkeys_dset, if_pos (by simp [dhas, hgsec])]
  have hceq : ∀ c, c ≠ "global" →
      dget (dset sec "global" (.vdict (dupdate g glob))) c = dget sec c := by
    intro c hc
    rw [dget_dset_ne _ _ (fun he => hc he.symm)]
  obtain ⟨sec2, hcg, hks, _, hent⟩ := copy_global_plain
    (dset sec "global" (.vdict (dupdate g glob))) (dupdate g glob)
    (dget_dset_self _ _ _)
    (fun kv hkv => by
      rw [hkeq]
      have hmemk : kv.1 ∈ dkeys (dupdate g glob) :=
        List.mem_map_of_mem (fun x => x.1) hkv
      have hh : dhas (dupdate g glob) kv.1 = true :=
        (mem_dkeys_iff_dhas _ _).mp hmemk
      rw [dhas_dupdate] at hh
      rcases Bool.or_eq_true _ _ |>.mp hh with h | h
      · exact hnrs kv.1 (List.mem_append.mpr
          (Or.inl ((mem_dkeys_iff_dhas _ _).mpr h)))
      · exact hnrs kv.1 (List.mem_append.mpr
          (Or.inr ((mem_dkeys_iff_dhas _ _).mpr h))))
    (by rw [hkeq]; exact hsnd.filter _)
    (fun c hc => by
      rw [hkeq] at hc
      obtain ⟨conf, gc, hconf, hgc⟩ := hconfs c hc
      have hcne : c ≠ "global" := by
        have := (List.mem_filter.mp hc).2
        simpa using this
      exact ⟨conf, gc, by rw [hceq c hcne]; exact hconf, hgc⟩)
  refine ⟨sec2, hcg, by rw [hks, hkeq], ?_⟩
  intro cid hcid conf gc hconf hgc
  have hcne : cid ≠ "global" := by
    have := (List.mem_filter.mp hcid).2
    simpa using this
  have hcid1 : cid ∈ (dkeys (dset sec "global"
      (.vdict (dupdate g glob)))).filter (fun s => s != "global") := by
    rw [hkeq]
    exact hcid
  exact hent cid hcid1 conf gc (by rw [hceq cid hcne]; exact hconf) hgc

end Pycnfg

namespace Pycnfg

theorem resolve_plain_char (p glob : PyDict)
    (hnd : (dkeys p).Nodup)
    (hg : dget p "global" = some (.vdict glob))
    (hnr : ∀ kv ∈ glob, (dkeys p).contains (firstSeg kv.1) = false)
    (hsh : ∀ sid ∈ (dkeys p).filter (fun s => s != "global"),
      ∃ sec g, dget p sid = some (.vdict sec) ∧
        (dkeys sec).Nodup ∧
        dget sec "global" = some (.vdict g) ∧
        (∀ k ∈ dkeys g ++ dkeys glob,
          (dkeys sec).contains (firstSeg k) = false) ∧
        ∀ cid ∈ (dkeys sec).filter (fun s => s != "global"),
          ∃ conf gc steps, dget sec cid = some (.vdict conf) ∧
            (∀ k ∈ dkeys conf, structuralKeys.contains k = true) ∧
            dget conf "global" = some (.vdict gc) ∧
            dget conf "steps" = some (.vlist steps) ∧
            ∀ step ∈ steps, ∃ s0 kw rest,
              stepElems step = some (s0 :: .vdict kw :: rest) ∧
              ∀ gk ∈ dkeys gc ++ (dkeys g ++ dkeys glob), ∀ a ∈ dkeys kw,
                (gk == strVal s0 ++ "__" ++ a) = false) :
    ∃ p', Handler.resolve p false = .ok p' ∧
      ∀ sid ∈ (dkeys p).filter (fun s => s != "global"),
        ∀ sec g, dget p sid = some (.vdict sec) →
          dget sec "global" = some (.vdict g) →
          ∃ sec', dget p' sid = some (.vdict sec') ∧
            ∀ cid ∈ (dkeys sec).filter (fun s => s != "global"),
              ∀ conf gc steps, dget sec cid = some (.vdict conf) →
                dget conf "global" = some (.vdict gc) →
                dget conf "steps" = some (.vlist steps) →
                ∃ conf', dget sec' cid = some (.vdict conf') ∧
                  dget conf' "global" =
                    some (.vdict (dupdate gc (dupdate g glob))) ∧
                  dget conf' "steps" = some (.vlist
                    (steps.map
                      (stepKwOverwrite (dupdate gc (dupdate g glob))))) := by
  have hA : absorbAll p = .ok p := by
    apply absorbAll_id
    intro sid hsid
    obtain ⟨sec, g, hsec, _, _, _, hconfs⟩ := hsh sid hsid
    refine ⟨sec, hsec, ?_⟩
    intro cid hcid
    obtain ⟨conf, gc, steps, hconf, hstruct, _, _, _⟩ := hconfs cid hcid
    exact ⟨conf, hconf, hstruct⟩
  have hndf : ((dkeys p).filter (· != "global")).Nodup := hnd.filter _
  obtain ⟨p2, hB, hk2, hout2, hent2⟩ := copy_global_plain p glob hg hnr hndf
    (fun s hs => by
      obtain ⟨sec, g, hsec, _, hgsec, _, _⟩ := hsh s hs
      exact ⟨sec, g, hsec, hgsec⟩)
  have hlist2 : (dkeys p2).filter (fun s => s != "global") =
      (dkeys p).filter (fun s => s != "global") := by
    rw [hk2, filter_erase_self]
  obtain ⟨p3, hC, hk3, hout3, hent3⟩ := section_map_fold Handler.copy_global
    copyGlobalSectionStep (fun _ _ => rfl)
    ((dkeys p2).filter (fun s => s != "global")) p2
    (by rw [hlist2]; exact hndf)
    (fun sid hsid2 => by
      have hsid : sid ∈ (dkeys p).filter (fun s => s != "global") := by
        rw [← hlist2]
        exact hsid2
      obtain ⟨sec, g, hsec, hsnd, hgsec, hnrs, hconfs⟩ := hsh sid hsid
      obtain ⟨sec2, hcg, _, _⟩ := section_copy_global_char sec g glob hsnd
        hgsec hnrs (fun c hc => by
          obtain ⟨conf, gc, steps, hconf, _, hgc, _, _⟩ := hconfs c hc
          exact ⟨conf, gc, hconf, hgc⟩)
      exact ⟨dset sec "global" (.vdict (dupdate g glob)), sec2,
        hent2 sid hsid sec g hsec hgsec, hcg⟩)
  have hlist3 : (dkeys p3).filter (fun s => s != "global") =
      (dkeys p).filter (fun s => s != "global") := by
    rw [hk3]
    exact hlist2
  have hD : checkConfGlobals p3 = .ok () := by
    apply checkConfGlobals_ok
    intro sid hsid3
    have hsid : sid ∈ (dkeys p).filter (fun s => s != "global") := by
      rw [← hlist3]
      exact hsid3
    have hsid2 : sid ∈ (dkeys p2).filter (fun s => s != "global") := by
      rw [hlist2]
      exact hsid
    obtain ⟨sec, g, hsec, hsnd, hgsec, hnrs, hconfs⟩ := hsh sid hsid
    obtain ⟨sec2, hcg, hks2, hentc⟩ := section_copy_global_char sec g glob
      hsnd hgsec hnrs (fun c hc => by
        obtain ⟨conf, gc, steps, hconf, _, hgc, _, _⟩ := hconfs c hc
        exact ⟨conf, gc, hconf, hgc⟩)
    have hp3sid : dget p3 sid = some (.vdict sec2) :=
      hent3 sid hsid2 (dset sec "global" (.vdict (dupdate g glob))) sec2
        (hent2 sid hsid sec g hsec hgsec) hcg
    refine ⟨sec2, hp3sid, ?_⟩
    intro cid hcid
    have hcid0 : cid ∈ (dkeys sec).filter (fun s => s != "global") := by
      rw [← filter_erase_self (dkeys sec) "global", ← hks2]
      exact hcid
    obtain ⟨conf, gc, steps, hconf, _, hgc, _, _⟩ := hconfs cid hcid0
    refine ⟨dset conf "global" (.vdict (dupdate gc (dupdate g glob))),
      hentc cid hcid0 conf gc hconf hgc, ?_⟩
    simp [dhas, dget_dset_self]
  have hE : Handler.resolve_global p = .ok p3 := by
    unfold Handler.resolve_global
    simp only [hA, except_ok_bind, hB, hC, hD, except_pure_eq]
  obtain ⟨p4, hF, hout4, hent4⟩ := resolveSections_fold p3
    ((dkeys p3).filter (fun s => s != "global")) p3
    (by
      rw [hlist3]
      exact hndf)
    (fun _ _ => rfl)
    (fun sid hsid3 => by
      have hsid : sid ∈ (dkeys p).filter (fun s => s != "global") := by
        rw [← hlist3]
        exact hsid3
      have hsid2 : sid ∈ (dkeys p2).filter (fun s => s != "global") := by
        rw [hlist2]
        exact hsid
      obtain ⟨sec, g, hsec, hsnd, hgsec, hnrs, hconfs⟩ := hsh sid hsid
      obtain ⟨sec2, hcg, hks2, hentc⟩ := section_copy_global_char sec g glob
        hsnd hgsec hnrs (fun c hc => by
          obtain ⟨conf, gc, steps, hconf, _, hgc, _, _⟩ := hconfs c hc
          exact ⟨conf, gc, hconf, hgc⟩)
      have hp3sid : dget p3 sid = some (.vdict sec2) :=
        hent3 sid hsid2 (dset sec "global" (.vdict (dupdate g glob))) sec2
          (hent2 sid hsid sec g hsec hgsec) hcg
      have hsecl : (dkeys sec2).filter (fun s => s != "global") =
          (dkeys sec).filter (fun s => s != "global") := by
        rw [hks2, filter_erase_self]
      refine ⟨sec2, hp3sid, by rw [hsecl]; exact hsnd.filter _, ?_⟩
      intro cid hcid
      have hcid0 : cid ∈ (dkeys sec).filter (fun s => s != "global") := by
        rw [← hsecl]
        exact hcid
      obtain ⟨conf, gc, steps, hconf, _, hgc, hsteps, hstepsh⟩ :=
        hconfs cid hcid0
      have hc4 : dget sec2 cid = some (.vdict (dset conf "global"
          (.vdict (dupdate gc (dupdate g glob))))) :=
        hentc cid hcid0 conf gc hconf hgc
      have hsub := substitute_global_plain
        (dset conf "global" (.vdict (dupdate gc (dupdate g glob))))
        (dupdate gc (dupdate g glob)) steps
        (dget_dset_self _ _ _)
        (by
          rw [dget_dset_ne _ _ (by decide)]
          exact hsteps)
        (fun step hstep => by
          obtain ⟨s0, kw, rest, hx, hnp⟩ := hstepsh step hstep
          refine ⟨s0, kw, rest, hx, ?_⟩
          intro gk hgk a ha
          have hmemk : gk.1 ∈ dkeys (dupdate gc (dupdate g glob)) :=
            List.mem_map_of_mem (fun x => x.1) hgk
          have hh : dhas (dupdate gc (dupdate g glob)) gk.1 = true :=
            (mem_dkeys_iff_dhas _ _).mp hmemk
          rw [dhas_dupdate, dhas_dupdate] at hh
          have hmem2 : gk.1 ∈ dkeys gc ++ (dkeys g ++ dkeys glob) := by
            rcases Bool.or_eq_true _ _ |>.mp hh with h | h
            · exact List.mem_append.mpr
                (Or.inl ((mem_dkeys_iff_dhas _ _).mpr h))
            · rcases Bool.or_eq_true _ _ |>.mp h with h2 | h2
              · exact List.mem_append.mpr (Or.inr (List.mem_append.mpr
                  (Or.inl ((mem_dkeys_iff_dhas _ _).mpr h2))))
              · exact List.mem_append.mpr (Or.inr (List.mem_append.mpr
                  (Or.inr ((mem_dkeys_iff_dhas _ _).mpr h2))))
          exact hnp gk.1 hmem2 a ha)
      exact ⟨dset conf "global" (.vdict (dupdate gc (dupdate g glob))), _,
        hc4, hsub⟩)
  have hRes : Handler.resolve p false = .ok p4 := by
    unfold Handler.resolve
    simp only [hE, except_ok_bind, hF]
  refine ⟨p4, hRes, ?_⟩
  intro sid hsid sec0 g0 hsec0 hgsec0
  have hsid2 : sid ∈ (dkeys p2).filter (fun s => s != "global") := by
    rw [hlist2]
    exact hsid
  have hsid3 : sid ∈ (dkeys p3).filter (fun s => s != "global") := by
    rw [hlist3]
    exact hsid
  obtain ⟨sec, g, hsec, hsnd, hgsec, hnrs, hconfs⟩ := hsh sid hsid
  have hseq : sec0 = sec := by
    rw [hsec] at hsec0
    exact (PyVal.vdict.inj (Option.some.inj hsec0)).symm
  subst hseq
  have hgeq : g0 = g := by
    rw [hgsec] at hgsec0
    exact (PyVal.vdict.inj (Option.some.inj hgsec0)).symm
  subst hgeq
  obtain ⟨sec2, hcg, hks2, hentc⟩ := section_copy_global_char sec0 g0 glob
    hsnd hgsec hnrs (fun c hc => by
      obtain ⟨conf, gc, steps, hconf, _, hgc, _, _⟩ := hconfs c hc
      exact ⟨conf, gc, hconf, hgc⟩)
  have hp3sid : dget p3 sid = some (.vdict sec2) :=
    hent3 sid hsid2 (dset sec0 "global" (.vdict (dupdate g0 glob))) sec2
      (hent2 sid hsid sec0 g0 hsec hgsec) hcg
  obtain ⟨sec4, hp4sid, _, _, hent4c⟩ := hent4 sid hsid3 sec2 hp3sid
  refine ⟨sec4, hp4sid, ?_⟩
  intro cid hcid conf0 gc0 steps0 hconf0 hgc0 hsteps0
  obtain ⟨conf, gc, steps, hconf, _, hgc, hsteps, hstepsh⟩ := hconfs cid hcid
  have hceq : conf0 = conf := by
    rw [hconf] at hconf0
    exact (PyVal.vdict.inj (Option.some.inj hconf0)).symm
  subst hceq
  have hgceq : gc0 = gc := by
    rw [hgc] at hgc0
    exact (PyVal.vdict.inj (Option.some.inj hgc0)).symm
  subst hgceq
  have hsteq : steps0 = steps := by
    rw [hsteps] at hsteps0
    exact (PyVal.vlist.inj (Option.some.inj hsteps0)).symm
  subst hsteq
  have hsecl : (dkeys sec2).filter (fun s => s != "global") =
      (dkeys sec0).filter (fun s => s != "global") := by
    rw [hks2, filter_erase_self]
  have hcid2 : cid ∈ (dkeys sec2).filter (fun s => s != "global") := by
    rw [hsecl]
    exact hcid
  have hc4 : dget sec2 cid = some (.vdict (dset conf0 "global"
      (.vdict (dupdate gc0 (dupdate g0 glob))))) :=
    hentc cid hcid conf0 gc0 hconf hgc
  have hsub := substitute_global_plain
    (dset conf0 "global" (.vdict (dupdate gc0 (dupdate g0 glob))))
    (dupdate gc0 (dupdate g0 glob)) steps0
    (dget_dset_self _ _ _)
    (by
      rw [dget_dset_ne _ _ (by decide)]
      exact hsteps)
    (fun step hstep => by
      obtain ⟨s0, kw, rest, hx, hnp⟩ := hstepsh step hstep
      refine ⟨s0, kw, rest, hx, ?_⟩
      intro gk hgk a ha
      have hmemk : gk.1 ∈ dkeys (dupdate gc0 (dupdate g0 glob)) :=
        List.mem_map_of_mem (fun x => x.1) hgk
      have hh : dhas (dupdate gc0 (dupdate g0 glob)) gk.1 = true :=
        (mem_dkeys_iff_dhas _ _).mp hmemk
      rw [dhas_dupdate, dhas_dupdate] at hh
      have hmem2 : gk.1 ∈ dkeys gc0 ++ (dkeys g0 ++ dkeys glob) := by
        rcases Bool.or_eq_true _ _ |>.mp hh with h | h
        · exact List.mem_append.mpr
            (Or.inl ((mem_dkeys_iff_dhas _ _).mpr h))
        · rcases Bool.or_eq_true _ _ |>.mp h with h2 | h2
          · exact List.mem_append.mpr (Or.inr (List.mem_append.mpr
              (Or.inl ((mem_dkeys_iff_dhas _ _).mpr h2))))
          · exact List.mem_append.mpr (Or.inr (List.mem_append.mpr
              (Or.inr ((mem_dkeys_iff_dhas _ _).mpr h2))))
      exact hnp gk.1 hmem2 a ha)
  have hfinal := hent4c cid hcid2
    (dset conf0 "global" (.vdict (dupdate gc0 (dupdate g0 glob))))
    (dset (dset conf0 "global" (.vdict (dupdate gc0 (dupdate g0 glob))))
      "steps" (.vlist (steps0.map
        (stepKwOverwrite (dupdate gc0 (dupdate g0 glob))))))
    hc4 hsub
  refine ⟨_, hfinal, ?_, ?_⟩
  · rw [dget_dset_ne _ _ (by decide), dget_dset_self]
  · rw [dget_dset_self]

end Pycnfg

namespace Pycnfg

/-- A step shaped for substitution whose kwarg names can never be matched by
a `stepId + "__" + name` pattern for any of the given global keys. -/
def stepPlain (gAllKeys : List String) (step : PyVal) : Bool :=
  match stepElems step with
  | some (s0 :: .vdict kw :: _) =>
      gAllKeys.all (fun gk => (dkeys kw).all
        (fun a => gk != strVal s0 ++ "__" ++ a))
  | _ => false

/-- A sub-configuration with only structural keys, a `global` dict with
unique keys and a `steps` list of plain steps. -/
def confPlain (outerKeys : List String) (cv : PyVal) : Bool :=
  match cv with
  | .vdict conf =>
      (dkeys conf).all (fun k => structuralKeys.contains k) &&
      (match dget conf "global", dget conf "steps" with
       | some (.vdict gc), some (.vlist steps) =>
          decide ((dkeys gc).Nodup) &&
          steps.all (stepPlain (dkeys gc ++ outerKeys))
       | _, _ => false)
  | _ => false

/-- A section whose `global` keys (and the tree-level ones) never route into
a child and whose sub-configurations are plain. -/
def sectionPlain (globKeys : List String) (sv : PyVal) : Bool :=
  match sv with
  | .vdict sec =>
      decide ((dkeys sec).Nodup) &&
      (match dget sec "global" with
       | some (.vdict g) =>
          decide ((dkeys g).Nodup) &&
          (dkeys g ++ globKeys).all
            (fun k => !(dkeys sec).contains (firstSeg k)) &&
          sec.all (fun ce => ce.1 == "global" ||
            confPlain (dkeys g ++ globKeys) ce.2)
       | _ => false)
  | _ => false

/-- A tree whose global keys are plain broadcast keys (no routing into named
children at any level, no step-prefixed matches). -/
def plainTree (p : PyDict) : Bool :=
  decide ((dkeys p).Nodup) &&
  (match dget p "global" with
   | some (.vdict glob) =>
      decide ((dkeys glob).Nodup) &&
      glob.all (fun kv => !(dkeys p).contains (firstSeg kv.1)) &&
      p.all (fun se => se.1 == "global" || sectionPlain (dkeys glob) se.2)
   | _ => false)

theorem stepPlain_elim (gAllKeys : List String) (step : PyVal)
    (h : stepPlain gAllKeys step = true) :
    ∃ s0 kw rest, stepElems step = some (s0 :: .vdict kw :: rest) ∧
      ∀ gk ∈ gAllKeys, ∀ a ∈ dkeys kw,
        (gk == strVal s0 ++ "__" ++ a) = false := by
  unfold stepPlain at h
  rcases hx : stepElems step with _ | xs <;> rw [hx] at h
  · simp at h
  rcases xs with _ | ⟨s0, xs⟩
  · simp at h
  rcases xs with _ | ⟨x1, rest⟩
  · simp at h
  rcases x1 with _ | _ | _ | _ | _ | _ | kw | _ <;> simp at h
  refine ⟨s0, kw, rest, rfl, ?_⟩
  intro gk hgk a ha
  have := h gk hgk a ha
  simpa using this

theorem confPlain_elim (outerKeys : List String) (cv : PyVal)
    (h : confPlain outerKeys cv = true) :
    ∃ conf gc steps, cv = .vdict conf ∧
      (∀ k ∈ dkeys conf, structuralKeys.contains k = true) ∧
      dget conf "global" = some (.vdict gc) ∧
      (dkeys gc).Nodup ∧
      dget conf "steps" = some (.vlist steps) ∧
      ∀ step ∈ steps, stepPlain (dkeys gc ++ outerKeys) step = true := by
  rcases cv with _ | _ | _ | _ | _ | _ | conf | _ <;>
    simp only [confPlain, Bool.false_eq_true] at h <;>
    try exact h.elim
  rw [Bool.and_eq_true] at h
  obtain ⟨hstruct, h⟩ := h
  rcases hgc : dget conf "global" with _ | gv <;> rw [hgc] at h
  · simp at h
  rcases hst : dget conf "steps" with _ | sv <;> rw [hst] at h
  · rcases gv with _ | _ | _ | _ | _ | _ | gc | _ <;> simp at h
  rcases gv with _ | _ | _ | _ | _ | _ | gc | _ <;>
    rcases sv with _ | _ | _ | _ | steps | _ | _ | _ <;> simp at h
  exact ⟨conf, gc, steps, rfl, by simpa using hstruct, hgc, h.1,
    hst, fun step hs => h.2 step hs⟩

theorem sectionPlain_elim (globKeys : List String) (sv : PyVal)
    (h : sectionPlain globKeys sv = true) :
    ∃ sec g, sv = .vdict sec ∧
      (dkeys sec).Nodup ∧
      dget sec "global" = some (.vdict g) ∧
      (dkeys g).Nodup ∧
      (∀ k ∈ dkeys g ++ globKeys,
        (dkeys sec).contains (firstSeg k) = false) ∧
      ∀ ce ∈ sec, ce.1 ≠ "global" →
        confPlain (dkeys g ++ globKeys) ce.2 = true := by
  rcases sv with _ | _ | _ | _ | _ | _ | sec | _ <;>
    simp only [sectionPlain, Bool.false_eq_true] at h <;>
    try exact h.elim
  rw [Bool.and_eq_true] at h
  obtain ⟨hsnd, h⟩ := h
  rcases hgsec : dget sec "global" with _ | gv <;> rw [hgsec] at h
  · simp at h
  rcases gv with _ | _ | _ | _ | _ | _ | g | _ <;> simp at h
  obtain ⟨h1, hall⟩ := h
  refine ⟨sec, g, rfl, of_decide_eq_true hsnd, hgsec, h1.1, ?_, ?_⟩
  · intro k hk
    rcases List.mem_append.mp hk with h2 | h2
    · have := h1.2.1 k h2
      simpa using this
    · have := h1.2.2 k h2
      simpa using this
  · intro ce hce hcg
    rcases hall ce.1 ce.2 hce with h2 | h2
    · exact absurd h2 hcg
    · exact h2

theorem plainTree_parts (p glob : PyDict) (hpt : plainTree p = true)
    (hg : dget p "global" = some (.vdict glob)) :
    (dkeys p).Nodup ∧ (dkeys glob).Nodup ∧
    (∀ kv ∈ glob, (dkeys p).contains (firstSeg kv.1) = false) ∧
    ∀ se ∈ p, se.1 ≠ "global" → sectionPlain (dkeys glob) se.2 = true := by
  unfold plainTree at hpt
  rw [Bool.and_eq_true] at hpt
  obtain ⟨hnd, hpt⟩ := hpt
  rw [hg] at hpt
  simp only [Bool.and_eq_true, List.all_eq_true] at hpt
  obtain ⟨⟨hgnd, hnr⟩, hall⟩ := hpt
  refine ⟨of_decide_eq_true hnd, of_decide_eq_true hgnd, ?_, ?_⟩
  · intro kv hkv
    have := hnr kv hkv
    simpa using this
  · intro se hse hseg
    have := hall se hse
    rw [Bool.or_eq_true] at this
    rcases this with h1 | h1
    · exact absurd (by simpa using h1) hseg
    · exact h1

end Pycnfg

namespace Pycnfg

theorem plainTree_hsh (p glob : PyDict) (hpt : plainTree p = true)
    (hg : dget p "global" = some (.vdict glob)) :
    ∀ sid ∈ (dkeys p).filter (fun s => s != "global"),
      ∃ sec g, dget p sid = some (.vdict sec) ∧
        (dkeys sec).Nodup ∧
        dget sec "global" = some (.vdict g) ∧
        (dkeys g).Nodup ∧
        (∀ k ∈ dkeys g ++ dkeys glob,
          (dkeys sec).contains (firstSeg k) = false) ∧
        ∀ cid ∈ (dkeys sec).filter (fun s => s != "global"),
          ∃ conf gc steps, dget sec cid = some (.vdict conf) ∧
            (∀ k ∈ dkeys conf, structuralKeys.contains k = true) ∧
            dget conf "global" = some (.vdict gc) ∧
            (dkeys gc).Nodup ∧
            dget conf "steps" = some (.vlist steps) ∧
            ∀ step ∈ steps, ∃ s0 kw rest,
              stepElems step = some (s0 :: .vdict kw :: rest) ∧
              ∀ gk ∈ dkeys gc ++ (dkeys g ++ dkeys glob), ∀ a ∈ dkeys kw,
                (gk == strVal s0 ++ "__" ++ a) = false := by
  obtain ⟨_, _, _, hsecs⟩ := plainTree_parts p glob hpt hg
  intro sid hsid
  obtain ⟨hmem, hne⟩ := List.mem_filter.mp hsid
  have hneq : sid ≠ "global" := by simpa using hne
  obtain ⟨sv, hsv⟩ := Option.isSome_iff_exists.mp
    (show (dget p sid).isSome = true from (mem_dkeys_iff_dhas p sid).mp hmem)
  have hsp := hsecs (sid, sv) (dget_mem _ _ _ hsv) hneq
  obtain ⟨sec, g, hsveq, hsnd, hgsec, hgnd, hnrs, hconfs⟩ :=
    sectionPlain_elim _ sv hsp
  subst hsveq
  refine ⟨sec, g, hsv, hsnd, hgsec, hgnd, hnrs, ?_⟩
  intro cid hcid
  obtain ⟨hmemc, hnec⟩ := List.mem_filter.mp hcid
  have hneqc : cid ≠ "global" := by simpa using hnec
  obtain ⟨cv, hcv⟩ := Option.isSome_iff_exists.mp
    (show (dget sec cid).isSome = true from
      (mem_dkeys_iff_dhas sec cid).mp hmemc)
  have hcp := hconfs (cid, cv) (dget_mem _ _ _ hcv) hneqc
  obtain ⟨conf, gc, steps, hcveq, hstruct, hgc, hgcnd, hsteps, hstepall⟩ :=
    confPlain_elim _ cv hcp
  subst hcveq
  refine ⟨conf, gc, steps, hcv, hstruct, hgc, hgcnd, hsteps, ?_⟩
  intro step hstep
  obtain ⟨s0, kw, rest, hx, hnp⟩ := stepPlain_elim _ step
    (hstepall step hstep)
  exact ⟨s0, kw, rest, hx, fun gk hgk a ha => hnp gk hgk a ha⟩

/-- C2 (amended).  For every plain-keyed tree carrying a tree-level global
entry `{key: v}`, resolution distributes `v` to every sub-configuration and
overwrites every step kwarg named exactly `key` with `v` — even when the
step supplied an explicit non-None literal for it.  (A kwarg literally named
`stepMethod__key` is not touched by the plain key; see the
counterexample.) -/
theorem global_plain_key_overwrites (p glob : PyDict) (key : String)
    (v : PyVal) (hpt : plainTree p = true)
    (hg : dget p "global" = some (.vdict glob))
    (hkv : dget glob key = some v) :
    ∃ p', Handler.resolve p false = Except.ok p' ∧
      ∀ sid ∈ (dkeys p).filter (fun s => s != "global"),
        ∀ sec, dget p sid = some (.vdict sec) →
        ∀ cid ∈ (dkeys sec).filter (fun s => s != "global"),
          ∀ conf steps, dget sec cid = some (.vdict conf) →
            dget conf "steps" = some (.vlist steps) →
            ∀ i step s0 kw rest, steps.get? i = some step →
              stepElems step = some (s0 :: .vdict kw :: rest) →
              dhas kw key = true →
              ∃ sec' conf' steps' kw',
                dget p' sid = some (.vdict sec') ∧
                dget sec' cid = some (.vdict conf') ∧
                dget conf' "steps" = some (.vlist steps') ∧
                steps'.get? i = some (setStepKwargs step kw') ∧
                dhas kw' key = true ∧
                dget kw' key = some v := by
  obtain ⟨hnd, hgnd, hnr, _⟩ := plainTree_parts p glob hpt hg
  have hsh := plainTree_hsh p glob hpt hg
  obtain ⟨p', hres, hout⟩ := resolve_plain_char p glob hnd hg hnr
    (fun sid hs => by
      obtain ⟨sec, g, h1, h2, h3, _, h5, h6⟩ := hsh sid hs
      refine ⟨sec, g, h1, h2, h3, h5, ?_⟩
      intro cid hc
      obtain ⟨conf, gc, steps, c1, c2, c3, _, c5, c6⟩ := h6 cid hc
      exact ⟨conf, gc, steps, c1, c2, c3, c5, c6⟩)
  refine ⟨p', hres, ?_⟩
  intro sid hsid sec0 hsec0 cid hcid conf0 steps0 hconf0 hsteps0 i step s0
    kw rest hi hx hkw
  obtain ⟨sec, g, hsec, hsnd, hgsec, hgnd1, _, hconfs⟩ := hsh sid hsid
  have hseq : sec0 = sec := by
    rw [hsec] at hsec0
    exact (PyVal.vdict.inj (Option.some.inj hsec0)).symm
  subst hseq
  obtain ⟨conf, gc, steps, hconf, _, hgc, hgcnd, hsteps, _⟩ :=
    hconfs cid hcid
  have hceq : conf0 = conf := by
    rw [hconf] at hconf0
    exact (PyVal.vdict.inj (Option.some.inj hconf0)).symm
  subst hceq
  have hsteq : steps0 = steps := by
    rw [hsteps] at hsteps0
    exact (PyVal.vlist.inj (Option.some.inj hsteps0)).symm
  subst hsteq
  obtain ⟨sec', hsec', hcids⟩ := hout sid hsid sec0 g hsec0 hgsec
  obtain ⟨conf', hconf', _, hsteps'⟩ :=
    hcids cid hcid conf0 gc steps0 hconf0 hgc hsteps0
  have hXnd : (dkeys (dupdate g glob)).Nodup := dkeys_dupdate_nodup glob g hgnd1
  have hgAllNodup : (dkeys (dupdate gc (dupdate g glob))).Nodup :=
    dkeys_dupdate_nodup (dupdate g glob) gc hgcnd
  have hkey1 : dget (dupdate g glob) key = some v :=
    dget_dupdate_right g glob key v hgnd hkv
  have hkey2 : dget (dupdate gc (dupdate g glob)) key = some v :=
    dget_dupdate_right gc (dupdate g glob) key v hXnd hkey1
  have hkwv : dget (globOverwrite kw (dupdate gc (dupdate g glob))) key =
      some v :=
    dget_globOverwrite_mem (dupdate gc (dupdate g glob)) key v hgAllNodup
      (dget_mem _ _ _ hkey2) kw hkw
  refine ⟨sec', conf',
    steps0.map (stepKwOverwrite (dupdate gc (dupdate g glob))),
    globOverwrite kw (dupdate gc (dupdate g glob)),
    hsec', hconf', hsteps', ?_, ?_, hkwv⟩
  · rw [List.get?_map, hi]
    show some (stepKwOverwrite (dupdate gc (dupdate g glob)) step) = _
    rw [stepKwOverwrite_eq (dupdate gc (dupdate g glob)) step s0 kw rest hx]
  · rw [dhas_globOverwrite]
    exact hkw

end Pycnfg

namespace Pycnfg

/-- C10.  Outer global levels take precedence over inner ones: for a
plain-keyed tree whose tree-level global carries `{key: v}`, resolution
rewrites every sub-configuration global entry for `key` to `v` — whatever
value `w` the sub-configuration itself supplied — and every step kwarg named
`key` receives `v`; a key the tree level does not set is likewise pushed
down from the section global over the sub-configuration value. -/
theorem outer_global_precedence (p glob : PyDict) (key : String) (v : PyVal)
    (hpt : plainTree p = true)
    (hg : dget p "global" = some (.vdict glob))
    (hkv : dget glob key = some v) :
    ∃ p', Handler.resolve p false = Except.ok p' ∧
      ∀ sid ∈ (dkeys p).filter (fun s => s != "global"),
        ∀ sec g, dget p sid = some (.vdict sec) →
          dget sec "global" = some (.vdict g) →
        ∀ cid ∈ (dkeys sec).filter (fun s => s != "global"),
          ∀ conf gc, dget sec cid = some (.vdict conf) →
            dget conf "global" = some (.vdict gc) →
            ∃ sec' conf' gc', dget p' sid = some (.vdict sec') ∧
              dget sec' cid = some (.vdict conf') ∧
              dget conf' "global" = some (.vdict gc') ∧
              (∀ w, dget gc key = some w → dget gc' key = some v) ∧
              (∀ key2 v2 w2, dget glob key2 = none → dget g key2 = some v2 →
                dget gc key2 = some w2 → dget gc' key2 = some v2) ∧
              (∀ steps i step s0 kw rest,
                dget conf "steps" = some (.vlist steps) →
                steps.get? i = some step →
                stepElems step = some (s0 :: .vdict kw :: rest) →
                dhas kw key = true →
                ∃ steps' kw', dget conf' "steps" = some (.vlist steps') ∧
                  steps'.get? i = some (setStepKwargs step kw') ∧
                  dget kw' key = some v) := by
  obtain ⟨hnd, hgnd, hnr, _⟩ := plainTree_parts p glob hpt hg
  have hsh := plainTree_hsh p glob hpt hg
  obtain ⟨p', hres, hout⟩ := resolve_plain_char p glob hnd hg hnr
    (fun sid hs => by
      obtain ⟨sec, g, h1, h2, h3, _, h5, h6⟩ := hsh sid hs
      refine ⟨sec, g, h1, h2, h3, h5, ?_⟩
      intro cid hc
      obtain ⟨conf, gc, steps, c1, c2, c3, _, c5, c6⟩ := h6 cid hc
      exact ⟨conf, gc, steps, c1, c2, c3, c5, c6⟩)
  refine ⟨p', hres, ?_⟩
  intro sid hsid sec0 g0 hsec0 hgsec0 cid hcid conf0 gc0 hconf0 hgc0
  obtain ⟨sec, g, hsec, hsnd, hgsec, hgnd1, _, hconfs⟩ := hsh sid hsid
  have hseq : sec0 = sec := by
    rw [hsec] at hsec0
    exact (PyVal.vdict.inj (Option.some.inj hsec0)).symm
  subst hseq
  have hgeq : g0 = g := by
    rw [hgsec] at hgsec0
    exact (PyVal.vdict.inj (Option.some.inj hgsec0)).symm
  subst hgeq
  obtain ⟨conf, gc, steps, hconf, _, hgc, hgcnd, hsteps, _⟩ :=
    hconfs cid hcid
  have hceq : conf0 = conf := by
    rw [hconf] at hconf0
    exact (PyVal.vdict.inj (Option.some.inj hconf0)).symm
  subst hceq
  have hgceq : gc0 = gc := by
    rw [hgc] at hgc0
    exact (PyVal.vdict.inj (Option.some.inj hgc0)).symm
  subst hgceq
  obtain ⟨sec', hsec', hcids⟩ := hout sid hsid sec0 g0 hsec0 hgsec0
  obtain ⟨conf', hconf', hgAll, hsteps'⟩ :=
    hcids cid hcid conf0 gc0 steps hconf0 hgc0 hsteps
  have hXnd : (dkeys (dupdate g0 glob)).Nodup :=
    dkeys_dupdate_nodup glob g0 hgnd1
  have hkey1 : dget (dupdate g0 glob) key = some v :=
    dget_dupdate_right g0 glob key v hgnd hkv
  have hkey2 : dget (dupdate gc0 (dupdate g0 glob)) key = some v :=
    dget_dupdate_right gc0 (dupdate g0 glob) key v hXnd hkey1
  refine ⟨sec', conf', dupdate gc0 (dupdate g0 glob), hsec', hconf', hgAll,
    fun _ _ => hkey2, ?_, ?_⟩
  · intro key2 v2 w2 hnone hsecv _
    have h1 : dget (dupdate g0 glob) key2 = some v2 := by
      rw [dget_dupdate g0 glob key2 hgnd, hnone]
      exact hsecv
    exact dget_dupdate_right gc0 (dupdate g0 glob) key2 v2 hXnd h1
  · intro steps1 i step s0 kw rest hsteps1 hi hx hkw
    have hsteq : steps1 = steps := by
      rw [hsteps] at hsteps1
      exact (PyVal.vlist.inj (Option.some.inj hsteps1)).symm
    subst hsteq
    have hgAllNodup : (dkeys (dupdate gc0 (dupdate g0 glob))).Nodup :=
      dkeys_dupdate_nodup (dupdate g0 glob) gc0 hgcnd
    refine ⟨steps1.map (stepKwOverwrite (dupdate gc0 (dupdate g0 glob))),
      globOverwrite kw (dupdate gc0 (dupdate g0 glob)), hsteps', ?_, ?_⟩
    · rw [List.get?_map, hi]
      show some (stepKwOverwrite (dupdate gc0 (dupdate g0 glob)) step) = _
      rw [stepKwOverwrite_eq (dupdate gc0 (dupdate g0 glob)) step s0 kw rest
        hx]
    · exact dget_globOverwrite_mem (dupdate gc0 (dupdate g0 glob)) key v
        hgAllNodup (dget_mem _ _ _ hkey2) kw hkw

end Pycnfg

namespace Pycnfg

/-- Concrete plain-keyed tree: tree global `alpha`, section global `beta`,
a sub-configuration with its own values for both, and a step whose kwargs
supply an explicit literal for `alpha`. -/
def c2wglob : PyDict := [("alpha", .vint 7)]

def c2wg : PyDict := [("beta", .vint 5)]

def c2wgc : PyDict := [("alpha", .vint 1), ("beta", .vint 2)]

def c2wkw : PyDict := [("alpha", .vstr "lit"), ("beta", .vnone)]

def c2wstep : PyVal := .vtuple [.vstr "fit", .vdict c2wkw]

def c2wconf : PyDict :=
  [("global", .vdict c2wgc), ("steps", .vlist [c2wstep])]

def c2wsec : PyDict :=
  [("global", .vdict c2wg), ("conf", .vdict c2wconf)]

def c2wtree : PyDict :=
  [("global", .vdict c2wglob), ("sec", .vdict c2wsec)]

/-- Witness for the C2 amended theorem: the explicit literal kwarg `alpha`
ends up overwritten with the tree-level global value. -/
theorem global_plain_key_overwrites_witness :
    plainTree c2wtree = true ∧
    dget c2wtree "global" = some (.vdict c2wglob) ∧
    dget c2wglob "alpha" = some (.vint 7) ∧
    ∃ p', Handler.resolve c2wtree false = Except.ok p' ∧
      ∃ sec' conf' steps' kw',
        dget p' "sec" = some (.vdict sec') ∧
        dget sec' "conf" = some (.vdict conf') ∧
        dget conf' "steps" = some (.vlist steps') ∧
        steps'.get? 0 = some (setStepKwargs c2wstep kw') ∧
        dhas kw' "alpha" = true ∧
        dget kw' "alpha" = some (.vint 7) := by
  refine ⟨by decide, by decide, by decide, ?_⟩
  obtain ⟨p', hres, hout⟩ := global_plain_key_overwrites c2wtree c2wglob
    "alpha" (.vint 7) (by decide) (by decide) (by decide)
  exact ⟨p', hres, hout "sec" (by decide) c2wsec (by decide) "conf"
    (by decide) c2wconf [c2wstep] (by decide) (by decide) 0 c2wstep
    (.vstr "fit") c2wkw [] (by decide) (by decide) (by decide)⟩

/-- Witness for C10: the sub-configuration supplied `alpha = 1` in its own
global, yet after resolution its global carries the tree-level `7`, the
section-level `beta = 5` replaces the sub-configuration `beta = 2`, and the
step kwarg named `alpha` receives `7`. -/
theorem outer_global_precedence_witness :
    plainTree c2wtree = true ∧
    dget c2wglob "alpha" = some (.vint 7) ∧
    dget c2wgc "alpha" = some (.vint 1) ∧
    ∃ p', Handler.resolve c2wtree false = Except.ok p' ∧
      ∃ sec' conf' gc',
        dget p' "sec" = some (.vdict sec') ∧
        dget sec' "conf" = some (.vdict conf') ∧
        dget conf' "global" = some (.vdict gc') ∧
        dget gc' "alpha" = some (.vint 7) ∧
        dget gc' "beta" = some (.vint 5) := by
  refine ⟨by decide, by decide, by decide, ?_⟩
  obtain ⟨p', hres, hout⟩ := outer_global_precedence c2wtree c2wglob
    "alpha" (.vint 7) (by decide) (by decide) (by decide)
  obtain ⟨sec', conf', gc', h1, h2, h3, h4, h5, _⟩ := hout "sec" (by decide)
    c2wsec c2wg (by decide) (by decide) "conf" (by decide) c2wconf c2wgc
    (by decide) (by decide)
  exact ⟨p', hres, sec', conf', gc', h1, h2, h3,
    h4 (.vint 1) (by decide),
    h5 "beta" (.vint 5) (.vint 2) (by decide) (by decide) (by decide)⟩

end Pycnfg

namespace Pycnfg

theorem substitute_none_single (p : PyDict) (sid cid key step_id key_id :
    String) (kwargs : PyDict) (cur : PyVal) (c0 : String × PyVal)
    (hcur : dget kwargs key_id = some cur) (hf : falsy cur = true)
    (hsec : dget p key = some (.vdict [c0])) :
    Handler.substitute_none p sid cid key .vnone step_id kwargs key_id =
      .ok (dset kwargs key_id (.vstr (key ++ "__" ++ c0.1))) := by
  unfold Handler.substitute_none
  simp only [hcur, pure_bind, except_ok_bind, hf, eq_self_iff_true, if_true,
    hsec]
  rw [if_neg (by simp)]
  rfl

theorem substitute_none_multi (p : PyDict) (sid cid key step_id key_id :
    String) (kwargs : PyDict) (cur : PyVal) (secK : PyDict)
    (hcur : dget kwargs key_id = some cur) (hf : falsy cur = true)
    (hsec : dget p key = some (.vdict secK)) (hlen : 1 < secK.length) :
    ∃ e, Handler.substitute_none p sid cid key .vnone step_id kwargs key_id =
      .error e ∧ ∃ s, e = "ValueError: Multiple " ++ s := by
  unfold Handler.substitute_none
  simp only [hcur, pure_bind, except_ok_bind, hf, eq_self_iff_true, if_true,
    hsec]
  rw [if_pos (by omega)]
  exact ⟨_, rfl, _, rfl⟩

theorem substitute_none_truthy (p : PyDict) (sid cid key step_id key_id :
    String) (glob_val : PyVal) (kwargs : PyDict) (cur : PyVal)
    (hcur : dget kwargs key_id = some cur) (hf : falsy cur = false) :
    Handler.substitute_none p sid cid key glob_val step_id kwargs key_id =
      .ok kwargs := by
  unfold Handler.substitute_none
  simp only [hcur, pure_bind, except_ok_bind, hf, Bool.false_eq_true,
    if_false]
  rfl

/-- The effect of the `_resolve_none` nonprimitive loop on one step when the
target section has a single sub-configuration `cid0` and no global value is
available: an unset selected kwarg receives the synthesized composite id. -/
def stepNoneResolve (key cid0 : String) (step : PyVal) : PyVal :=
  match stepElems step with
  | some xs =>
      if xs.length ≤ 1 then step
      else
        match xs.get? 1 with
        | some (.vdict kw) =>
            match kwKeyId kw key with
            | none => step
            | some kid =>
                match dget kw kid with
                | some cur =>
                    if falsy cur then
                      setStepKwargs step
                        (dset kw kid (.vstr (key ++ "__" ++ cid0)))
                    else step
                | none => step
        | _ => step
  | none => step

end Pycnfg

namespace Pycnfg

theorem setStepKwargs_same (step s0 : PyVal) (kw : PyDict)
    (rest : List PyVal)
    (hx : stepElems step = some (s0 :: .vdict kw :: rest)) :
    setStepKwargs step kw = step := by
  rcases step with _ | _ | _ | _ | xs | xs | _ | _ <;> simp [stepElems] at hx
  · subst hx
    rfl
  · subst hx
    rfl

theorem kwKeyId_dhas (kw : PyDict) (key kid : String)
    (h : kwKeyId kw key = some kid) : dhas kw kid = true := by
  unfold kwKeyId at h
  by_cases h1 : dhas kw key = true
  · rw [if_pos h1] at h
    rw [← Option.some.inj h]
    exact h1
  · rw [if_neg h1] at h
    by_cases h2 : dhas kw (key ++ "_id") = true
    · rw [if_pos h2] at h
      rw [← Option.some.inj h]
      exact h2
    · rw [if_neg h2] at h
      exact absurd h (by simp)

theorem list_two_shape {α : Type} (xs : List α) (y : α)
    (hlen : ¬ xs.length ≤ 1) (hy : xs.get? 1 = some y) :
    ∃ x0 rest, xs = x0 :: y :: rest := by
  rcases xs with _ | ⟨x0, xs⟩
  · simp at hlen
  rcases xs with _ | ⟨x1, rest⟩
  · simp at hlen
  have : x1 = y := Option.some.inj (by simpa using hy)
  subst this
  exact ⟨x0, rest, rfl⟩

theorem resolveNoneStepSub_single (p : PyDict) (sid cid key : String)
    (c0 : String × PyVal) (hsecK : dget p key = some (.vdict [c0]))
    (step s0 : PyVal) (kw : PyDict) (rest : List PyVal)
    (hx : stepElems step = some (s0 :: .vdict kw :: rest)) :
    resolveNoneStepSub p sid cid key .vnone step =
      .ok (stepNoneResolve key c0.1 step) := by
  unfold resolveNoneStepSub stepNoneResolve
  rw [hx]
  have hlen : ¬ (s0 :: PyVal.vdict kw :: rest).length ≤ 1 := by
    simp only [List.length_cons]
    omega
  simp only [List.head?_cons, pure_bind, except_ok_bind]
  rw [show ((s0 :: PyVal.vdict kw :: rest).get? 1) = some (.vdict kw)
    from rfl]
  simp only [pure_bind, except_ok_bind]
  rw [if_neg hlen, if_neg hlen]
  rcases hkid : kwKeyId kw key with _ | kid
  · rfl
  · have hh := kwKeyId_dhas kw key kid hkid
    obtain ⟨cur, hcur⟩ := Option.isSome_iff_exists.mp
      (show (dget kw kid).isSome = true from hh)
    simp only [hcur, pure_bind, except_ok_bind]
    rcases hf : falsy cur with _ | _
    · simp only [substitute_none_truthy p sid cid key (strVal s0) kid .vnone
        kw cur hcur hf, except_ok_bind, except_pure_eq,
        setStepKwargs_same step s0 kw rest hx, hf, Bool.false_eq_true,
        if_false]
    · simp only [substitute_none_single p sid cid key (strVal s0) kid kw cur
        c0 hcur hf hsecK, except_ok_bind, except_pure_eq, hf,
        eq_self_iff_true, if_true]

theorem resolveNoneStepSub_multi_error (p : PyDict) (sid cid key : String)
    (secK : PyDict) (hsecK : dget p key = some (.vdict secK))
    (hlen : 1 < secK.length) (step s0 : PyVal) (kw : PyDict)
    (rest : List PyVal)
    (hx : stepElems step = some (s0 :: .vdict kw :: rest))
    (kid : String) (cur : PyVal) (hkid : kwKeyId kw key = some kid)
    (hcur : dget kw kid = some cur) (hf : falsy cur = true) :
    ∃ e, resolveNoneStepSub p sid cid key .vnone step = .error e ∧
      ∃ s, e = "ValueError: Multiple " ++ s := by
  unfold resolveNoneStepSub
  rw [hx]
  have hl : ¬ (s0 :: PyVal.vdict kw :: rest).length ≤ 1 := by
    simp only [List.length_cons]
    omega
  simp only [List.head?_cons, pure_bind, except_ok_bind]
  rw [show ((s0 :: PyVal.vdict kw :: rest).get? 1) = some (.vdict kw)
    from rfl]
  simp only [pure_bind, except_ok_bind, hkid]
  rw [if_neg hl]
  obtain ⟨e, he, hP⟩ := substitute_none_multi p sid cid key (strVal s0) kid kw
    cur secK hcur hf hsecK hlen
  rw [he]
  exact ⟨e, rfl, hP⟩

theorem resolveNoneStepSub_id (p : PyDict) (sid cid k : String)
    (glob_val : PyVal) (step : PyVal) (xs : List PyVal)
    (hx : stepElems step = some xs)
    (hok : xs.length ≤ 1 ∨ ∃ s0 kw rest, xs = s0 :: .vdict kw :: rest ∧
      kwKeyId kw k = none) :
    resolveNoneStepSub p sid cid k glob_val step = .ok step := by
  unfold resolveNoneStepSub
  rw [hx]
  rcases hok with hshort | ⟨s0, kw, rest, hxs, hnone⟩
  · simp only [pure_bind, except_ok_bind]
    rw [if_pos hshort]
    rfl
  · subst hxs
    have hl : ¬ (s0 :: PyVal.vdict kw :: rest).length ≤ 1 := by
      simp only [List.length_cons]
      omega
    simp only [List.head?_cons, pure_bind, except_ok_bind]
    rw [show ((s0 :: PyVal.vdict kw :: rest).get? 1) = some (.vdict kw)
      from rfl]
    simp only [pure_bind, except_ok_bind, hnone]
    rw [if_neg hl]
    rfl

end Pycnfg

namespace Pycnfg

theorem dget_nil (k : String) : dget [] k = none := rfl

/-- A step shaped as the `_resolve_none` nonprimitive loop expects for the
target section `key`, and whose kwargs mention no other tree section either
plainly or with the `_id` suffix. -/
def stepC3Shape (keys : List String) (key : String) (step : PyVal) : Bool :=
  match stepElems step with
  | some (_ :: .vdict kw :: _) =>
      keys.all (fun k => k == key || (kwKeyId kw k).isNone)
  | _ => false

/-- A step whose selected kwarg for section `key` is present and falsy, so
`_substitute_none` actually substitutes. -/
def stepC3Bad (key : String) (step : PyVal) : Bool :=
  match stepElems step with
  | some (_ :: .vdict kw :: _) =>
      match kwKeyId kw key with
      | some kid =>
          match dget kw kid with
          | some cur => falsy cur
          | none => false
      | none => false
  | _ => false

theorem kwKeyId_none_iff (kw : PyDict) (key : String) :
    kwKeyId kw key = none ↔
      dhas kw key = false ∧ dhas kw (key ++ "_id") = false := by
  unfold kwKeyId
  by_cases h1 : dhas kw key = true
  · simp [h1]
  · by_cases h2 : dhas kw (key ++ "_id") = true <;> simp [h1, h2]

theorem stepC3Shape_elim (keys : List String) (key : String) (step : PyVal)
    (h : stepC3Shape keys key step = true) :
    ∃ s0 kw rest, stepElems step = some (s0 :: .vdict kw :: rest) ∧
      ∀ k ∈ keys, k ≠ key → kwKeyId kw k = none := by
  unfold stepC3Shape at h
  rcases hx : stepElems step with _ | xs
  · rw [hx] at h
    exact absurd h (by simp)
  rw [hx] at h
  rcases xs with _ | ⟨s0, xs⟩
  · exact absurd h (by simp)
  rcases xs with _ | ⟨x1, rest⟩
  · exact absurd h (by simp)
  rcases x1 with _ | b | n | s | ys | ys | kw | o
  · exact absurd h (by simp)
  · exact absurd h (by simp)
  · exact absurd h (by simp)
  · exact absurd h (by simp)
  · exact absurd h (by simp)
  · exact absurd h (by simp)
  · have h2 : keys.all (fun k => k == key || (kwKeyId kw k).isNone) = true := h
    refine ⟨s0, kw, rest, rfl, ?_⟩
    intro k hk hne
    have hall := List.all_eq_true.mp h2 k hk
    simp only [Bool.or_eq_true, beq_iff_eq] at hall
    rcases hall with h1 | h3
    · exact absurd h1 hne
    · exact Option.isNone_iff_eq_none.mp h3
  · exact absurd h (by simp)

theorem stepC3Bad_elim (key : String) (step : PyVal)
    (h : stepC3Bad key step = true) :
    ∃ s0 kw rest kid cur, stepElems step = some (s0 :: .vdict kw :: rest) ∧
      kwKeyId kw key = some kid ∧ dget kw kid = some cur ∧
      falsy cur = true := by
  unfold stepC3Bad at h
  rcases hx : stepElems step with _ | xs
  · rw [hx] at h
    exact absurd h (by simp)
  rw [hx] at h
  rcases xs with _ | ⟨s0, xs⟩
  · exact absurd h (by simp)
  rcases xs with _ | ⟨x1, rest⟩
  · exact absurd h (by simp)
  rcases x1 with _ | b | n | s | ys | ys | kw | o
  · exact absurd h (by simp)
  · exact absurd h (by simp)
  · exact absurd h (by simp)
  · exact absurd h (by simp)
  · exact absurd h (by simp)
  · exact absurd h (by simp)
  · have h2 : (match kwKeyId kw key with
        | some kid =>
            match dget kw kid with
            | some cur => falsy cur
            | none => false
        | none => false) = true := h
    rcases hkid : kwKeyId kw key with _ | kid
    · rw [hkid] at h2
      exact absurd h2 (by simp)
    rw [hkid] at h2
    have h3 : (match dget kw kid with
        | some cur => falsy cur
        | none => false) = true := h2
    rcases hcur : dget kw kid with _ | cur
    · rw [hcur] at h3
      exact absurd h3 (by simp)
    rw [hcur] at h3
    exact ⟨s0, kw, rest, kid, cur, rfl, hkid, hcur, h3⟩
  · exact absurd h (by simp)

end Pycnfg

namespace Pycnfg

theorem dkeys_nil : dkeys ([] : PyDict) = [] := rfl

theorem resolveNoneStepSub_truthy (p : PyDict) (sid cid key : String)
    (glob_val step s0 : PyVal) (kw : PyDict) (rest : List PyVal)
    (hx : stepElems step = some (s0 :: .vdict kw :: rest))
    (kid : String) (hkid : kwKeyId kw key = some kid)
    (cur : PyVal) (hcur : dget kw kid = some cur) (hf : falsy cur = false) :
    resolveNoneStepSub p sid cid key glob_val step = .ok step := by
  unfold resolveNoneStepSub
  rw [hx]
  have hl : ¬ (s0 :: PyVal.vdict kw :: rest).length ≤ 1 := by
    simp only [List.length_cons]
    omega
  simp only [List.head?_cons, pure_bind, except_ok_bind]
  rw [show ((s0 :: PyVal.vdict kw :: rest).get? 1) = some (.vdict kw)
    from rfl]
  simp only [pure_bind, except_ok_bind, hkid]
  rw [if_neg hl]
  simp only [substitute_none_truthy p sid cid key (strVal s0) kid glob_val
    kw cur hcur hf, except_ok_bind, except_pure_eq,
    setStepKwargs_same step s0 kw rest hx]

theorem stepNoneResolve_falsy (key cid0 : String) (step s0 : PyVal)
    (kw : PyDict) (rest : List PyVal) (cur : PyVal)
    (hx : stepElems step = some (s0 :: .vdict kw :: rest))
    (hcur : dget kw key = some cur) (hf : falsy cur = true) :
    stepNoneResolve key cid0 step =
      setStepKwargs step (dset kw key (.vstr (key ++ "__" ++ cid0))) := by
  have hhas : dhas kw key = true := by
    unfold dhas
    rw [hcur]
    rfl
  have hkid : kwKeyId kw key = some key := by
    unfold kwKeyId
    rw [if_pos hhas]
  have hl : ¬ (s0 :: PyVal.vdict kw :: rest).length ≤ 1 := by
    simp only [List.length_cons]
    omega
  unfold stepNoneResolve
  simp only [hx]
  rw [if_neg hl]
  rw [show ((s0 :: PyVal.vdict kw :: rest).get? 1) = some (.vdict kw)
    from rfl]
  simp only [hkid, hcur, hf, if_true]

theorem stepNoneResolve_shape (keys : List String) (key cid0 : String)
    (step : PyVal) (h : stepC3Shape keys key step = true) :
    stepC3Shape keys key (stepNoneResolve key cid0 step) = true := by
  obtain ⟨s0, kw, rest, hx, hothers⟩ := stepC3Shape_elim keys key step h
  have hl : ¬ (s0 :: PyVal.vdict kw :: rest).length ≤ 1 := by
    simp only [List.length_cons]
    omega
  unfold stepNoneResolve
  simp only [hx]
  rw [if_neg hl]
  rw [show ((s0 :: PyVal.vdict kw :: rest).get? 1) = some (.vdict kw)
    from rfl]
  show stepC3Shape keys key
    (match kwKeyId kw key with
      | none => step
      | some kid =>
          match dget kw kid with
          | some cur =>
              if falsy cur then
                setStepKwargs step
                  (dset kw kid (.vstr (key ++ "__" ++ cid0)))
              else step
          | none => step) = true
  rcases hkid : kwKeyId kw key with _ | kid
  · exact h
  show stepC3Shape keys key
    (match dget kw kid with
      | some cur =>
          if falsy cur then
            setStepKwargs step (dset kw kid (.vstr (key ++ "__" ++ cid0)))
          else step
      | none => step) = true
  rcases hcur : dget kw kid with _ | cur
  · exact h
  show stepC3Shape keys key
    (if falsy cur then
        setStepKwargs step (dset kw kid (.vstr (key ++ "__" ++ cid0)))
      else step) = true
  rcases hf : falsy cur with _ | _
  · exact h
  show stepC3Shape keys key
    (setStepKwargs step (dset kw kid (.vstr (key ++ "__" ++ cid0)))) = true
  have hx2 := stepElems_setStepKwargs step s0 (.vdict kw) rest
    (dset kw kid (.vstr (key ++ "__" ++ cid0))) hx
  unfold stepC3Shape
  simp only [hx2]
  refine List.all_eq_true.mpr ?_
  intro k hk
  by_cases hkk : k = key
  · simp [hkk]
  · have hn := hothers k hk hkk
    obtain ⟨hn1, hn2⟩ := (kwKeyId_none_iff kw k).mp hn
    have hkd : dhas kw kid = true := kwKeyId_dhas kw key kid hkid
    have hne1 : kid ≠ k := by
      intro he
      rw [he, hn1] at hkd
      exact Bool.noConfusion hkd
    have hne2 : kid ≠ k ++ "_id" := by
      intro he
      rw [he, hn2] at hkd
      exact Bool.noConfusion hkd
    have hget1 : dhas (dset kw kid (.vstr (key ++ "__" ++ cid0))) k
        = false := by
      rw [dhas_dset]
      simp [hne1, hn1]
    have hget2 : dhas (dset kw kid (.vstr (key ++ "__" ++ cid0)))
        (k ++ "_id") = false := by
      rw [dhas_dset]
      simp [hne2, hn2]
    have hkn : kwKeyId (dset kw kid (.vstr (key ++ "__" ++ cid0))) k
        = none := (kwKeyId_none_iff _ k).mpr ⟨hget1, hget2⟩
    simp [hkk, hkn]

theorem mapM_error_pred {α β : Type} (f : α → Except String β)
    (P : String → Prop) (l : List α)
    (hall : ∀ a ∈ l, (∃ b, f a = .ok b) ∨ ∃ e, f a = .error e ∧ P e)
    (hbad : ∃ a, a ∈ l ∧ ∃ e, f a = .error e) :
    ∃ e, l.mapM f = .error e ∧ P e := by
  induction l with
  | nil =>
      obtain ⟨a, ha, _⟩ := hbad
      exact absurd ha (List.not_mem_nil a)
  | cons a rest ih =>
      rcases hall a (by simp) with ⟨b, hb⟩ | ⟨e, he, hPe⟩
      · obtain ⟨a0, ha0, e0, he0⟩ := hbad
        rcases List.mem_cons.mp ha0 with heq | hmem
        · rw [heq, hb] at he0
          exact absurd he0 (by simp)
        · obtain ⟨e, hme, hPe⟩ :=
            ih (fun x hx => hall x (List.mem_cons_of_mem a hx))
              ⟨a0, hmem, e0, he0⟩
          refine ⟨e, ?_, hPe⟩
          simp only [List.mapM_cons, hb, except_ok_bind, hme,
            except_error_bind]
      · refine ⟨e, ?_, hPe⟩
        simp only [List.mapM_cons, he, except_error_bind]

end Pycnfg

namespace Pycnfg

theorem resolveNoneKeyStep_id (p : PyDict) (sid cid k : String)
    (conf : PyDict) (steps : List PyVal)
    (hsteps : dget conf "steps" = some (.vlist steps))
    (hid : ∀ step ∈ steps,
      resolveNoneStepSub p sid cid k .vnone step = .ok step) :
    resolveNoneKeyStep p sid cid [] conf k = .ok conf := by
  unfold resolveNoneKeyStep
  simp only [dget_nil, hsteps, pure_bind, except_ok_bind,
    mapM_eq_map (resolveNoneStepSub p sid cid k .vnone) id steps
      (fun a ha => hid a ha),
    List.map_id, except_pure_eq]
  rw [dset_same conf "steps" (.vlist steps) hsteps]

theorem resolveNoneKeyStep_single (p : PyDict) (sid cid key : String)
    (c0 : String × PyVal) (hsecK : dget p key = some (.vdict [c0]))
    (conf : PyDict) (steps : List PyVal)
    (hsteps : dget conf "steps" = some (.vlist steps))
    (hshape : ∀ step ∈ steps, ∃ s0 kw rest,
      stepElems step = some (s0 :: .vdict kw :: rest)) :
    resolveNoneKeyStep p sid cid [] conf key =
      .ok (dset conf "steps"
        (.vlist (steps.map (stepNoneResolve key c0.1)))) := by
  have hmap : steps.mapM (resolveNoneStepSub p sid cid key .vnone) =
      .ok (steps.map (stepNoneResolve key c0.1)) := by
    refine mapM_eq_map _ _ steps ?_
    intro a ha
    obtain ⟨s0, kw, rest, hx⟩ := hshape a ha
    exact resolveNoneStepSub_single p sid cid key c0 hsecK a s0 kw rest hx
  unfold resolveNoneKeyStep
  simp only [dget_nil, hsteps, pure_bind, except_ok_bind, hmap,
    except_pure_eq]

theorem resolveNoneKeyStep_error (p : PyDict) (sid cid key : String)
    (secK : PyDict) (hsecK : dget p key = some (.vdict secK))
    (hlen : 1 < secK.length) (conf : PyDict) (steps : List PyVal)
    (hsteps : dget conf "steps" = some (.vlist steps))
    (hshape : ∀ step ∈ steps, ∃ s0 kw rest,
      stepElems step = some (s0 :: .vdict kw :: rest))
    (hbad : ∃ step, step ∈ steps ∧ stepC3Bad key step = true) :
    ∃ e, resolveNoneKeyStep p sid cid [] conf key = .error e ∧
      ∃ s, e = "ValueError: Multiple " ++ s := by
  have hall : ∀ a ∈ steps,
      (∃ b, resolveNoneStepSub p sid cid key .vnone a = .ok b) ∨
        ∃ e, resolveNoneStepSub p sid cid key .vnone a = .error e ∧
          ∃ s, e = "ValueError: Multiple " ++ s := by
    intro a ha
    obtain ⟨s0, kw, rest, hx⟩ := hshape a ha
    rcases hkid : kwKeyId kw key with _ | kid
    · exact Or.inl ⟨a, resolveNoneStepSub_id p sid cid key .vnone a _ hx
        (Or.inr ⟨s0, kw, rest, rfl, hkid⟩)⟩
    · have hh := kwKeyId_dhas kw key kid hkid
      obtain ⟨cur, hcur⟩ := Option.isSome_iff_exists.mp
        (show (dget kw kid).isSome = true from hh)
      rcases hf : falsy cur with _ | _
      · exact Or.inl ⟨a, resolveNoneStepSub_truthy p sid cid key .vnone a s0
          kw rest hx kid hkid cur hcur hf⟩
      · exact Or.inr (resolveNoneStepSub_multi_error p sid cid key secK
          hsecK hlen a s0 kw rest hx kid cur hkid hcur hf)
  have hbad2 : ∃ a, a ∈ steps ∧
      ∃ e, resolveNoneStepSub p sid cid key .vnone a = .error e := by
    obtain ⟨step, hmem, hb⟩ := hbad
    obtain ⟨s0, kw, rest, kid, cur, hx, hkid, hcur, hf⟩ :=
      stepC3Bad_elim key step hb
    obtain ⟨e, he, _⟩ := resolveNoneStepSub_multi_error p sid cid key secK
      hsecK hlen step s0 kw rest hx kid cur hkid hcur hf
    exact ⟨step, hmem, e, he⟩
  obtain ⟨e, hme, hPe⟩ := mapM_error_pred
    (resolveNoneStepSub p sid cid key .vnone) _ steps hall hbad2
  refine ⟨e, ?_, hPe⟩
  unfold resolveNoneKeyStep
  simp only [dget_nil, hsteps, pure_bind, except_ok_bind, hme,
    except_error_bind]

theorem stepC3Shape_id (p : PyDict) (sid cid key k : String) (step : PyVal)
    (hsh : stepC3Shape (dkeys p) key step = true)
    (hk : k ∈ dkeys p) (hne : k ≠ key) :
    resolveNoneStepSub p sid cid k .vnone step = .ok step := by
  obtain ⟨s0, kw, rest, hx, hothers⟩ := stepC3Shape_elim (dkeys p) key step hsh
  exact resolveNoneStepSub_id p sid cid k .vnone step _ hx
    (Or.inr ⟨s0, kw, rest, rfl, hothers k hk hne⟩)

theorem resolveNone_fold_id (p : PyDict) (sid cid : String) (l : List String)
    (conf : PyDict) (steps : List PyVal)
    (hsteps : dget conf "steps" = some (.vlist steps))
    (hid : ∀ k ∈ l, ∀ step ∈ steps,
      resolveNoneStepSub p sid cid k .vnone step = .ok step) :
    l.foldlM (resolveNoneKeyStep p sid cid []) conf = .ok conf :=
  foldlM_id l conf _ (fun k hk =>
    resolveNoneKeyStep_id p sid cid k conf steps hsteps (hid k hk))

end Pycnfg

namespace Pycnfg

theorem resolve_none_single_char (p : PyDict) (sid cid key : String)
    (sec conf : PyDict) (steps : List PyVal) (c0 : String × PyVal)
    (hnd : (dkeys p).Nodup)
    (hsec : dget p sid = some (.vdict sec))
    (hconf : dget sec cid = some (.vdict conf))
    (hglob : dget conf "global" = some (.vdict []))
    (hsteps : dget conf "steps" = some (.vlist steps))
    (hsecK : dget p key = some (.vdict [c0]))
    (hshape : ∀ step ∈ steps, stepC3Shape (dkeys p) key step = true) :
    Handler.resolve_none p sid cid =
      .ok (dset p sid (.vdict (dset sec cid (.vdict (dset conf "steps"
        (.vlist (steps.map (stepNoneResolve key c0.1)))))))) := by
  have hmem : key ∈ dkeys p := (mem_dkeys_iff_dhas p key).mpr (by
    unfold dhas
    rw [hsecK]
    rfl)
  obtain ⟨l1, l2, heq⟩ := List.append_of_mem hmem
  have hnd2 : (l1 ++ key :: l2).Nodup := heq ▸ hnd
  have hdisj := List.disjoint_of_nodup_append hnd2
  have knotin1 : key ∉ l1 := fun hm => hdisj hm (List.mem_cons_self key l2)
  have knotin2 : key ∉ l2 := (List.nodup_cons.mp hnd2.of_append_right).1
  have fold1 : l1.foldlM (resolveNoneKeyStep p sid cid []) conf =
      .ok conf := by
    refine resolveNone_fold_id p sid cid l1 conf steps hsteps ?_
    intro k hk step hstep
    have hkmem : k ∈ dkeys p := heq ▸ List.mem_append_left _ hk
    have hne : k ≠ key := fun he => knotin1 (he ▸ hk)
    exact stepC3Shape_id p sid cid key k step (hshape step hstep) hkmem hne
  have fkey : resolveNoneKeyStep p sid cid [] conf key =
      .ok (dset conf "steps"
        (.vlist (steps.map (stepNoneResolve key c0.1)))) := by
    refine resolveNoneKeyStep_single p sid cid key c0 hsecK conf steps
      hsteps ?_
    intro step hstep
    obtain ⟨s0, kw, rest, hx, _⟩ :=
      stepC3Shape_elim (dkeys p) key step (hshape step hstep)
    exact ⟨s0, kw, rest, hx⟩
  have hsteps2 : dget (dset conf "steps"
      (.vlist (steps.map (stepNoneResolve key c0.1)))) "steps" =
      some (.vlist (steps.map (stepNoneResolve key c0.1))) :=
    dget_dset_self conf "steps" _
  have fold2 : l2.foldlM (resolveNoneKeyStep p sid cid [])
      (dset conf "steps" (.vlist (steps.map (stepNoneResolve key c0.1)))) =
      .ok (dset conf "steps"
        (.vlist (steps.map (stepNoneResolve key c0.1)))) := by
    refine resolveNone_fold_id p sid cid l2 _ _ hsteps2 ?_
    intro k hk step' hstep'
    obtain ⟨step, hstep, hmap⟩ := List.mem_map.mp hstep'
    have hsh2 : stepC3Shape (dkeys p) key step' = true := by
      rw [← hmap]
      exact stepNoneResolve_shape (dkeys p) key c0.1 step (hshape step hstep)
    have hkmem : k ∈ dkeys p := heq ▸ List.mem_append_right _
      (List.mem_cons_of_mem _ hk)
    have hne : k ≠ key := fun he => knotin2 (he ▸ hk)
    exact stepC3Shape_id p sid cid key k step' hsh2 hkmem hne
  have hfold : (dkeys p).foldlM (resolveNoneKeyStep p sid cid []) conf =
      .ok (dset conf "steps"
        (.vlist (steps.map (stepNoneResolve key c0.1)))) := by
    rw [heq]
    simp only [List.foldlM_append, List.foldlM_cons, fold1, except_ok_bind,
      fkey, fold2]
  unfold Handler.resolve_none
  simp only [hsec, hconf, hglob, pure_bind, except_ok_bind]
  simp only [dkeys_nil, List.filter_nil, List.foldlM_nil, pure_bind]
  simp only [hfold, except_ok_bind, except_pure_eq]

theorem resolve_none_multi_char (p : PyDict) (sid cid key : String)
    (sec conf : PyDict) (steps : List PyVal) (secK : PyDict)
    (hnd : (dkeys p).Nodup)
    (hsec : dget p sid = some (.vdict sec))
    (hconf : dget sec cid = some (.vdict conf))
    (hglob : dget conf "global" = some (.vdict []))
    (hsteps : dget conf "steps" = some (.vlist steps))
    (hsecK : dget p key = some (.vdict secK))
    (hlen : 1 < secK.length)
    (hshape : ∀ step ∈ steps, stepC3Shape (dkeys p) key step = true)
    (hbad : ∃ step, step ∈ steps ∧ stepC3Bad key step = true) :
    ∃ e, Handler.resolve_none p sid cid = .error e ∧
      ∃ s, e = "ValueError: Multiple " ++ s := by
  have hmem : key ∈ dkeys p := (mem_dkeys_iff_dhas p key).mpr (by
    unfold dhas
    rw [hsecK]
    rfl)
  obtain ⟨l1, l2, heq⟩ := List.append_of_mem hmem
  have hnd2 : (l1 ++ key :: l2).Nodup := heq ▸ hnd
  have hdisj := List.disjoint_of_nodup_append hnd2
  have knotin1 : key ∉ l1 := fun hm => hdisj hm (List.mem_cons_self key l2)
  have fold1 : l1.foldlM (resolveNoneKeyStep p sid cid []) conf =
      .ok conf := by
    refine resolveNone_fold_id p sid cid l1 conf steps hsteps ?_
    intro k hk step hstep
    have hkmem : k ∈ dkeys p := heq ▸ List.mem_append_left _ hk
    have hne : k ≠ key := fun he => knotin1 (he ▸ hk)
    exact stepC3Shape_id p sid cid key k step (hshape step hstep) hkmem hne
  obtain ⟨e, ferr, hPe⟩ := resolveNoneKeyStep_error p sid cid key secK hsecK
    hlen conf steps hsteps
    (fun step hstep => by
      obtain ⟨s0, kw, rest, hx, _⟩ :=
        stepC3Shape_elim (dkeys p) key step (hshape step hstep)
      exact ⟨s0, kw, rest, hx⟩)
    hbad
  have hfold : (dkeys p).foldlM (resolveNoneKeyStep p sid cid []) conf =
      .error e := by
    rw [heq]
    simp only [List.foldlM_append, List.foldlM_cons, fold1, except_ok_bind,
      ferr, except_error_bind]
  refine ⟨e, ?_, hPe⟩
  unfold Handler.resolve_none
  simp only [hsec, hconf, hglob, pure_bind, except_ok_bind]
  simp only [dkeys_nil, List.filter_nil, List.foldlM_nil, pure_bind]
  simp only [hfold, except_error_bind]

end Pycnfg

namespace Pycnfg

def c3wkw : PyDict := [("model", PyVal.vnone)]

def c3wstep : PyVal := .vtuple [.vstr "fit", .vdict c3wkw]

def c3wconf : PyDict :=
  [("global", .vdict []), ("steps", .vlist [c3wstep])]

def c3wtree1 : PyDict :=
  [("sect", .vdict [("conf0", .vdict c3wconf)]),
   ("model", .vdict [("m0", .vdict [])])]

def c3wtree2 : PyDict :=
  [("sect", .vdict [("conf0", .vdict c3wconf)]),
   ("model", .vdict [("m0", .vdict []), ("m1", .vdict [])])]

/-- C3: with None-resolution running and no applicable global override, a
step kwarg that names an existing top-level section (plainly or with the
`_id` suffix; when both are supplied only the plain one is considered) and is
unset (falsy) is resolved against that section: if the section has exactly
one sub-configuration the selected kwarg is set to the synthesized composite
id string `key__confId`, and if it has more than one the run fails - with a
`ValueError` whose message starts "ValueError: Multiple", not an
AmbiguousReferenceError, which does not exist in the code. -/
theorem resolve_none_section_reference (p : PyDict) (sid cid key : String)
    (sec conf : PyDict) (steps : List PyVal) (secK : PyDict)
    (hnd : (dkeys p).Nodup)
    (hsec : dget p sid = some (.vdict sec))
    (hconf : dget sec cid = some (.vdict conf))
    (hglob : dget conf "global" = some (.vdict []))
    (hsteps : dget conf "steps" = some (.vlist steps))
    (hsecK : dget p key = some (.vdict secK))
    (hshape : ∀ step ∈ steps, stepC3Shape (dkeys p) key step = true) :
    (∀ c0, secK = [c0] →
      Handler.resolve_none p sid cid =
        .ok (dset p sid (.vdict (dset sec cid (.vdict (dset conf "steps"
          (.vlist (steps.map (stepNoneResolve key c0.1)))))))) ∧
      ∀ step s0 kw rest cur,
        stepElems step = some (s0 :: .vdict kw :: rest) →
        dget kw key = some cur → falsy cur = true →
        stepNoneResolve key c0.1 step =
          setStepKwargs step (dset kw key (.vstr (key ++ "__" ++ c0.1)))) ∧
    (1 < secK.length → (∃ step, step ∈ steps ∧ stepC3Bad key step = true) →
      ∃ e, Handler.resolve_none p sid cid = .error e ∧
        ∃ s, e = "ValueError: Multiple " ++ s) := by
  constructor
  · intro c0 hc0
    subst hc0
    exact ⟨resolve_none_single_char p sid cid key sec conf steps c0 hnd hsec
        hconf hglob hsteps hsecK hshape,
      fun step s0 kw rest cur hx hcur hf =>
        stepNoneResolve_falsy key c0.1 step s0 kw rest cur hx hcur hf⟩
  · intro hlen hbad
    exact resolve_none_multi_char p sid cid key sec conf steps secK hnd hsec
      hconf hglob hsteps hsecK hlen hshape hbad

/-- Witness for C3: on a tree whose `model` section has one sub-configuration
`m0`, the unset step kwarg `model` becomes the string `model__m0`; with two
sub-configurations the same tree fails with the ValueError. -/
theorem resolve_none_section_reference_witness :
    Handler.resolve_none c3wtree1 "sect" "conf0" =
      .ok [("sect", .vdict [("conf0", .vdict
        [("global", .vdict []),
         ("steps", .vlist [.vtuple [.vstr "fit",
            .vdict [("model", .vstr "model__m0")]]])])]),
        ("model", .vdict [("m0", .vdict [])])] ∧
    (∃ e, Handler.resolve_none c3wtree2 "sect" "conf0" = .error e ∧
      ∃ s, e = "ValueError: Multiple " ++ s) := by
  constructor
  · have h := ((resolve_none_section_reference c3wtree1 "sect" "conf0"
      "model" [("conf0", .vdict c3wconf)] c3wconf [c3wstep]
      [("m0", .vdict [])] (by decide) rfl rfl rfl rfl rfl
      (by decide)).1 ("m0", .vdict []) rfl).1
    rw [h]
    rfl
  · exact (resolve_none_section_reference c3wtree2 "sect" "conf0"
      "model" [("conf0", .vdict c3wconf)] c3wconf [c3wstep]
      [("m0", .vdict []), ("m1", .vdict [])] (by decide) rfl rfl rfl rfl rfl
      (by decide)).2 (by decide) ⟨c3wstep, by decide, by decide⟩

end Pycnfg
